import Mathlib

/-!
# msgp code generator: omitempty support of the marshal pass

A shallow embedding of `gen/oempty.go` and `gen/marshal.go`.

* The generator is embedded as a state transformer on `marshalGen`.  Every
  call of the printer appends one `Line` to the printer output; each
  constructor of `Line` stands for one format string of the source, quoted
  in its doc comment.
* The generated Go procedure is given a meaning by `run`, an interpreter of
  the emitted lines over a run-time `Instance`.
* Parts of the repository that are outside the two source files (the msgp
  run-time library, the printer, the type model declarations) are either
  parameters (`Collab`, `Instance`) or modelled from the specification.
-/

namespace Gen

/-! ## Type model (declarations of `gen/elem.go`, used by both source files) -/

/-- Primitive kinds named by `oempty.go` and `marshal.go`. -/
inductive Primitive
  | Bytes | String | Float32 | Float64 | Complex64 | Complex128
  | Uint | Uint8 | Uint16 | Uint32 | Uint64 | Byte
  | Int | Int8 | Int16 | Int32 | Int64 | Bool
  | Intf | Time | Ext | IDENT
  deriving DecidableEq, Repr

/-- Shim modes of a base element: `Cast` is a pure representation cast,
`Convert` a conversion that can fail. -/
inductive ShimMode
  | Cast | Convert
  deriving DecidableEq, Repr

/-- A base element.  `vname` is `Varname()`; `BaseName`, `BaseType` and
`tobase` hold what the accessors `BaseName()`, `BaseType()` and
`tobaseConvert(b)` of the type model return for this element. -/
structure BaseElem where
  vname : String
  Value : Primitive
  Convert : Bool
  ShimMode : ShimMode
  BaseName : String
  BaseType : String
  tobase : String
  deriving DecidableEq, Repr

/-- A record field: wire key, the tag split into parts (the first part is the
wire key, the others are directive tokens), declared name and element. -/
structure StructField (α : Type) where
  FieldTag : String
  FieldTagParts : List String
  FieldName : String
  FieldElem : α
  deriving Repr

/-- The schema graph.  Every node carries its variable name (`Varname()`). -/
inductive Elem
  | Base (b : BaseElem)
  | Struct (vname : String) (AsTuple : Bool) (Fields : List (StructField Elem))
  | Map (vname Keyidx Validx : String) (Value : Elem)
  | Slice (vname Index : String) (Els : Elem)
  | Array (vname Index Size : String) (Els : Elem)
  | Ptr (vname : String) (Value : Elem)

/-- The accessor `Varname()`. -/
def Elem.Varname : Elem → String
  | .Base b => b.vname
  | .Struct v _ _ => v
  | .Map v _ _ _ => v
  | .Slice v _ _ => v
  | .Array v _ _ _ => v
  | .Ptr v _ => v

/-! ## `gen/oempty.go` -/

/-- Translation of `isSupportedElem`. -/
def isSupportedElem : Elem → Bool
  | .Base el =>
    match el.Value with
    | .Bytes | .String | .Float32 | .Float64 | .Complex64 | .Complex128
    | .Uint | .Uint8 | .Uint16 | .Uint32 | .Uint64 | .Byte
    | .Int | .Int8 | .Int16 | .Int32 | .Int64 | .Bool => true
    | _ => false
  | _ => false

/-- Translation of `isEncField`: fewer than two tag parts give `false`;
otherwise the parts after the first are searched for one of the two tokens
and, when one is found, the answer is `isSupportedElem`. -/
def isEncField (sf : StructField Elem) : Bool :=
  if sf.FieldTagParts.length < 2 then false
  else if (sf.FieldTagParts.drop 1).any
      (fun p => p == "omitempty" || p == "omitemptyenc") then
    isSupportedElem sf.FieldElem
  else false

/-- Translation of `isEncForAnyFields`. -/
def isEncForAnyFields : List (StructField Elem) → Bool
  | [] => false
  | sf :: sfs => if isEncField sf then true else isEncForAnyFields sfs

/-- Translation of `isDecField`. -/
def isDecField (sf : StructField Elem) : Bool :=
  if sf.FieldTagParts.length < 2 then false
  else if (sf.FieldTagParts.drop 1).any
      (fun p => p == "omitempty" || p == "omitemptydec") then
    isSupportedElem sf.FieldElem
  else false

/-- Translation of `isDecForAnyFields`. -/
def isDecForAnyFields : List (StructField Elem) → Bool
  | [] => false
  | sf :: sfs => if isDecField sf then true else isDecForAnyFields sfs

/-- The Go expressions returned by `emptyExpr`. -/
inductive EmptyTest
  | lenZero (v : String)        -- len(v) == 0
  | complexZero (v : String)    -- v == complex(0,0)
  | numZero (v : String)        -- v == 0
  | notTrue (v : String)        -- !v
  deriving DecidableEq, Repr

/-- Go text of an emptiness test. -/
def EmptyTest.render : EmptyTest → String
  | .lenZero v => "len(" ++ v ++ ") == 0"
  | .complexZero v => v ++ " == complex(0,0)"
  | .numZero v => v ++ " == 0"
  | .notTrue v => "!" ++ v

/-- Translation of `emptyExpr`; `none` is the panic on an unsupported Elem. -/
def emptyExpr (elem : Elem) (varname : String) : Option EmptyTest :=
  match elem with
  | .Base el =>
    match el.Value with
    | .Bytes => some (.lenZero varname)
    | .String => some (.lenZero varname)
    | .Complex64 | .Complex128 => some (.complexZero varname)
    | .Float32 | .Float64 | .Uint | .Uint8 | .Uint16 | .Uint32 | .Uint64
    | .Byte | .Int | .Int8 | .Int16 | .Int32 | .Int64 => some (.numZero varname)
    | .Bool => some (.notTrue varname)
    | _ => none
  | _ => none

/-- The Go statements returned by `emptyAssign`. -/
inductive EmptyAssign
  | setNil (v : String)          -- v = nil
  | setEmptyString (v : String)  -- v = ""
  | setComplexZero (v : String)  -- v = complex(0,0)
  | setZero (v : String)         -- v = 0
  | setFalse (v : String)        -- v = false
  deriving DecidableEq, Repr

/-- Translation of `emptyAssign`; `none` is the panic on an unsupported Elem. -/
def emptyAssign (elem : Elem) (varname : String) : Option EmptyAssign :=
  match elem with
  | .Base el =>
    match el.Value with
    | .Bytes => some (.setNil varname)
    | .String => some (.setEmptyString varname)
    | .Complex64 | .Complex128 => some (.setComplexZero varname)
    | .Float32 | .Float64 | .Uint | .Uint8 | .Uint16 | .Uint32 | .Uint64
    | .Byte | .Int | .Int8 | .Int16 | .Int32 | .Int64 => some (.setZero varname)
    | .Bool => some (.setFalse varname)
    | _ => none
  | _ => none

/-- The Go types returned by `bmaskType`. -/
inductive MaskType
  | uint8 | uint16 | uint32 | uint64
  | array (len : Nat)            -- [len]uint64
  deriving DecidableEq, Repr

/-- Go text of a mask type. -/
def MaskType.render : MaskType → String
  | .uint8 => "uint8"
  | .uint16 => "uint16"
  | .uint32 => "uint32"
  | .uint64 => "uint64"
  | .array k => "[" ++ toString k ++ "]uint64"

/-- Bit width of one word of the representation. -/
def MaskType.bits : MaskType → Nat
  | .uint8 => 8
  | .uint16 => 16
  | .uint32 => 32
  | .uint64 => 64
  | .array _ => 64

/-- Number of words of the representation. -/
def MaskType.words : MaskType → Nat
  | .array k => k
  | _ => 1

/-- Translation of `bmaskType`. -/
def bmaskType (ln : Nat) : MaskType :=
  if ln ≤ 8 then .uint8
  else if ln ≤ 16 then .uint16
  else if ln ≤ 32 then .uint32
  else if ln ≤ 64 then .uint64
  else .array ((ln >>> 6) + 1)

/-- The constant `uint64(1) << (uint64(offset) & 0x3F)` of `bmaskRead` and
`bmaskAssign1`, in 64-bit arithmetic. -/
def bmaskBit (offset : Nat) : Nat :=
  (1 <<< ((offset % 2 ^ 64) &&& 0x3F)) % 2 ^ 64

/-- The expression `(varname[index]&0xBIT)` returned by `bmaskRead`; the
index part is absent when `index = none`. -/
structure MaskRead where
  varname : String
  index : Option Nat
  bit : Nat
  deriving DecidableEq, Repr

/-- The statement `varname[index] |= 0xBIT` returned by `bmaskAssign1`. -/
structure MaskAssign where
  varname : String
  index : Option Nat
  bit : Nat
  deriving DecidableEq, Repr

/-- Translation of `bmaskRead`. -/
def bmaskRead (varname : String) (offset ln : Nat) : MaskRead :=
  { varname := varname
    index := if ln > 64 then some (offset >>> 6) else none
    bit := bmaskBit offset }

/-- Translation of `bmaskAssign1`. -/
def bmaskAssign1 (varname : String) (offset ln : Nat) : MaskAssign :=
  { varname := varname
    index := if ln > 64 then some (offset >>> 6) else none
    bit := bmaskBit offset }

/-- Byte-valued Go expressions in the argument lists of the dynamic header. -/
inductive ByteExpr
  | lit (b : Nat)                   -- 0xde
  | fixmap (v : String)             -- 0x80 | (uint8(v)&0x0F)
  | u8 (v : String)                 -- uint8(v)
  | u8shr (v : String) (k : Nat)    -- uint8(v>>k)
  deriving DecidableEq, Repr

/-- Go text of a byte expression. -/
def ByteExpr.render : ByteExpr → String
  | .lit b => "0x" ++ String.mk (Nat.toDigits 16 b)
  | .fixmap v => "0x80 | (uint8(" ++ v ++ ")&0x0F)"
  | .u8 v => "uint8(" ++ v ++ ")"
  | .u8shr v k => "uint8(" ++ v ++ ">>" ++ toString k ++ ")"

/-- One comma-separated item of an argument list: the expressions written in
it one after the other, separated by blanks.  It is a Go expression only when
it holds exactly one. -/
abbrev ArgItem := List ByteExpr

/-- Go text of an argument list: items joined by a comma and a blank, the
expressions of one item joined by a blank. -/
def renderArgs (args : List ArgItem) : String :=
  ", ".intercalate (args.map fun item => " ".intercalate (item.map ByteExpr.render))

/-- The variable a value append works on: a variable or expression of the
marshalled value, printed as it is, or a temporary declared by the generated
code under an identifier drawn from `randIdent`. -/
inductive Operand
  | name (s : String)
  | temp (ident : String)
  deriving DecidableEq, Repr

/-- Format of the argument of a `rawAppend` call. -/
inductive ArgFmt
  | literalFmt      -- %s
  | lenAsUint32     -- uint32(len(%s))
  | sliceAll        -- (%s)[:]
  deriving DecidableEq, Repr

/-- Path segments of the generation context: `PushString` pushes a quoted
field name, `PushVar` a variable name. -/
inductive PathSeg
  | str (s : String)
  | var (s : String)
  deriving DecidableEq, Repr

/-- The comments printed by the marshal pass. -/
inductive Comment
  | implements                      -- MarshalMsg implements msgp.Marshaler
  | arrayHeader (n : Nat)           -- array header, size %d
  | mapHeader (n : Nat)             -- map header, size %d
  | omitCheck                       -- omitempty: check for empty values
  | dynHeader (v : String)          -- dynamic map header, size %s
  | keyString (tag : String)        -- string %q
  deriving DecidableEq, Repr

/-- One printer call of the generator.  The comment after each constructor is
the format string of the source. -/
inductive Line
  | comment (c : Comment)                       -- // ...
  | funcHeader (vname recv : String)            -- func (%s %s) MarshalMsg(b []byte) (o []byte, err error) {
  | require (c : String)                        -- o = msgp.Require(b, %s.Msgsize())
  | countDecl (v : String) (n : Nat)            -- %s := %d
  | maskDecl (v : String) (t : MaskType)        -- var %s %s; _ = %s
  | ifEmpty (c : EmptyTest)                     -- if %s {
  | decr (v : String)                           -- %s--
  | maskSet (a : MaskAssign)                    -- %s
  | close                                       -- }
  | dynAppend (args : List ArgItem)             -- o = append(o, ...)
  | enAppend (args : List ArgItem)              -- err = en.Append(...)
  | switchOpen                                  -- switch {
  | caseLe (v : String) (k : Nat)               -- case %s <= 15:
  | defaultArm                                  -- default:
  | errReturn                                   -- if err != nil { return }
  | ifZeroReturn (v : String)                   -- if %s == 0 { return }
  | ifMask (r : MaskRead)                       -- if %s == 0 { // if not empty
  | rawbytes (bts : List Nat)                   -- o = append(o, 0x..,0x..,)
  | rawAppend (typ : String) (argfmt : ArgFmt) (arg : Operand)  -- o = msgp.Append%s(o, %s)
  | forMap (k v m : String)                     -- for %s, %s := range %s {
  | forRange (idx iter : String)                -- for %s := range %s {
  | ifNilElse (v : String)                      -- if %s == nil { o = msgp.AppendNil(o) } else {
  | varDecl (v typ : String)                    -- var %s %s
  | convAssign (v expr : String)                -- %s, err = %s
  | marshalMsg (v : Operand)                    -- o, err = %s.MarshalMsg(o)
  | appendChecked (name : String) (v : Operand) -- o, err = msgp.Append%s(o, %s)
  | wrapErrCheck (ctx : List PathSeg)           -- if err != nil { err = msgp.WrapError(err, ctx); return }
  | nakedReturn                                 -- return }
  deriving DecidableEq, Repr

/-- The printer: the lines written so far and whether a write error has been
recorded (`p.err != nil`).  Writing to the underlying writer itself never
fails here. -/
structure printer where
  out : List Line
  err : Bool
  deriving DecidableEq, Repr

/-- The printer method `ok`. -/
def printer.ok (p : printer) : Bool := !p.err

/-- The printer methods `print` and `printf`: nothing is written once an
error has been recorded. -/
def printer.printf (p : printer) (l : Line) : printer :=
  if p.err then p else { p with out := p.out ++ [l] }

/-- The constant `math.MaxUint16`. -/
def MaxUint16 : Nat := 65535

/-- Translation of `writeMarshalDynMapHeader`. -/
def writeMarshalDynMapHeader (p : printer) (sizeVarname : String) (maxSize : Nat) : printer :=
  if maxSize ≤ 15 then
    p.printf (.dynAppend [[.fixmap sizeVarname]])
  else if maxSize ≤ MaxUint16 then
    let p := p.printf .switchOpen
    let p := p.printf (.caseLe sizeVarname 15)
    let p := p.printf (.dynAppend [[.fixmap sizeVarname]])
    let p := p.printf .defaultArm
    let p := p.printf (.dynAppend [[.lit 0xde], [.u8shr sizeVarname 8], [.u8 sizeVarname]])
    p.printf .close
  else
    let p := p.printf .switchOpen
    let p := p.printf (.caseLe sizeVarname 15)
    let p := p.printf (.dynAppend [[.fixmap sizeVarname]])
    let p := p.printf (.caseLe sizeVarname MaxUint16)
    let p := p.printf (.dynAppend [[.lit 0xde], [.u8shr sizeVarname 8], [.u8 sizeVarname]])
    let p := p.printf .defaultArm
    let p := p.printf (.dynAppend [[.lit 0xdf], [.u8shr sizeVarname 24],
      [.u8shr sizeVarname 16], [.u8shr sizeVarname 8, .u8 sizeVarname]])
    p.printf .close

/-- Translation of `writeEncodeDynMapHeader`. -/
def writeEncodeDynMapHeader (p : printer) (sizeVarname : String) (maxSize : Nat) : printer :=
  let p :=
    if maxSize ≤ 15 then
      p.printf (.enAppend [[.fixmap sizeVarname]])
    else if maxSize ≤ MaxUint16 then
      let p := p.printf .switchOpen
      let p := p.printf (.caseLe sizeVarname 15)
      let p := p.printf (.enAppend [[.fixmap sizeVarname]])
      let p := p.printf .defaultArm
      let p := p.printf (.enAppend [[.lit 0xde], [.u8shr sizeVarname 8], [.u8 sizeVarname]])
      p.printf .close
    else
      let p := p.printf .switchOpen
      let p := p.printf (.caseLe sizeVarname 15)
      let p := p.printf (.enAppend [[.fixmap sizeVarname]])
      let p := p.printf (.caseLe sizeVarname MaxUint16)
      let p := p.printf (.enAppend [[.lit 0xde], [.u8shr sizeVarname 8], [.u8 sizeVarname]])
      let p := p.printf .defaultArm
      let p := p.printf (.enAppend [[.lit 0xdf], [.u8shr sizeVarname 24],
        [.u8shr sizeVarname 16], [.u8shr sizeVarname 8, .u8 sizeVarname]])
      p.printf .close
  p.printf .errReturn

/-! ## `gen/marshal.go` -/

/-- Collaborators that are outside the two source files and on which the
specification fixes no bytes or text; they are parameters of the generator.
`AppendArrayHeader sz` and `AppendString s` are the bytes that
`msgp.AppendArrayHeader(nil, sz)` and `msgp.AppendString(nil, s)` return. -/
structure Collab where
  AppendArrayHeader : Nat → List Nat
  AppendString : String → List Nat
  randIdent : Nat → String
  coerceArraySize : String → String
  imutMethodReceiver : Elem → String
  IsPrintable : Elem → Bool

/-- Modelled from the spec: `msgp.AppendMapHeader` belongs to the run-time
library, which is not among the source files.  Section 6: "Map header: count
at most 15 gives 0x80 | count; count at most 65535 gives 0xDE, hi8(count),
lo8(count); else 0xDF and 4 big-endian count bytes." -/
def AppendMapHeader (b : List Nat) (sz : Nat) : List Nat :=
  if sz ≤ 15 then b ++ [0x80 ||| sz]
  else if sz ≤ 65535 then b ++ [0xde, (sz >>> 8) % 256, sz % 256]
  else b ++ [0xdf, (sz >>> 24) % 256, (sz >>> 16) % 256, (sz >>> 8) % 256, sz % 256]

/-- The constant `mapHeader` of the generator package. -/
def mapHeader : String := "MapHeader"

/-- The constant `arrayHeader` of the generator package. -/
def arrayHeader : String := "ArrayHeader"

/-- The constant `stringTyp` of the generator package. -/
def stringTyp : String := "String"

/-- The call `strings.ReplaceAll(s, old, new)` for a one-character `old`. -/
def ReplaceAll (s : String) (old : Char) (new : String) : String :=
  String.mk (s.data.flatMap fun c => if c = old then new.data else [c])

/-- The generator state: `applyall` is the method of the embedded `passes`,
`idents` counts the identifiers drawn from `randIdent`. -/
structure marshalGen where
  applyall : Elem → Option Elem
  p : printer
  fuse : List Nat
  ctx : List PathSeg
  idents : Nat

/-- Translation of `marshal`: a generator without passes, with an empty
fusion buffer and a printer without error. -/
def marshal : marshalGen :=
  { applyall := fun e => some e, p := { out := [], err := false }, fuse := [], ctx := [], idents := 0 }

/-- A printer call made through the generator. -/
def marshalGen.printf (m : marshalGen) (l : Line) : marshalGen :=
  { m with p := m.p.printf l }

/-- The context method `PushString`. -/
def marshalGen.PushString (m : marshalGen) (s : String) : marshalGen :=
  { m with ctx := m.ctx ++ [.str s] }

/-- The context method `PushVar`. -/
def marshalGen.PushVar (m : marshalGen) (s : String) : marshalGen :=
  { m with ctx := m.ctx ++ [.var s] }

/-- The context method `Pop`. -/
def marshalGen.Pop (m : marshalGen) : marshalGen :=
  { m with ctx := m.ctx.dropLast }

/-- Translation of `rawAppend`. -/
def rawAppend (m : marshalGen) (typ : String) (argfmt : ArgFmt) (arg : Operand) : marshalGen :=
  m.printf (.rawAppend typ argfmt arg)

/-- Translation of `rawbytes`; its print calls make up one statement. -/
def rawbytes (m : marshalGen) (bts : List Nat) : marshalGen :=
  m.printf (.rawbytes bts)

/-- Translation of `fuseHook`. -/
def fuseHook (m : marshalGen) : marshalGen :=
  if m.fuse.length > 0 then { rawbytes m m.fuse with fuse := [] } else m

/-- Translation of `Fuse`. -/
def Fuse (m : marshalGen) (b : List Nat) : marshalGen :=
  if m.fuse.length = 0 then { m with fuse := b } else { m with fuse := m.fuse ++ b }

/-- Translation of `gBase`. -/
def gBase (E : Collab) (b : BaseElem) (m : marshalGen) : marshalGen :=
  if !m.p.ok then m
  else
    let m := fuseHook m
    let r : marshalGen × Operand :=
      if b.Convert then
        if b.ShimMode = .Cast then (m, .name b.tobase)
        else
          let vname := E.randIdent m.idents
          let m := { m with idents := m.idents + 1 }
          let m := m.printf (.varDecl vname b.BaseType)
          let m := m.printf (.convAssign vname b.tobase)
          (m.printf (.wrapErrCheck m.ctx), .temp vname)
      else (m, .name b.vname)
    let m := r.1
    let vname := r.2
    let r : Bool × marshalGen :=
      match b.Value with
      | .IDENT => (true, m.printf (.marshalMsg vname))
      | .Intf | .Ext => (true, m.printf (.appendChecked b.BaseName vname))
      | _ => (false, rawAppend m b.BaseName .literalFmt vname)
    if r.1 then r.2.printf (.wrapErrCheck r.2.ctx) else r.2

/-- Translation of `gMap`; `recur` is the call `next(m, s.Value)`. -/
def gMap (vname Keyidx Validx : String) (recur : marshalGen → Option marshalGen)
    (m : marshalGen) : Option marshalGen :=
  if !m.p.ok then some m
  else
    let m := fuseHook m
    let m := rawAppend m mapHeader .lenAsUint32 (.name vname)
    let m := m.printf (.forMap Keyidx Validx vname)
    let m := rawAppend m stringTyp .literalFmt (.name Keyidx)
    let m := m.PushVar Keyidx
    (recur m).map fun m => (m.Pop).printf .close

/-- Modelled from the spec: the printer method `rangeBlock` is not among the
source files.  Section 4.6: "emit a count header sized by the live length,
then recurse into each element in order": the loop over `iter` is opened, the
element is generated by `recur`, and the block is closed. -/
def rangeBlock (idx iter : String) (recur : marshalGen → Option marshalGen)
    (m : marshalGen) : Option marshalGen :=
  let m := m.PushVar idx
  let m := m.printf (.forRange idx iter)
  (recur m).map fun m => (m.printf .close).Pop

/-- Translation of `gSlice`; `recur` is the generation of `s.Els`. -/
def gSlice (vname Index : String) (recur : marshalGen → Option marshalGen)
    (m : marshalGen) : Option marshalGen :=
  if !m.p.ok then some m
  else
    let m := fuseHook m
    let m := rawAppend m arrayHeader .lenAsUint32 (.name vname)
    rangeBlock Index vname recur m

/-- Translation of `gArray`; `recur` is the generation of `a.Els`. -/
def gArray (E : Collab) (vname Index Size : String) (Els : Elem)
    (recur : marshalGen → Option marshalGen) (m : marshalGen) : Option marshalGen :=
  if !m.p.ok then some m
  else
    let m := fuseHook m
    let isByte : Bool := match Els with
      | .Base be => be.Value = .Byte
      | _ => false
    if isByte then some (rawAppend m "Bytes" .sliceAll (.name vname))
    else
      let m := rawAppend m arrayHeader .literalFmt (.name (E.coerceArraySize Size))
      rangeBlock Index vname recur m

/-- Translation of `gPtr`; `recur` is the call `next(m, p.Value)`. -/
def gPtr (vname : String) (recur : marshalGen → Option marshalGen)
    (m : marshalGen) : Option marshalGen :=
  if !m.p.ok then some m
  else
    let m := fuseHook m
    let m := m.printf (.ifNilElse vname)
    (recur m).map fun m => m.printf .close

/-- The first loop of `mapstruct`: the emptiness test of every field for
which `isEncField` holds.  The flag of the result tells that the loop left
`mapstruct` through its `return`; `none` is the panic of `emptyExpr`. -/
def mapstructChecks (svar fieldNVar fieldEMVar : String) (nfields : Nat) :
    Nat → List (StructField Elem) → marshalGen → Option (Bool × marshalGen)
  | _, [], m => some (false, m)
  | i, sf :: rest, m =>
    if !m.p.ok then some (true, m)
    else if isEncField sf then
      match emptyExpr sf.FieldElem (svar ++ "." ++ sf.FieldName) with
      | none => none
      | some c =>
        let m := m.printf (.ifEmpty c)
        let m := m.printf (.decr fieldNVar)
        let m := m.printf (.maskSet (bmaskAssign1 fieldEMVar i nfields))
        let m := m.printf .close
        mapstructChecks svar fieldNVar fieldEMVar nfields (i + 1) rest m
    else mapstructChecks svar fieldNVar fieldEMVar nfields (i + 1) rest m

/-- Translation of `mapstruct` up to its second loop, which is `fields`
(given the name of the mask variable). -/
def mapstruct (vname : String) (Fields : List (StructField Elem))
    (fields : String → marshalGen → Option marshalGen) (m : marshalGen) : Option marshalGen :=
  let nfields := Fields.length
  let omitemptyenc := isEncForAnyFields Fields
  if omitemptyenc then
    let fieldNVar := ReplaceAll vname '.' "__" ++ "FieldN"
    let fieldEMVar := ReplaceAll vname '.' "__" ++ "EmptyMask"
    let m := m.printf (.comment .omitCheck)
    let m := m.printf (.countDecl fieldNVar nfields)
    let m := m.printf (.maskDecl fieldEMVar (bmaskType nfields))
    match mapstructChecks vname fieldNVar fieldEMVar nfields 0 Fields m with
    | none => none
    | some (true, m) => some m
    | some (false, m) =>
      let m := m.printf (.comment (.dynHeader fieldNVar))
      let m := { m with p := writeMarshalDynMapHeader m.p fieldNVar nfields }
      if !m.p.ok then some m
      else
        let m := m.printf (.ifZeroReturn fieldNVar)
        fields fieldEMVar m
  else
    let data := AppendMapHeader [] (nfields % 2 ^ 32)
    let m := m.printf (.comment (.mapHeader nfields))
    let m := Fuse m data
    let m := if nfields = 0 then fuseHook m else m
    fields "" m

/-- Translation of `tuple` up to its loop, which is `fields`. -/
def tuple (E : Collab) (Fields : List (StructField Elem))
    (fields : marshalGen → Option marshalGen) (m : marshalGen) : Option marshalGen :=
  let data := E.AppendArrayHeader (Fields.length % 2 ^ 32)
  let m := m.printf (.comment (.arrayHeader Fields.length))
  let m := Fuse m data
  let m := if Fields.length = 0 then fuseHook m else m
  fields m

/-- Translation of `gStruct`. -/
def gStruct (E : Collab) (vname : String) (AsTuple : Bool) (Fields : List (StructField Elem))
    (tupleFields : marshalGen → Option marshalGen)
    (mapFields : String → marshalGen → Option marshalGen) (m : marshalGen) : Option marshalGen :=
  if !m.p.ok then some m
  else if AsTuple then tuple E Fields tupleFields m
  else mapstruct vname Fields mapFields m

mutual
/-- The dispatch `next` of the traversal, on the marshal generator. -/
def next (E : Collab) : Elem → marshalGen → Option marshalGen
  | .Map v k x value, m => gMap v k x (next E value) m
  | .Struct v t fs, m =>
    gStruct E v t fs (tupleFields E fs) (fun em => mapstructFields E em fs.length 0 fs) m
  | .Slice v i els, m => gSlice v i (next E els) m
  | .Array v i sz els, m => gArray E v i sz els (next E els) m
  | .Ptr v value, m => gPtr v (next E value) m
  | .Base b, m => some (gBase E b m)
/-- The loop of `tuple`. -/
def tupleFields (E : Collab) : List (StructField Elem) → marshalGen → Option marshalGen
  | [], m => some m
  | sf :: rest, m =>
    if !m.p.ok then some m
    else
      match next E sf.FieldElem (m.PushString sf.FieldName) with
      | none => none
      | some m => tupleFields E rest m.Pop
/-- The second loop of `mapstruct`. -/
def mapstructFields (E : Collab) (fieldEMVar : String) (nfields : Nat) :
    Nat → List (StructField Elem) → marshalGen → Option marshalGen
  | _, [], m => some m
  | i, sf :: rest, m =>
    if !m.p.ok then some m
    else
      let oeField := isEncField sf
      let m := if oeField then m.printf (.ifMask (bmaskRead fieldEMVar i nfields)) else m
      let data := E.AppendString sf.FieldTag
      let m := m.printf (.comment (.keyString sf.FieldTag))
      let m := Fuse m data
      match next E sf.FieldElem (m.PushString sf.FieldName) with
      | none => none
      | some m =>
        let m := m.Pop
        let m := if oeField then m.printf .close else m
        mapstructFields E fieldEMVar nfields (i + 1) rest m
end

/-- Translation of `Execute`; the result is the generator after the pass
(`none` after a panic). -/
def Execute (E : Collab) (p : Elem) (m : marshalGen) : Option marshalGen :=
  if !m.p.ok then some m
  else
    match m.applyall p with
    | none => some m
    | some p =>
      if !E.IsPrintable p then some m
      else
        let m := { m with ctx := [] }
        let m := m.printf (.comment .implements)
        let c := p.Varname
        let m := m.printf (.funcHeader p.Varname (E.imutMethodReceiver p))
        let m := m.printf (.require c)
        (next E p m).map fun m => m.printf .nakedReturn

/-! ## Meaning of the generated procedure -/

/-- What the generated procedure observes of the value it marshals and of the
run-time library: the length of a byte-sequence or string variable, whether a
numeric or complex variable is zero, the value of a boolean variable, whether
a reference is nil; the bytes added by an append of the library
(`msgp.Append<typ>(o, arg)`), and the calls that can fail (`none`). -/
structure Instance where
  len : String → Nat
  isZero : String → Bool
  isComplexZero : String → Bool
  truth : String → Bool
  isNil : String → Bool
  append : String → ArgFmt → String → List Nat
  appendNil : List Nat
  convFails : String → Bool
  marshalMsg : String → Option (List Nat)
  appendChecked : String → String → Option (List Nat)

/-- Value of an emptiness test on an instance. -/
def EmptyTest.eval (inst : Instance) : EmptyTest → Bool
  | .lenZero v => inst.len v == 0
  | .complexZero v => inst.isComplexZero v
  | .numZero v => inst.isZero v
  | .notTrue v => !inst.truth v

/-- Result of calling the generated procedure: the returned buffer, the
return of an error, code that is not a Go procedure, or code outside what
the interpreter covers (loops). -/
inductive Outcome
  | ok (o : List Nat)
  | error
  | invalid
  | unsupported
  deriving DecidableEq, Repr

/-- Variables of the running procedure: the input buffer `b`, the output
`o`, whether `err` is non-nil, the declared counters and masks, and for every
temporary the expression whose conversion it holds. -/
structure RunState where
  b : List Nat
  o : List Nat
  err : Bool
  count : String → Option Int
  maskTy : String → Option MaskType
  mask : String → Nat → Nat
  temps : String → Option String

/-- The expression an operand stands for: a temporary stands for the
expression it was assigned. -/
def RunState.resolve (st : RunState) : Operand → Option String
  | .name s => some s
  | .temp t => st.temps t

/-- Where the interpreter stands: executing; skipping to the end of a block
(`depth` blocks opened since); looking for the arm of a switch. -/
inductive Mode
  | exec
  | skip (depth : Nat)
  | seek (depth : Nat)
  deriving DecidableEq, Repr

/-- Interpreter configuration. -/
inductive Config
  | active (mode : Mode) (st : RunState)
  | halted (out : Outcome)

/-- Lines that open a block closed by a later `close`. -/
def Line.opens : Line → Bool
  | .ifEmpty _ | .switchOpen | .ifMask _ | .forMap _ _ _ | .forRange _ _ | .ifNilElse _ => true
  | _ => false

/-- An argument list is Go syntax when every item is a single expression. -/
def argsParse (args : List ArgItem) : Bool :=
  args.all fun item => item.length == 1

/-- Lines that are Go syntax. -/
def Line.parses : Line → Bool
  | .dynAppend args => argsParse args
  | .enAppend args => argsParse args
  | _ => true

/-- Value of a byte expression, for the counter value `c` of its variable:
`uint8` keeps the low 8 bits, `>>` on `int` is the arithmetic shift. -/
def ByteExpr.eval (count : String → Option Int) : ByteExpr → Option Nat
  | .lit b => some b
  | .fixmap v => (count v).map fun c => 0x80 ||| ((c % 256).toNat &&& 0x0F)
  | .u8 v => (count v).map fun c => (c % 256).toNat
  | .u8shr v k => (count v).map fun c => ((c / 2 ^ k) % 256).toNat

/-- Values of an argument list; `none` when a variable is not declared. -/
def evalArgs (count : String → Option Int) : List ArgItem → Option (List Nat)
  | [] => some []
  | item :: rest =>
    match item with
    | [e] =>
      match e.eval count, evalArgs count rest with
      | some x, some xs => some (x :: xs)
      | _, _ => none
    | _ => none

/-- The mask word an access refers to, when the access is valid for the
declared type: an indexed access needs an array type and an index below its
length, a plain access a single integer whose width holds the constant. -/
def maskWord (t : Option MaskType) (index : Option Nat) (bit : Nat) : Option Nat :=
  match t, index with
  | some (.array k), some i => if i < k ∧ bit < 2 ^ 64 then some i else none
  | some (.array _), none => none
  | some t, none => if bit < 2 ^ t.bits then some 0 else none
  | _, _ => none

/-- The naked `return`. -/
def RunState.ret (st : RunState) : Config :=
  .halted (if st.err then .error else .ok st.o)

/-- One line in execution mode. -/
def execLine (inst : Instance) (st : RunState) : Line → Config
  | .comment _ => .active .exec st
  | .funcHeader _ _ => .active .exec st
  | .require _ => .active .exec { st with o := st.b }
  | .countDecl v n =>
    .active .exec { st with count := fun x => if x = v then some (n : Int) else st.count x }
  | .maskDecl v t =>
    .active .exec { st with
      maskTy := fun x => if x = v then some t else st.maskTy x
      mask := fun x => if x = v then fun _ => 0 else st.mask x }
  | .ifEmpty c => if c.eval inst then .active .exec st else .active (.skip 0) st
  | .decr v =>
    match st.count v with
    | some c => .active .exec { st with count := fun x => if x = v then some (c - 1) else st.count x }
    | none => .halted .invalid
  | .maskSet a =>
    match maskWord (st.maskTy a.varname) a.index a.bit with
    | some w =>
      .active .exec { st with
        mask := fun x => if x = a.varname then
          fun j => if j = w then st.mask x j ||| a.bit else st.mask x j
          else st.mask x }
    | none => .halted .invalid
  | .close => .active .exec st
  | .dynAppend args =>
    match evalArgs st.count args with
    | some bs => .active .exec { st with o := st.o ++ bs }
    | none => .halted .invalid
  | .enAppend args =>
    match evalArgs st.count args with
    | some bs => .active .exec { st with o := st.o ++ bs, err := false }
    | none => .halted .invalid
  | .switchOpen => .active (.seek 0) st
  | .caseLe _ _ => .active (.skip 0) st
  | .defaultArm => .active (.skip 0) st
  | .errReturn => if st.err then st.ret else .active .exec st
  | .ifZeroReturn v =>
    match st.count v with
    | some c => if c = 0 then st.ret else .active .exec st
    | none => .halted .invalid
  | .ifMask r =>
    match maskWord (st.maskTy r.varname) r.index r.bit with
    | some w =>
      if st.mask r.varname w &&& r.bit = 0 then .active .exec st else .active (.skip 0) st
    | none => .halted .invalid
  | .rawbytes bts => .active .exec { st with o := st.o ++ bts }
  | .rawAppend typ argfmt arg =>
    match st.resolve arg with
    | some e => .active .exec { st with o := st.o ++ inst.append typ argfmt e }
    | none => .halted .invalid
  | .forMap _ _ _ => .halted .unsupported
  | .forRange _ _ => .halted .unsupported
  | .ifNilElse v =>
    if inst.isNil v then .active (.skip 0) { st with o := st.o ++ inst.appendNil }
    else .active .exec st
  | .varDecl _ _ => .active .exec st
  | .convAssign v expr =>
    .active .exec { st with
      err := inst.convFails expr
      temps := fun x => if x = v then some expr else st.temps x }
  | .marshalMsg v =>
    match st.resolve v with
    | some e =>
      match inst.marshalMsg e with
      | some bs => .active .exec { st with o := st.o ++ bs, err := false }
      | none => .active .exec { st with err := true }
    | none => .halted .invalid
  | .appendChecked name v =>
    match st.resolve v with
    | some e =>
      match inst.appendChecked name e with
      | some bs => .active .exec { st with o := st.o ++ bs, err := false }
      | none => .active .exec { st with err := true }
    | none => .halted .invalid
  | .wrapErrCheck _ => if st.err then st.ret else .active .exec st
  | .nakedReturn => st.ret

/-- One line of the procedure. -/
def step (inst : Instance) (cfg : Config) (l : Line) : Config :=
  match cfg with
  | .halted out => .halted out
  | .active .exec st => execLine inst st l
  | .active (.skip d) st =>
    if l.opens then .active (.skip (d + 1)) st
    else match l with
      | .close => if d = 0 then .active .exec st else .active (.skip (d - 1)) st
      | .nakedReturn => .halted .invalid
      | _ => .active (.skip d) st
  | .active (.seek d) st =>
    if l.opens then .active (.seek (d + 1)) st
    else match l with
      | .close => if d = 0 then .active .exec st else .active (.seek (d - 1)) st
      | .caseLe v k =>
        if d = 0 then
          match st.count v with
          | some c => if c ≤ (k : Int) then .active .exec st else .active (.seek 0) st
          | none => .halted .invalid
        else .active (.seek d) st
      | .defaultArm => if d = 0 then .active .exec st else .active (.seek d) st
      | .nakedReturn => .halted .invalid
      | _ => .active (.seek d) st

/-- The lines of a procedure, from a configuration. -/
def steps (inst : Instance) (cfg : Config) (ls : List Line) : Config :=
  ls.foldl (step inst) cfg

/-- State at the call of the procedure on the buffer `b`. -/
def RunState.init (b : List Nat) : RunState :=
  { b := b, o := [], err := false, count := fun _ => none, maskTy := fun _ => none,
    mask := fun _ _ => 0, temps := fun _ => none }

/-- Result of a configuration: a procedure that ends without `return` is not
valid. -/
def Config.result : Config → Outcome
  | .halted out => out
  | .active _ _ => .invalid

/-- Result of calling the procedure made of the lines `ls` on the buffer `b`
and the instance `inst`. -/
def run (inst : Instance) (b : List Nat) (ls : List Line) : Outcome :=
  if ls.all Line.parses then (steps inst (.active .exec (RunState.init b)) ls).result
  else .invalid

/-- The lines written by a marshal pass: what `Execute` adds to the output of
the printer. -/
def procedure (E : Collab) (p : Elem) (m : marshalGen) : Option (List Line) :=
  (Execute E p m).map fun r => r.p.out.drop m.p.out.length

/-! ## Concrete collaborators and instances for evaluation -/

/-- The bytes of a string in the examples: the character codes. -/
def strBytes (s : String) : List Nat := s.data.map Char.toNat

/-- Collaborators with MessagePack tag bytes: array headers 0x90, 0xdc, 0xdd
and string headers 0xa0, 0xd9, 0xda, 0xdb. -/
def msgpack : Collab :=
  { AppendArrayHeader := fun sz =>
      if sz ≤ 15 then [0x90 ||| sz]
      else if sz ≤ 65535 then [0xdc, (sz >>> 8) % 256, sz % 256]
      else [0xdd, (sz >>> 24) % 256, (sz >>> 16) % 256, (sz >>> 8) % 256, sz % 256]
    AppendString := fun s =>
      let sz := (strBytes s).length
      (if sz ≤ 31 then [0xa0 ||| sz]
       else if sz ≤ 255 then [0xd9, sz]
       else if sz ≤ 65535 then [0xda, (sz >>> 8) % 256, sz % 256]
       else [0xdb, (sz >>> 24) % 256, (sz >>> 16) % 256, (sz >>> 8) % 256, sz % 256])
        ++ strBytes s
    randIdent := fun n => "za" ++ toString n
    coerceArraySize := fun sz => "uint32(" ++ sz ++ ")"
    imutMethodReceiver := fun _ => "*T"
    IsPrintable := fun _ => true }

/-- The instance whose variables all hold their zero value: zero length, zero
numbers, false, nil; appends of the library give the encoding of the empty
string for `String` and the byte 0 otherwise, and no call fails. -/
def zeroInstance : Instance :=
  { len := fun _ => 0
    isZero := fun _ => true
    isComplexZero := fun _ => true
    truth := fun _ => false
    isNil := fun _ => true
    append := fun typ _ _ => if typ = "String" then msgpack.AppendString "" else [0]
    appendNil := [0xc0]
    convFails := fun _ => false
    marshalMsg := fun _ => some [0x80]
    appendChecked := fun _ _ => some [0xc0] }

/-- A string field named `name` of the record variable `z`, with wire key
`tag` and the directive tokens `dirs`. -/
def stringField (name tag : String) (dirs : List String) : StructField Elem :=
  ⟨tag, tag :: dirs, name, .Base ⟨"z." ++ name, .String, false, .Cast, "String", "string", ""⟩⟩

/-- The lines `writeMarshalDynMapHeader` prints on a printer without error. -/
def marshalHeaderLines (sizeVarname : String) (maxSize : Nat) : List Line :=
  (writeMarshalDynMapHeader { out := [], err := false } sizeVarname maxSize).out

/-- The lines `writeEncodeDynMapHeader` prints on a printer without error. -/
def encodeHeaderLines (sizeVarname : String) (maxSize : Nat) : List Line :=
  (writeEncodeDynMapHeader { out := [], err := false } sizeVarname maxSize).out

/-- The wire-format map header of a count up to 65535 as the claim words it:
one byte `0x80 | c` up to 15, else `0xDE` and the two bytes of `c`. -/
def mapHeaderBytes (c : Nat) : List Nat :=
  if c ≤ 15 then [0x80 ||| c] else [0xDE, c >>> 8, c &&& 0xFF]

/-- A running state in which only the counter `v` is declared, with value `c`. -/
def countState (v : String) (c : Int) : RunState :=
  { RunState.init [] with count := fun x => if x = v then some c else none }

/-- The argument list of the 0xDF arm as the source prints it. -/
def dfArgs (v : String) : List ArgItem :=
  [[.lit 0xdf], [.u8shr v 24], [.u8shr v 16], [.u8shr v 8, .u8 v]]

/-- A line that selects among the size classes: the switch, one of its case
labels or its default label. -/
def Line.isSizeSwitch : Line → Bool
  | .switchOpen | .caseLe _ _ | .defaultArm => true
  | _ => false

/-- A line that branches: it opens a conditional block or is a conditional
statement. -/
def Line.isBranch : Line → Bool
  | .ifEmpty _ | .switchOpen | .caseLe _ _ | .defaultArm | .errReturn | .ifZeroReturn _
  | .ifMask _ | .forMap _ _ _ | .forRange _ _ | .ifNilElse _ | .wrapErrCheck _ => true
  | _ => false

/-- An append whose first argument is the tag 0xDF. -/
def Line.isDFArm : Line → Bool
  | .dynAppend ([.lit 0xdf] :: _) => true
  | .enAppend ([.lit 0xdf] :: _) => true
  | _ => false

/-! ## What the claims speak of: emptiness, omitted fields, value encodings -/

/-- Modelled from the spec: the emptiness of a value by kind (section 4.2):
"byte-sequence/string empty iff zero length; numeric/boolean empty iff equal
to the kind's zero value (complex zero is real=0 and imaginary=0); boolean
empty iff false", read on the variable `v` of the instance. -/
def isEmptyKind (inst : Instance) (k : Primitive) (v : String) : Bool :=
  match k with
  | .Bytes | .String => inst.len v == 0
  | .Complex64 | .Complex128 => inst.isComplexZero v
  | .Float32 | .Float64 | .Uint | .Uint8 | .Uint16 | .Uint32 | .Uint64
  | .Byte | .Int | .Int8 | .Int16 | .Int32 | .Int64 => inst.isZero v
  | .Bool => !inst.truth v
  | _ => false

/-- The field `sf` of the record variable `svar` is empty on the instance. -/
def fieldEmpty (inst : Instance) (svar : String) (sf : StructField Elem) : Bool :=
  match sf.FieldElem with
  | .Base b => isEmptyKind inst b.Value (svar ++ "." ++ sf.FieldName)
  | _ => false

/-- The field is omission-qualifying and empty. -/
def omitted (inst : Instance) (svar : String) (sf : StructField Elem) : Bool :=
  isEncField sf && fieldEmpty inst svar sf

/-- The fields that are not (qualifying and empty), in declared order. -/
def keptFields (inst : Instance) (svar : String) (fs : List (StructField Elem)) :
    List (StructField Elem) :=
  fs.filter fun sf => !omitted inst svar sf

/-- The expression whose value a base element appends: the shim applied to
the variable when there is a conversion, else the variable. -/
def BaseElem.operand (b : BaseElem) : String :=
  if b.Convert then b.tobase else b.vname

/-- The value encoding of a base element on an instance: `none` when its
fallible conversion or its delegated marshal call fails. -/
def BaseElem.bytes (inst : Instance) (b : BaseElem) : Option (List Nat) :=
  if b.Convert && b.ShimMode != .Cast && inst.convFails b.tobase then none
  else
    match b.Value with
    | .IDENT => inst.marshalMsg b.operand
    | .Intf | .Ext => inst.appendChecked b.BaseName b.operand
    | _ => some (inst.append b.BaseName .literalFmt b.operand)

/-- The value encoding of a field whose element is primitive. -/
def valueBytes (inst : Instance) (sf : StructField Elem) : Option (List Nat) :=
  match sf.FieldElem with
  | .Base b => b.bytes inst
  | _ => none

/-- Key string then value encoding of every field of the list, in order;
`none` when a value encoding fails. -/
def encodeFields (E : Collab) (inst : Instance) : List (StructField Elem) → Option (List Nat)
  | [] => some []
  | sf :: rest =>
    match valueBytes inst sf, encodeFields E inst rest with
    | some x, some xs => some (E.AppendString sf.FieldTag ++ x ++ xs)
    | _, _ => none

/-- Value encoding of every field of the list, in order, without keys. -/
def encodeValues (inst : Instance) : List (StructField Elem) → Option (List Nat)
  | [] => some []
  | sf :: rest =>
    match valueBytes inst sf, encodeValues inst rest with
    | some x, some xs => some (x ++ xs)
    | _, _ => none

/-- Every field element of the list is primitive. -/
def allBase (fs : List (StructField Elem)) : Prop :=
  ∀ sf ∈ fs, ∃ b, sf.FieldElem = .Base b

/-- The lines `fuseHook` prints for a pending buffer. -/
def flushLines (fuse : List Nat) : List Line :=
  if fuse.length > 0 then [.rawbytes fuse] else []

/-- Lines that neither open nor close a block. -/
def Line.neutral : Line → Bool
  | .close | .nakedReturn => false
  | l => !l.opens

/-- The lines `ls`, executed from `st` with no error pending, either append
`bs` and leave every other variable but the temporaries as it was (`some bs`),
or make the procedure return an error (`none`). -/
def RunsTo (inst : Instance) (st : RunState) (ls : List Line) : Option (List Nat) → Prop
  | some bs => ∃ st', steps inst (.active .exec st) ls = .active .exec st' ∧
      st'.o = st.o ++ bs ∧ st'.err = false ∧ st'.b = st.b ∧ st'.count = st.count ∧
      st'.maskTy = st.maskTy ∧ st'.mask = st.mask
  | none => steps inst (.active .exec st) ls = .halted .error

/-- The mask bit of the field at `offset` in a mask of `ln` fields. -/
def maskBit (mk : Nat → Nat) (ln offset : Nat) : Bool :=
  (mk (if ln > 64 then offset >>> 6 else 0)).testBit (offset % 64)

/-- Whether the field at index `j` is among the omitted fields of the list,
whose first field has index `i`. -/
def omittedAt (inst : Instance) (svar : String) : List (StructField Elem) → Nat → Nat → Bool
  | [], _, _ => false
  | sf :: rest, i, j => (decide (j = i) && omitted inst svar sf) || omittedAt inst svar rest (i + 1) j

/-- The lines `gBase` prints for the value itself, on the operand `op`. -/
def valueLines (val : Primitive) (BaseName : String) (op : Operand) (ctx : List PathSeg) :
    List Line :=
  match val with
  | .IDENT => [.marshalMsg op, .wrapErrCheck ctx]
  | .Intf | .Ext => [.appendChecked BaseName op, .wrapErrCheck ctx]
  | _ => [.rawAppend BaseName .literalFmt op]

/-- The lines `gBase` prints after the flush, for the identifier count `k`
and the context path `ctx`. -/
def baseLines (E : Collab) (b : BaseElem) (k : Nat) (ctx : List PathSeg) : List Line :=
  let shim : List Line :=
    if b.Convert ∧ b.ShimMode ≠ .Cast then
      [.varDecl (E.randIdent k) b.BaseType, .convAssign (E.randIdent k) b.tobase, .wrapErrCheck ctx]
    else []
  let op : Operand :=
    if b.Convert then (if b.ShimMode = .Cast then .name b.tobase else .temp (E.randIdent k))
    else .name b.vname
  shim ++ valueLines b.Value b.BaseName op ctx

/-- The identifier count after `gBase`. -/
def baseIdents (b : BaseElem) (k : Nat) : Nat :=
  if b.Convert ∧ b.ShimMode ≠ .Cast then k + 1 else k

/-- The lines printed by the first loop of `mapstruct` on a printer without
error, for fields numbered from `i`. -/
def checkLines (svar fieldNVar fieldEMVar : String) (nfields : Nat) :
    Nat → List (StructField Elem) → List Line
  | _, [] => []
  | i, sf :: rest =>
    (if isEncField sf then
      match emptyExpr sf.FieldElem (svar ++ "." ++ sf.FieldName) with
      | some c => [.ifEmpty c, .decr fieldNVar, .maskSet (bmaskAssign1 fieldEMVar i nfields), .close]
      | none => []
    else []) ++ checkLines svar fieldNVar fieldEMVar nfields (i + 1) rest

/-- The lines printed by the second loop of `mapstruct` for primitive fields
numbered from `i`, on a printer without error and with nothing pending in
the fusion buffer; `k` is the identifier count and `ctx` the context path. -/
def fieldLines (E : Collab) (fieldEMVar : String) (nfields : Nat) (ctx : List PathSeg) :
    Nat → List (StructField Elem) → Nat → List Line
  | _, [], _ => []
  | i, sf :: rest, k =>
    match sf.FieldElem with
    | .Base b =>
      (if isEncField sf then [Line.ifMask (bmaskRead fieldEMVar i nfields)] else []) ++
      [Line.comment (.keyString sf.FieldTag)] ++
      flushLines (E.AppendString sf.FieldTag) ++
      baseLines E b k (ctx ++ [.str sf.FieldName]) ++
      (if isEncField sf then [Line.close] else []) ++
      fieldLines E fieldEMVar nfields ctx (i + 1) rest (baseIdents b k)
    | _ => []

/-- The identifier count after the primitive fields of the list. -/
def fieldsIdents : List (StructField Elem) → Nat → Nat
  | [], k => k
  | sf :: rest, k =>
    match sf.FieldElem with
    | .Base b => fieldsIdents rest (baseIdents b k)
    | _ => k

/-- The counter variable `mapstruct` declares for the record variable `v`. -/
def fieldNVarOf (v : String) : String := ReplaceAll v '.' "__" ++ "FieldN"

/-- The mask variable `mapstruct` declares for the record variable `v`. -/
def fieldEMVarOf (v : String) : String := ReplaceAll v '.' "__" ++ "EmptyMask"

/-- The lines a marshal pass prints for a keyed record with an
omission-qualifying field up to and including the dynamic map header. -/
def omitPrologue (E : Collab) (v : String) (fs : List (StructField Elem)) : List Line :=
  [.comment .implements, .funcHeader v (E.imutMethodReceiver (.Struct v false fs)), .require v] ++
  [.comment .omitCheck, .countDecl (fieldNVarOf v) fs.length,
   .maskDecl (fieldEMVarOf v) (bmaskType fs.length)] ++
  checkLines v (fieldNVarOf v) (fieldEMVarOf v) fs.length 0 fs ++
  [.comment (.dynHeader (fieldNVarOf v))] ++
  marshalHeaderLines (fieldNVarOf v) fs.length

/-- The procedure a marshal pass prints for a keyed record of primitive
fields with an omission-qualifying field, `k` being the identifier count at
the start of the pass: the prologue, the quick return, the fields, the final
return. -/
def omitProcedure (E : Collab) (v : String) (fs : List (StructField Elem)) (k : Nat) : List Line :=
  omitPrologue E v fs ++
  [.ifZeroReturn (fieldNVarOf v)] ++
  fieldLines E (fieldEMVarOf v) fs.length [] 0 fs k ++
  [.nakedReturn]

/-- The conditions under which a pass on `p` generates a procedure with
nothing pending: the printer has no error, the fusion buffer is empty, no
pass rewrites `p`, and `p` is printable. -/
def passStarts (E : Collab) (p : Elem) (m : marshalGen) : Prop :=
  m.p.err = false ∧ m.fuse = [] ∧ m.applyall p = some p ∧ E.IsPrintable p = true

/-- A field named `name` of the record variable `z` whose type is the named
type `T`, marshalled by its own `MarshalMsg`. -/
def identField (name tag : String) (dirs : List String) : StructField Elem :=
  ⟨tag, tag :: dirs, name, .Base ⟨"z." ++ name, .IDENT, false, .Cast, "T", "T", ""⟩⟩

/-- The zero instance on which every delegated marshal call fails. -/
def failingInstance : Instance :=
  { zeroInstance with marshalMsg := fun _ => none }

/-- A keyed record with an omitted string field and a field of a named type. -/
def delegatingRecord : Elem :=
  .Struct "z" false [stringField "A" "a" ["omitempty"], identField "B" "b" []]

/-- A keyed record with one qualifying and one non-qualifying string field. -/
def twoFieldRecord : List (StructField Elem) :=
  [stringField "A" "a" ["omitempty"], stringField "B" "b" []]

/-- A keyed record of three string fields of which the 1st and the 3rd carry
the omission directive and the 2nd does not. -/
def halfTagged : List (StructField Elem) :=
  [stringField "Field01" "field01" ["omitempty"], stringField "Field02" "field02" [],
   stringField "Field03" "field03" ["omitempty"]]

/-- The lines printed by the loop of `tuple` for primitive fields, on a
printer without error: `pend` is the content of the fusion buffer when the
loop reaches the list, `k` the identifier count, `ctx` the context path. -/
def tupleLines (E : Collab) (ctx : List PathSeg) :
    List (StructField Elem) → List Nat → Nat → List Line
  | [], _, _ => []
  | sf :: rest, pend, k =>
    match sf.FieldElem with
    | .Base b =>
      flushLines pend ++ baseLines E b k (ctx ++ [.str sf.FieldName]) ++
        tupleLines E ctx rest [] (baseIdents b k)
    | _ => []

/-- The fusion buffer after the loop of `tuple` on primitive fields. -/
def tupleFuse : List (StructField Elem) → List Nat → List Nat
  | [], pend => pend
  | _ :: _, _ => []

/-- The procedure a marshal pass prints for a positional record of primitive
fields, `k` being the identifier count at the start of the pass. -/
def tupleProcedure (E : Collab) (v : String) (fs : List (StructField Elem)) (k : Nat) : List Line :=
  [.comment .implements, .funcHeader v (E.imutMethodReceiver (.Struct v true fs)), .require v,
   .comment (.arrayHeader fs.length)] ++
  (if fs.length = 0 then flushLines (E.AppendArrayHeader (fs.length % 2 ^ 32)) else []) ++
  tupleLines E [] fs (E.AppendArrayHeader (fs.length % 2 ^ 32)) k ++
  [.nakedReturn]

/-- A positional record whose only field has a named type. -/
def delegatingTuple : Elem :=
  .Struct "z" true [identField "B" "b" ["omitempty"]]

/-- The fields of the inner record of `nestedRecord`: one string field
tagged `omitempty`. -/
def innerFields : List (StructField Elem) :=
  [⟨"a", ["a", "omitempty"], "A", .Base ⟨"z.In.A", .String, false, .Cast, "String", "string", ""⟩⟩]

/-- The fields of `nestedRecord`: one field, without directive, whose element
is a keyed record with an omission-qualifying field. -/
def outerFields : List (StructField Elem) :=
  [⟨"in", ["in"], "In", .Struct "z.In" false innerFields⟩]

/-- A keyed record without omission-qualifying field that nests a keyed
record with one. -/
def nestedRecord : Elem := .Struct "z" false outerFields

/-- The record `nestedRecord` with a second field, a string without
directive, after the nested record. -/
def nestedThenString : Elem :=
  .Struct "z" false (outerFields ++ [stringField "B" "b" []])

/-- An instance whose strings have length 1 and are encoded as 0xa1, 65. -/
def filledInstance : Instance :=
  { zeroInstance with len := fun _ => 1, append := fun _ _ _ => [0xa1, 65] }

/-- A positional record of two string fields, the first tagged `omitempty`. -/
def pairFields : List (StructField Elem) :=
  [stringField "A" "a" ["omitempty"], stringField "B" "b" []]

/-! ## Meaning of mask accesses taken alone -/

/-- The mask after the statement of `bmaskAssign1` on a mask of type `t`:
the addressed word is or-ed with the constant, in the width of the type;
`none` when the access is not valid for the type. -/
def MaskAssign.apply (t : MaskType) (a : MaskAssign) (mk : Nat → Nat) : Option (Nat → Nat) :=
  (maskWord (some t) a.index a.bit).map fun w =>
    fun j => if j = w then (mk j ||| a.bit) % 2 ^ t.bits else mk j

/-- The value of the expression of `bmaskRead` on a mask of type `t`, in the
width of the type; `none` when the access is not valid for the type. -/
def MaskRead.value (t : MaskType) (r : MaskRead) (mk : Nat → Nat) : Option Nat :=
  (maskWord (some t) r.index r.bit).map fun w => (mk w &&& r.bit) % 2 ^ t.bits

/-! ## Values of the supported kinds, for the zero-value assignment -/

/-- Run-time values of the supported kinds: a byte sequence (nil or a slice),
a string, an integer, a float (its sign and the rest of its bits, zero when
the rest is 0), a complex number (two floats), a boolean. -/
inductive Val
  | bytes (b : Option (List Nat))
  | str (s : List Nat)
  | int (i : Int)
  | float (negative : Bool) (rest : Nat)
  | complex (reNeg : Bool) (reRest : Nat) (imNeg : Bool) (imRest : Nat)
  | bool (b : Bool)
  deriving DecidableEq, Repr

/-- The value is of the kind `k`. -/
def Val.hasKind (k : Primitive) : Val → Bool
  | .bytes _ => k = .Bytes
  | .str _ => k = .String
  | .int _ => k ∈ [Primitive.Uint, .Uint8, .Uint16, .Uint32, .Uint64, .Byte,
      .Int, .Int8, .Int16, .Int32, .Int64]
  | .float _ _ => k ∈ [Primitive.Float32, .Float64]
  | .complex _ _ _ _ => k ∈ [Primitive.Complex64, .Complex128]
  | .bool _ => k = .Bool

/-- Execution of a statement of `emptyAssign` on the variables `σ`: the
literal is converted to the type of the variable; `none` when it is not
assignable to it. -/
def EmptyAssign.exec (σ : String → Val) : EmptyAssign → Option (String → Val)
  | .setNil v =>
    match σ v with
    | .bytes _ => some fun x => if x = v then .bytes none else σ x
    | _ => none
  | .setEmptyString v =>
    match σ v with
    | .str _ => some fun x => if x = v then .str [] else σ x
    | _ => none
  | .setComplexZero v =>
    match σ v with
    | .complex _ _ _ _ => some fun x => if x = v then .complex false 0 false 0 else σ x
    | _ => none
  | .setZero v =>
    match σ v with
    | .int _ => some fun x => if x = v then .int 0 else σ x
    | .float _ _ => some fun x => if x = v then .float false 0 else σ x
    | _ => none
  | .setFalse v =>
    match σ v with
    | .bool _ => some fun x => if x = v then .bool false else σ x
    | _ => none

/-- Value of an expression of `emptyExpr` on the variables `σ`; `none` when
the expression is not typed. -/
def EmptyTest.holds (σ : String → Val) : EmptyTest → Option Bool
  | .lenZero v =>
    match σ v with
    | .bytes none => some true
    | .bytes (some b) => some (b.length == 0)
    | .str s => some (s.length == 0)
    | _ => none
  | .complexZero v =>
    match σ v with
    | .complex _ re _ im => some (re == 0 && im == 0)
    | _ => none
  | .numZero v =>
    match σ v with
    | .int i => some (i == 0)
    | .float _ r => some (r == 0)
    | _ => none
  | .notTrue v =>
    match σ v with
    | .bool b => some (!b)
    | _ => none

/-- What a procedure observes of the variables `σ`; the appends and calls of
the library are those of `zeroInstance`. -/
def observe (σ : String → Val) : Instance :=
  { zeroInstance with
    len := fun v =>
      match σ v with
      | .bytes (some b) => b.length
      | .str s => s.length
      | _ => 0
    isZero := fun v =>
      match σ v with
      | .int i => i == 0
      | .float _ r => r == 0
      | _ => false
    isComplexZero := fun v =>
      match σ v with
      | .complex _ re _ im => re == 0 && im == 0
      | _ => false
    truth := fun v =>
      match σ v with
      | .bool b => b
      | _ => false }

/-! ## Static bytes of a pass -/

/-- The bytes a line appends literally: those of a flush of the fusion
buffer. -/
def Line.literal : Line → List Nat
  | .rawbytes bts => bts
  | _ => []

/-- The bytes flushed by the lines, in order. -/
def literalBytes (ls : List Line) : List Nat := ls.flatMap Line.literal

/-- The static bytes of a generator state: those already flushed into the
output followed by those pending in the fusion buffer. -/
def marshalGen.staticBytes (m : marshalGen) : List Nat := literalBytes m.p.out ++ m.fuse

mutual
/-- The bytes passed to `Fuse` while the element is generated, in the order
of the calls: the static headers of records and the key strings. -/
def fusedBytes (E : Collab) : Elem → List Nat
  | .Base _ => []
  | .Map _ _ _ value => fusedBytes E value
  | .Slice _ _ els => fusedBytes E els
  | .Array _ _ _ els =>
    match els with
    | .Base be => if be.Value = .Byte then [] else fusedBytes E els
    | _ => fusedBytes E els
  | .Ptr _ value => fusedBytes E value
  | .Struct _ t fs =>
    if t then E.AppendArrayHeader (fs.length % 2 ^ 32) ++ fusedTuple E fs
    else (if isEncForAnyFields fs then [] else AppendMapHeader [] (fs.length % 2 ^ 32)) ++
      fusedFields E fs
/-- The bytes fused by the loop of `tuple`. -/
def fusedTuple (E : Collab) : List (StructField Elem) → List Nat
  | [] => []
  | sf :: rest => fusedBytes E sf.FieldElem ++ fusedTuple E rest
/-- The bytes fused by the second loop of `mapstruct`. -/
def fusedFields (E : Collab) : List (StructField Elem) → List Nat
  | [] => []
  | sf :: rest => E.AppendString sf.FieldTag ++ fusedBytes E sf.FieldElem ++ fusedFields E rest
end

/-- The generation step `f`, from a generator without printer error, returns
without panic, leaves the printer without error and the fusion buffer empty,
and adds exactly the bytes `x` to the static bytes. -/
def Emits (f : marshalGen → Option marshalGen) (x : List Nat) : Prop :=
  ∀ m : marshalGen, m.p.err = false →
    ∃ m', f m = some m' ∧ m'.p.err = false ∧ m'.fuse = [] ∧
      m'.staticBytes = m.staticBytes ++ x

/-- The loop `f` over the fields `fs`, from a generator without printer
error, returns without panic, leaves the printer without error, adds exactly
the bytes `x` to the static bytes, and leaves the fusion buffer empty when
there is a field and untouched when there is none. -/
def EmitsLoop (f : marshalGen → Option marshalGen) (fs : List (StructField Elem))
    (x : List Nat) : Prop :=
  ∀ m : marshalGen, m.p.err = false →
    ∃ m', f m = some m' ∧ m'.p.err = false ∧ (fs ≠ [] → m'.fuse = []) ∧
      (fs = [] → m'.fuse = m.fuse) ∧ m'.staticBytes = m.staticBytes ++ x

/-! ## The pass over `nestedRecord`, up to its inner record -/

/-- The generator state in which the pass over `nestedRecord` reaches the
inner record: `Execute` has printed its three opening lines, `mapstruct` (no
field of the outer record qualifies for omission) has printed its comment and
fused the static header of one entry, and the loop over the single field has
printed its comment, fused the key `in` and pushed the field name. -/
def enteringInner : marshalGen :=
  (Fuse ((Fuse (((({ marshal with ctx := [] }.printf (.comment .implements)).printf
      (.funcHeader nestedRecord.Varname (msgpack.imutMethodReceiver nestedRecord))).printf
      (.require nestedRecord.Varname)).printf (.comment (.mapHeader outerFields.length)))
    (AppendMapHeader [] (outerFields.length % 2 ^ 32))).printf (.comment (.keyString "in")))
    (msgpack.AppendString "in")).PushString "In"

/-- The generator state in which the first loop of `mapstruct` starts on the
inner record of `nestedRecord`: after the three prints that open the
omission branch. -/
def enteringInnerChecks : marshalGen :=
  ((enteringInner.printf (.comment .omitCheck)).printf
    (.countDecl "z__InFieldN" innerFields.length)).printf
    (.maskDecl "z__InEmptyMask" (bmaskType innerFields.length))

/-! ## Bitmask planner -/

/-- C9: `bmaskType n` is `uint8` for `n ≤ 8`, `uint16` for `8 < n ≤ 16`,
`uint32` for `16 < n ≤ 32`, `uint64` for `32 < n ≤ 64`, and otherwise the
array type of exactly `(n >> 6) + 1` words of 64 bits; for `n ≤ 64` its width
holds `n` bits and no narrower width among 8, 16, 32, 64 does. -/
theorem bmaskType_classes (n : Nat) :
    (n ≤ 8 → bmaskType n = .uint8) ∧
    (8 < n ∧ n ≤ 16 → bmaskType n = .uint16) ∧
    (16 < n ∧ n ≤ 32 → bmaskType n = .uint32) ∧
    (32 < n ∧ n ≤ 64 → bmaskType n = .uint64) ∧
    (64 < n → bmaskType n = .array ((n >>> 6) + 1) ∧
      (bmaskType n).render = "[" ++ toString ((n >>> 6) + 1) ++ "]uint64" ∧
      (bmaskType n).bits = 64 ∧ (bmaskType n).words = (n >>> 6) + 1) ∧
    (n ≤ 64 → n ≤ (bmaskType n).bits ∧ (bmaskType n).words = 1 ∧
      ∀ w ∈ [8, 16, 32, 64], n ≤ w → (bmaskType n).bits ≤ w) := by
  refine ⟨?_, ?_, ?_, ?_, ?_, ?_⟩
  · intro h; simp [bmaskType, h]
  · rintro ⟨h1, h2⟩
    have : ¬ n ≤ 8 := by omega
    simp [bmaskType, this, h2]
  · rintro ⟨h1, h2⟩
    have a : ¬ n ≤ 8 := by omega
    have b : ¬ n ≤ 16 := by omega
    simp [bmaskType, a, b, h2]
  · rintro ⟨h1, h2⟩
    have a : ¬ n ≤ 8 := by omega
    have b : ¬ n ≤ 16 := by omega
    have c : ¬ n ≤ 32 := by omega
    simp [bmaskType, a, b, c, h2]
  · intro h
    have a : ¬ n ≤ 8 := by omega
    have b : ¬ n ≤ 16 := by omega
    have c : ¬ n ≤ 32 := by omega
    have d : ¬ n ≤ 64 := by omega
    simp [bmaskType, a, b, c, d, MaskType.render, MaskType.bits, MaskType.words]
  · intro h
    unfold bmaskType
    split_ifs <;> simp [MaskType.bits, MaskType.words] <;> omega

/-- Witness of C9 at the first count that needs the array form. -/
theorem bmaskType_classes_witness :
    bmaskType 65 = .array 2 ∧ (bmaskType 65).render = "[2]uint64" :=
  ⟨((bmaskType_classes 65).2.2.2.2.1 (by decide)).1, by decide⟩

/-- C10: the representation chosen by `bmaskType n` holds at least `n` bits:
bit width times word count is at least `n`, the word count being 1 for the
single-integer forms and `(n >> 6) + 1` for the array form. -/
theorem bmaskType_capacity (n : Nat) :
    n ≤ (bmaskType n).bits * (bmaskType n).words ∧
    (bmaskType n).words = (if n ≤ 64 then 1 else (n >>> 6) + 1) := by
  unfold bmaskType
  split_ifs <;> simp [MaskType.bits, MaskType.words, Nat.shiftRight_eq_div_pow] <;> omega

/-! ## Dynamic map header -/

theorem printf_ok (p : printer) (h : p.err = false) (l : Line) :
    p.printf l = { out := p.out ++ [l], err := false } := by
  cases p; simp_all [printer.printf]

theorem fixmap_byte (c : Nat) (h : c ≤ 15) :
    0x80 ||| (((c : Int) % 256).toNat &&& 0x0F) = 0x80 ||| c := by
  interval_cases c <;> rfl

theorem shr8_byte (c : Nat) (h : c ≤ 65535) : (((c : Int) / 2 ^ 8) % 256).toNat = c >>> 8 := by
  rw [Nat.shiftRight_eq_div_pow]
  omega

theorem low_byte (c : Nat) : ((c : Int) % 256).toNat = c &&& 0xFF := by
  have h := Nat.and_pow_two_sub_one_eq_mod c 8
  norm_num at h
  rw [h]
  omega

theorem marshalHeader_run (inst : Instance) (st : RunState) (v : String) (maxSize c : Nat)
    (hmax : maxSize ≤ 65535) (hc : c ≤ maxSize) (hv : st.count v = some (c : Int)) :
    mapHeaderBytes c = AppendMapHeader [] c ∧
    steps inst (.active .exec st) (marshalHeaderLines v maxSize)
      = .active .exec { st with o := st.o ++ mapHeaderBytes c } := by
  have hc' : c ≤ 65535 := by omega
  have e1 := shr8_byte c hc'
  have e2 := low_byte c
  norm_num at e1
  refine ⟨?_, ?_⟩
  · unfold mapHeaderBytes AppendMapHeader
    have h := Nat.and_pow_two_sub_one_eq_mod c 8
    norm_num at h
    have h2 : c >>> 8 < 256 := by rw [Nat.shiftRight_eq_div_pow]; omega
    split_ifs <;> simp [h, Nat.mod_eq_of_lt h2]
  · unfold marshalHeaderLines writeMarshalDynMapHeader mapHeaderBytes
    have : maxSize ≤ MaxUint16 := hmax
    by_cases h15 : maxSize ≤ 15
    · have hc15 : c ≤ 15 := by omega
      simp [h15, hc15, printer.printf, steps, step, execLine, evalArgs, ByteExpr.eval, hv,
        fixmap_byte c hc15]
    · by_cases hc15 : c ≤ 15
      · have hci : (c : Int) ≤ 15 := by omega
        simp [h15, this, hc15, hci, printer.printf, steps, step, execLine, evalArgs, ByteExpr.eval,
          hv, fixmap_byte c hc15, Line.opens]
      · have hci : ¬ (c : Int) ≤ 15 := by omega
        simp [h15, this, hc15, hci, printer.printf, steps, step, execLine, evalArgs, ByteExpr.eval,
          hv, e1, e2, Line.opens]

/-- C6: for a declared count `maxSize ≤ 65535` and a run-time count
`c ≤ maxSize` held by the size variable, the code emitted by
`writeMarshalDynMapHeader`, and likewise that emitted by
`writeEncodeDynMapHeader`, is valid Go and appends exactly the map header of
`c`: the byte `0x80 | c` when `c ≤ 15`, else `0xDE, c >> 8, c & 0xFF`, whose
two payload bytes read big-endian give back `c`; this is the header of the
wire format. -/
theorem dynMapHeader_writes (inst : Instance) (st : RunState) (v : String) (maxSize c : Nat)
    (hmax : maxSize ≤ 65535) (hc : c ≤ maxSize) (hv : st.count v = some (c : Int)) :
    mapHeaderBytes c = AppendMapHeader [] c ∧
    (15 < c → (c >>> 8) < 256 ∧ (c &&& 0xFF) < 256 ∧ 256 * (c >>> 8) + (c &&& 0xFF) = c) ∧
    (marshalHeaderLines v maxSize).all Line.parses = true ∧
    (encodeHeaderLines v maxSize).all Line.parses = true ∧
    steps inst (.active .exec st) (marshalHeaderLines v maxSize)
      = .active .exec { st with o := st.o ++ mapHeaderBytes c } ∧
    steps inst (.active .exec st) (encodeHeaderLines v maxSize)
      = .active .exec { st with o := st.o ++ mapHeaderBytes c, err := false } := by
  have hc' : c ≤ 65535 := by omega
  have e1 := shr8_byte c hc'
  have e2 := low_byte c
  norm_num at e1
  refine ⟨?_, ?_, ?_, ?_, ?_, ?_⟩
  · unfold mapHeaderBytes AppendMapHeader
    have h := Nat.and_pow_two_sub_one_eq_mod c 8
    norm_num at h
    have h2 : c >>> 8 < 256 := by rw [Nat.shiftRight_eq_div_pow]; omega
    split_ifs <;> simp [h, Nat.mod_eq_of_lt h2]
  · intro _
    have h := Nat.and_pow_two_sub_one_eq_mod c 8
    norm_num at h
    rw [h, Nat.shiftRight_eq_div_pow]
    omega
  · unfold marshalHeaderLines writeMarshalDynMapHeader
    have : maxSize ≤ MaxUint16 := hmax
    split_ifs <;> simp [printer.printf, Line.parses, argsParse]
  · unfold encodeHeaderLines writeEncodeDynMapHeader
    have : maxSize ≤ MaxUint16 := hmax
    split_ifs <;> simp [printer.printf, Line.parses, argsParse]
  · unfold marshalHeaderLines writeMarshalDynMapHeader mapHeaderBytes
    have : maxSize ≤ MaxUint16 := hmax
    by_cases h15 : maxSize ≤ 15
    · have hc15 : c ≤ 15 := by omega
      simp [h15, hc15, printer.printf, steps, step, execLine, evalArgs, ByteExpr.eval, hv,
        fixmap_byte c hc15]
    · by_cases hc15 : c ≤ 15
      · have hci : (c : Int) ≤ 15 := by omega
        simp [h15, this, hc15, hci, printer.printf, steps, step, execLine, evalArgs, ByteExpr.eval,
          hv, fixmap_byte c hc15, Line.opens]
      · have hci : ¬ (c : Int) ≤ 15 := by omega
        simp [h15, this, hc15, hci, printer.printf, steps, step, execLine, evalArgs, ByteExpr.eval,
          hv, e1, e2, Line.opens]
  · unfold encodeHeaderLines writeEncodeDynMapHeader mapHeaderBytes
    have : maxSize ≤ MaxUint16 := hmax
    by_cases h15 : maxSize ≤ 15
    · have hc15 : c ≤ 15 := by omega
      simp [h15, hc15, printer.printf, steps, step, execLine, evalArgs, ByteExpr.eval, hv,
        fixmap_byte c hc15]
    · by_cases hc15 : c ≤ 15
      · have hci : (c : Int) ≤ 15 := by omega
        simp [h15, this, hc15, hci, printer.printf, steps, step, execLine, evalArgs, ByteExpr.eval,
          hv, fixmap_byte c hc15, Line.opens]
      · have hci : ¬ (c : Int) ≤ 15 := by omega
        simp [h15, this, hc15, hci, printer.printf, steps, step, execLine, evalArgs, ByteExpr.eval,
          hv, e1, e2, Line.opens]

/-- Witness of C6 at the count 16, the first of the three-byte form. -/
theorem dynMapHeader_writes_witness :
    (16 ≤ 65535 ∧ 16 ≤ 16 ∧ (countState "n" 16).count "n" = some ((16 : Nat) : Int)) ∧
    steps zeroInstance (.active .exec (countState "n" 16)) (marshalHeaderLines "n" 16)
      = .active .exec { countState "n" 16 with o := (countState "n" 16).o ++ mapHeaderBytes 16 } :=
  ⟨⟨by decide, by decide, rfl⟩,
   (dynMapHeader_writes zeroInstance (countState "n" 16) "n" 16 16 (by decide) (by decide) rfl).2.2.2.2.1⟩

/-- C7: for a declared count above 65535 the default arm printed by
`writeMarshalDynMapHeader` (and by `writeEncodeDynMapHeader`) is an append of
four comma-separated items: the last one, `uint8(v>>8) uint8(v)`, holds two
expressions with no comma between them (the witness shows the printed text).  The argument list is therefore not
five byte expressions and is not Go syntax, and a procedure that contains the
emitted header is rejected whatever the count. -/
theorem dynMapHeader_default_arm_malformed (v : String) (maxSize : Nat) (h : 65535 < maxSize) :
    (marshalHeaderLines v maxSize).get? 6 = some (.dynAppend (dfArgs v)) ∧
    (encodeHeaderLines v maxSize).get? 6 = some (.enAppend (dfArgs v)) ∧
    (dfArgs v).length = 4 ∧
    argsParse (dfArgs v) = false ∧
    ∀ (inst : Instance) (b : List Nat) (pre post : List Line),
      run inst b (pre ++ marshalHeaderLines v maxSize ++ post) = .invalid := by
  have a : ¬ maxSize ≤ 15 := by omega
  have c : ¬ maxSize ≤ MaxUint16 := by unfold MaxUint16; omega
  refine ⟨?_, ?_, rfl, rfl, ?_⟩
  · simp [marshalHeaderLines, writeMarshalDynMapHeader, a, c, printer.printf, dfArgs]
  · simp [encodeHeaderLines, writeEncodeDynMapHeader, a, c, printer.printf, dfArgs]
  · intro inst b pre post
    simp [run, marshalHeaderLines, writeMarshalDynMapHeader, a, c, printer.printf, Line.parses,
      argsParse]

/-- Evaluation of C7 for a record of 65536 fields with the size variable `zFieldN`. -/
theorem dynMapHeader_default_arm_malformed_witness :
    65535 < 65536 ∧
    (marshalHeaderLines "zFieldN" 65536).get? 6 = some (.dynAppend (dfArgs "zFieldN")) ∧
    renderArgs (dfArgs "zFieldN")
      = "0xdf, uint8(zFieldN>>24), uint8(zFieldN>>16), uint8(zFieldN>>8) uint8(zFieldN)" :=
  ⟨by decide, (dynMapHeader_default_arm_malformed "zFieldN" 65536 (by decide)).1, by decide⟩

/-- C8: the dynamic map-header writers emit only the size classes reachable
under `maxSize`.  For `maxSize ≤ 15` the header is one unconditional
single-byte append with no switch, case label or default label: the marshal
writer emits that append and nothing else, without any branching line, and
the encode writer emits the same append followed only by the check of the
stream error, `if err != nil { return }`, which it prints after the header
for every `maxSize` and which selects no size class.  For
`15 < maxSize ≤ 65535` the switch has exactly the one-byte arm and the 0xDE
arm.  A 0xDF arm is emitted exactly when `maxSize > 65535`. -/
theorem dynMapHeader_size_classes (v : String) (maxSize : Nat) :
    (maxSize ≤ 15 →
      marshalHeaderLines v maxSize = [.dynAppend [[.fixmap v]]] ∧
      encodeHeaderLines v maxSize = [.enAppend [[.fixmap v]], .errReturn] ∧
      (marshalHeaderLines v maxSize).all (fun l => !l.isBranch) = true ∧
      (encodeHeaderLines v maxSize).all (fun l => !l.isSizeSwitch) = true) ∧
    (15 < maxSize ∧ maxSize ≤ 65535 →
      marshalHeaderLines v maxSize =
        [.switchOpen, .caseLe v 15, .dynAppend [[.fixmap v]], .defaultArm,
         .dynAppend [[.lit 0xde], [.u8shr v 8], [.u8 v]], .close] ∧
      encodeHeaderLines v maxSize =
        [.switchOpen, .caseLe v 15, .enAppend [[.fixmap v]], .defaultArm,
         .enAppend [[.lit 0xde], [.u8shr v 8], [.u8 v]], .close, .errReturn]) ∧
    ((marshalHeaderLines v maxSize).any Line.isDFArm = true ↔ 65535 < maxSize) ∧
    ((encodeHeaderLines v maxSize).any Line.isDFArm = true ↔ 65535 < maxSize) := by
  refine ⟨?_, ?_, ?_, ?_⟩
  · intro h
    simp [marshalHeaderLines, encodeHeaderLines, writeMarshalDynMapHeader,
      writeEncodeDynMapHeader, h, printer.printf, Line.isBranch, Line.isSizeSwitch]
  · rintro ⟨h1, h2⟩
    have a : ¬ maxSize ≤ 15 := by omega
    have c : maxSize ≤ MaxUint16 := h2
    simp [marshalHeaderLines, encodeHeaderLines, writeMarshalDynMapHeader,
      writeEncodeDynMapHeader, a, c, printer.printf]
  · unfold marshalHeaderLines writeMarshalDynMapHeader MaxUint16
    split_ifs <;> simp [printer.printf, Line.isDFArm] <;> omega
  · unfold encodeHeaderLines writeEncodeDynMapHeader MaxUint16
    split_ifs <;> simp [printer.printf, Line.isDFArm] <;> omega

/-- Evaluation of C8 at the declared counts 15 and 16. -/
theorem dynMapHeader_size_classes_witness :
    marshalHeaderLines "n" 15 = [.dynAppend [[.fixmap "n"]]] ∧
    marshalHeaderLines "n" 16 =
      [.switchOpen, .caseLe "n" 15, .dynAppend [[.fixmap "n"]], .defaultArm,
       .dynAppend [[.lit 0xde], [.u8shr "n" 8], [.u8 "n"]], .close] :=
  ⟨((dynMapHeader_size_classes "n" 15).1 (by decide)).1,
   ((dynMapHeader_size_classes "n" 16).2.1 ⟨by decide, by decide⟩).1⟩

/-! ## Running emitted lines -/

theorem steps_append (inst : Instance) (cfg : Config) (a b : List Line) :
    steps inst cfg (a ++ b) = steps inst (steps inst cfg a) b := by
  simp [steps, List.foldl_append]

theorem steps_halted (inst : Instance) (out : Outcome) (ls : List Line) :
    steps inst (.halted out) ls = .halted out := by
  induction ls with
  | nil => rfl
  | cons l ls ih => simpa [steps, step] using ih

theorem steps_cons (inst : Instance) (cfg : Config) (l : Line) (ls : List Line) :
    steps inst cfg (l :: ls) = steps inst (step inst cfg l) ls := rfl

theorem steps_nil (inst : Instance) (cfg : Config) : steps inst cfg [] = cfg := rfl

theorem step_skip_neutral (inst : Instance) (d : Nat) (st : RunState) (l : Line)
    (hl : l.neutral = true) :
    step inst (.active (.skip d) st) l = .active (.skip d) st := by
  cases l <;> simp [Line.neutral, Line.opens] at hl <;> simp [step, Line.opens]

theorem skip_neutral (inst : Instance) (d : Nat) (st : RunState) (ls : List Line)
    (h : ∀ l ∈ ls, l.neutral = true) :
    steps inst (.active (.skip d) st) ls = .active (.skip d) st := by
  induction ls with
  | nil => rfl
  | cons l ls ih =>
    rw [steps_cons, step_skip_neutral inst d st l (h l (List.mem_cons_self _ _))]
    exact ih (fun l hl => h l (List.mem_cons_of_mem _ hl))

theorem RunsTo_nil (inst : Instance) (st : RunState) (h : st.err = false) :
    RunsTo inst st [] (some []) :=
  ⟨st, rfl, by simp, h, rfl, rfl, rfl, rfl⟩

theorem RunsTo_seq (inst : Instance) (st st1 : RunState) (a b : List Line) (x : List Nat)
    (r : Option (List Nat)) (h1 : steps inst (.active .exec st) a = .active .exec st1)
    (h2 : st1.o = st.o ++ x) (h4 : st1.b = st.b) (h5 : st1.count = st.count)
    (h6 : st1.maskTy = st.maskTy) (h7 : st1.mask = st.mask) (hb : RunsTo inst st1 b r) :
    RunsTo inst st (a ++ b) (r.map (x ++ ·)) := by
  cases r with
  | none =>
    simp only [RunsTo, Option.map] at hb ⊢
    rw [steps_append, h1, hb]
  | some y =>
    obtain ⟨st2, g1, g2, g3, g4, g5, g6, g7⟩ := hb
    refine ⟨st2, ?_, ?_, g3, ?_, ?_, ?_, ?_⟩
    · rw [steps_append, h1, g1]
    · rw [g2, h2, List.append_assoc]
    · rw [g4, h4]
    · rw [g5, h5]
    · rw [g6, h6]
    · rw [g7, h7]

theorem RunsTo_append (inst : Instance) (st : RunState) (a b : List Line) (x : List Nat)
    (r : Option (List Nat)) (ha : RunsTo inst st a (some x))
    (hb : ∀ st', st'.o = st.o ++ x → st'.err = false → st'.b = st.b → st'.count = st.count →
      st'.maskTy = st.maskTy → st'.mask = st.mask → RunsTo inst st' b r) :
    RunsTo inst st (a ++ b) (r.map (x ++ ·)) := by
  obtain ⟨st', h1, h2, h3, h4, h5, h6, h7⟩ := ha
  exact RunsTo_seq inst st st' a b x r h1 h2 h4 h5 h6 h7 (hb st' h2 h3 h4 h5 h6 h7)

theorem RunsTo_fail_append (inst : Instance) (st : RunState) (a b : List Line)
    (ha : RunsTo inst st a none) : RunsTo inst st (a ++ b) none := by
  simp only [RunsTo] at ha ⊢
  rw [steps_append, ha, steps_halted]

/-! ## The generator on primitive fields -/

theorem mprintf_ok (m : marshalGen) (h : m.p.err = false) (l : Line) :
    m.printf l = { m with p := { out := m.p.out ++ [l], err := false } } := by
  simp [marshalGen.printf, printf_ok m.p h]

theorem Fuse_eq (m : marshalGen) (b : List Nat) : Fuse m b = { m with fuse := m.fuse ++ b } := by
  unfold Fuse
  split_ifs with h
  · have : m.fuse = [] := List.length_eq_zero.mp h
    simp [this]
  · rfl

theorem fuseHook_ok (m : marshalGen) (h : m.p.err = false) :
    fuseHook m = { m with p := { out := m.p.out ++ flushLines m.fuse, err := false }, fuse := [] } := by
  obtain ⟨ap, ⟨out, err⟩, fuse, ctx, ids⟩ := m
  simp only at h
  subst h
  unfold fuseHook flushLines rawbytes
  by_cases hf : fuse.length > 0
  · simp [hf, marshalGen.printf, printer.printf]
  · have : fuse = [] := by
      cases fuse with
      | nil => rfl
      | cons a t => simp at hf
    subst this
    simp

theorem gBase_ok (E : Collab) (b : BaseElem) (m : marshalGen) (hm : m.p.err = false) :
    gBase E b m =
      { applyall := m.applyall
        p := { out := m.p.out ++ (flushLines m.fuse ++ baseLines E b m.idents m.ctx), err := false }
        fuse := []
        ctx := m.ctx
        idents := baseIdents b m.idents } := by
  obtain ⟨ap, ⟨out, err⟩, fuse, ctx, ids⟩ := m
  simp only at hm
  subst hm
  obtain ⟨vn, val, conv, sm, bn, bt, tb⟩ := b
  unfold gBase
  rw [fuseHook_ok _ rfl]
  cases conv <;> cases sm <;> cases val <;>
    simp [printer.ok, baseLines, valueLines, baseIdents, marshalGen.printf, printer.printf,
      rawAppend]

theorem valueLines_run (inst : Instance) (st : RunState) (h : st.err = false) (op : Operand)
    (e : String) (hr : st.resolve op = some e) (val : Primitive) (bn : String)
    (ctx : List PathSeg) :
    RunsTo inst st (valueLines val bn op ctx)
      (match val with
       | .IDENT => inst.marshalMsg e
       | .Intf | .Ext => inst.appendChecked bn e
       | _ => some (inst.append bn .literalFmt e)) := by
  cases val
  case IDENT =>
    simp only [valueLines]
    cases hm : inst.marshalMsg e with
    | none => simp [RunsTo, steps, step, execLine, hr, hm, RunState.ret]
    | some bs =>
      exact ⟨{ st with o := st.o ++ bs, err := false },
        by simp [steps, step, execLine, hr, hm], rfl, rfl, rfl, rfl, rfl, rfl⟩
  case Intf =>
    simp only [valueLines]
    cases hm : inst.appendChecked bn e with
    | none => simp [RunsTo, steps, step, execLine, hr, hm, RunState.ret]
    | some bs =>
      exact ⟨{ st with o := st.o ++ bs, err := false },
        by simp [steps, step, execLine, hr, hm], rfl, rfl, rfl, rfl, rfl, rfl⟩
  case Ext =>
    simp only [valueLines]
    cases hm : inst.appendChecked bn e with
    | none => simp [RunsTo, steps, step, execLine, hr, hm, RunState.ret]
    | some bs =>
      exact ⟨{ st with o := st.o ++ bs, err := false },
        by simp [steps, step, execLine, hr, hm], rfl, rfl, rfl, rfl, rfl, rfl⟩
  all_goals
    exact ⟨{ st with o := st.o ++ inst.append bn .literalFmt e },
      by simp [valueLines, steps, step, execLine, hr], rfl, h, rfl, rfl, rfl, rfl⟩

theorem baseLines_run (E : Collab) (inst : Instance) (b : BaseElem) (k : Nat)
    (ctx : List PathSeg) (st : RunState) (h : st.err = false) :
    RunsTo inst st (baseLines E b k ctx) (b.bytes inst) := by
  obtain ⟨vn, val, conv, sm, bn, bt, tb⟩ := b
  by_cases hc : conv = true ∧ sm ≠ .Cast
  · obtain ⟨hc1, hc2⟩ := hc
    subst hc1
    have hsm : sm = .Convert := by cases sm <;> simp_all
    subst hsm
    simp only [baseLines, BaseElem.bytes, BaseElem.operand]
    cases hf : inst.convFails tb with
    | true =>
      have : RunsTo inst st [Line.varDecl (E.randIdent k) bt, .convAssign (E.randIdent k) tb,
          .wrapErrCheck ctx] none := by
        simp [RunsTo, steps, step, execLine, hf, RunState.ret]
      simpa using RunsTo_fail_append inst st _ (valueLines val bn (.temp (E.randIdent k)) ctx) this
    | false =>
      let st1 : RunState :=
        { st with
          temps := fun x => if x = E.randIdent k then some tb else st.temps x
          err := false }
      have hs : steps inst (.active .exec st) [Line.varDecl (E.randIdent k) bt,
          .convAssign (E.randIdent k) tb, .wrapErrCheck ctx] = .active .exec st1 := by
        simp [steps, step, execLine, hf, st1]
      have hres : st1.resolve (.temp (E.randIdent k)) = some tb := by
        simp [RunState.resolve, st1]
      have h2 := valueLines_run inst st1 rfl (.temp (E.randIdent k)) tb hres val bn ctx
      have h3 := RunsTo_seq inst st st1 _ _ [] _ hs (by simp [st1]) rfl rfl rfl rfl h2
      simpa using h3
  · have hop : (if conv = true then (if sm = .Cast then Operand.name tb
        else .temp (E.randIdent k)) else .name vn)
        = .name (if conv = true then tb else vn) := by
      cases conv <;> cases sm <;> simp_all
    have hb : (conv && sm != ShimMode.Cast && inst.convFails tb) = false := by
      cases conv <;> cases sm <;> simp_all
    simp only [baseLines, BaseElem.bytes, BaseElem.operand, hc, if_false, List.nil_append, hop, hb]
    exact valueLines_run inst st h (.name (if conv = true then tb else vn)) _ rfl val bn ctx

theorem baseLines_parses (E : Collab) (b : BaseElem) (k : Nat) (ctx : List PathSeg) :
    (baseLines E b k ctx).all Line.parses = true ∧ ∀ l ∈ baseLines E b k ctx, l.neutral = true := by
  obtain ⟨vn, val, conv, sm, bn, bt, tb⟩ := b
  cases conv <;> cases sm <;> cases val <;>
    simp [baseLines, valueLines, Line.parses, Line.neutral, Line.opens]

/-! ## Mask arithmetic -/

theorem bmaskBit_eq (j : Nat) : bmaskBit j = 2 ^ (j % 64) := by
  unfold bmaskBit
  have h1 : (j % 2 ^ 64) &&& 0x3F = j % 64 := by
    have h := Nat.and_pow_two_sub_one_eq_mod (j % 2 ^ 64) 6
    have e : (2 : Nat) ^ 6 - 1 = 0x3F := by norm_num
    rw [e] at h
    rw [h]
    omega
  rw [h1, Nat.one_shiftLeft]
  apply Nat.mod_eq_of_lt
  exact Nat.pow_lt_pow_right (by decide) (Nat.mod_lt _ (by decide))

theorem and_two_pow_eq_zero (w k : Nat) : w &&& 2 ^ k = 0 ↔ w.testBit k = false := by
  constructor
  · intro h
    have := congrArg (fun x => x.testBit k) h
    simpa [Nat.testBit_and, Nat.testBit_two_pow_self] using this
  · intro h
    apply Nat.eq_of_testBit_eq
    intro i
    rw [Nat.testBit_and, Nat.testBit_two_pow, Nat.zero_testBit]
    by_cases hk : k = i
    · subst hk; simp [h]
    · simp [hk]

theorem maskWord_bmask (n j : Nat) (h : j < n) :
    maskWord (some (bmaskType n)) (if n > 64 then some (j >>> 6) else none) (bmaskBit j)
      = some (if n > 64 then j >>> 6 else 0) := by
  rw [bmaskBit_eq]
  have hlt : 2 ^ (j % 64) < 2 ^ 64 := Nat.pow_lt_pow_right (by decide) (Nat.mod_lt _ (by decide))
  by_cases hn : n > 64
  · have hidx : j >>> 6 < (n >>> 6) + 1 := by
      simp only [Nat.shiftRight_eq_div_pow]
      omega
    have ht : bmaskType n = .array ((n >>> 6) + 1) := by
      unfold bmaskType
      have a : ¬ n ≤ 8 := by omega
      have b : ¬ n ≤ 16 := by omega
      have c : ¬ n ≤ 32 := by omega
      have d : ¬ n ≤ 64 := by omega
      simp [a, b, c, d]
    norm_num at hlt
    simp [hn, ht, maskWord, hidx, hlt]
  · have hj : j % 64 = j := Nat.mod_eq_of_lt (by omega)
    simp only [hn, if_false]
    unfold bmaskType
    split_ifs with a b c d
    · have : 2 ^ (j % 64) < 2 ^ 8 := Nat.pow_lt_pow_right (by decide) (by omega)
      norm_num at this
      simp [maskWord, MaskType.bits, this]
    · have : 2 ^ (j % 64) < 2 ^ 16 := Nat.pow_lt_pow_right (by decide) (by omega)
      norm_num at this
      simp [maskWord, MaskType.bits, this]
    · have : 2 ^ (j % 64) < 2 ^ 32 := Nat.pow_lt_pow_right (by decide) (by omega)
      norm_num at this
      simp [maskWord, MaskType.bits, this]
    · norm_num at hlt
      simp [maskWord, MaskType.bits, hlt]
    · omega

theorem maskBit_set (mk : Nat → Nat) (n i j : Nat) (hi : i < n) (hj : j < n) :
    maskBit (fun w => if w = (if n > 64 then i >>> 6 else 0) then mk w ||| bmaskBit i else mk w) n j
      = (decide (j = i) || maskBit mk n j) := by
  unfold maskBit
  rw [bmaskBit_eq]
  by_cases hn : n > 64
  · simp only [hn, if_true]
    by_cases hw : j >>> 6 = i >>> 6
    · simp only [hw, if_true, Nat.testBit_or, Nat.testBit_two_pow]
      have : (i % 64 = j % 64) ↔ j = i := by
        simp only [Nat.shiftRight_eq_div_pow] at hw
        omega
      by_cases hji : j = i
      · subst hji; simp
      · have h2 : ¬ (i % 64 = j % 64) := fun h => hji (this.mp h)
        simp [hji, h2]
    · have hji : j ≠ i := fun h => hw (by rw [h])
      simp [hw, hji]
  · simp only [hn, if_false, if_true, Nat.testBit_or, Nat.testBit_two_pow]
    have h1 : i % 64 = i := Nat.mod_eq_of_lt (by omega)
    have h2 : j % 64 = j := Nat.mod_eq_of_lt (by omega)
    rw [h1, h2]
    by_cases hji : j = i
    · subst hji; simp
    · have : ¬ i = j := fun h => hji h.symm
      simp [hji, this]

/-! ## The emptiness checks of `mapstruct` -/

theorem isEncField_supported (sf : StructField Elem) (h : isEncField sf = true) :
    isSupportedElem sf.FieldElem = true := by
  unfold isEncField at h
  split_ifs at h
  exact h

theorem emptyExpr_of_enc (inst : Instance) (svar : String) (sf : StructField Elem)
    (h : isEncField sf = true) :
    ∃ c, emptyExpr sf.FieldElem (svar ++ "." ++ sf.FieldName) = some c ∧
      c.eval inst = fieldEmpty inst svar sf := by
  have hs := isEncField_supported sf h
  obtain ⟨tag, parts, name, el⟩ := sf
  cases el with
  | Base b =>
    obtain ⟨vn, val, conv, sm, bn, bt, tb⟩ := b
    cases val <;> simp [isSupportedElem] at hs <;>
      simp [emptyExpr, fieldEmpty, isEmptyKind, EmptyTest.eval]
  | _ => simp [isSupportedElem] at hs

theorem mapstructChecks_ok (svar N M : String) (n : Nat) :
    ∀ (fs : List (StructField Elem)) (i : Nat) (m : marshalGen), m.p.err = false →
      mapstructChecks svar N M n i fs m
        = some (false, { m with p := { out := m.p.out ++ checkLines svar N M n i fs, err := false } }) := by
  intro fs
  induction fs with
  | nil =>
    intro i m hm
    obtain ⟨ap, ⟨out, err⟩, fuse, ctx, ids⟩ := m
    simp only at hm
    subst hm
    simp [mapstructChecks, checkLines]
  | cons sf rest ih =>
    intro i m hm
    rw [mapstructChecks]
    by_cases henc : isEncField sf = true
    · obtain ⟨c, hc1, _⟩ := emptyExpr_of_enc zeroInstance svar sf henc
      simp only [printer.ok, hm, Bool.not_false, Bool.true_eq_false, if_false, henc, if_true,
        hc1, Bool.not_true]
      rw [mprintf_ok _ hm, mprintf_ok _ rfl, mprintf_ok _ rfl, mprintf_ok _ rfl, ih _ _ rfl]
      simp [checkLines, henc, hc1, List.append_assoc]
    · simp only [printer.ok, hm, Bool.not_false, Bool.true_eq_false, if_false, henc,
        Bool.not_true]
      rw [ih _ _ hm]
      simp [checkLines, henc]

theorem checkLines_parses (svar N M : String) (n : Nat) :
    ∀ (fs : List (StructField Elem)) (i : Nat),
      (checkLines svar N M n i fs).all Line.parses = true := by
  intro fs
  induction fs with
  | nil => intro i; rfl
  | cons sf rest ih =>
    intro i
    rw [checkLines, List.all_append, ih]
    split_ifs
    · split <;> simp [Line.parses]
    · simp

theorem checkLines_run (inst : Instance) (svar N M : String) (n : Nat) :
    ∀ (fs : List (StructField Elem)) (i : Nat) (st : RunState) (c : Int),
      i + fs.length ≤ n → st.count N = some c → st.maskTy M = some (bmaskType n) →
      ∃ st', steps inst (.active .exec st) (checkLines svar N M n i fs) = .active .exec st' ∧
        st'.o = st.o ∧ st'.err = st.err ∧ st'.b = st.b ∧ st'.maskTy = st.maskTy ∧
        st'.count N = some (c - ((fs.filter (omitted inst svar)).length : Int)) ∧
        ∀ j, j < n →
          maskBit (st'.mask M) n j = (maskBit (st.mask M) n j || omittedAt inst svar fs i j) := by
  intro fs
  induction fs with
  | nil =>
    intro i st c _ hc _
    exact ⟨st, rfl, rfl, rfl, rfl, rfl, by simpa using hc, by simp [omittedAt]⟩
  | cons sf rest ih =>
    intro i st c hlen hc hty
    have hi : i < n := by simp at hlen; omega
    have hlen' : (i + 1) + rest.length ≤ n := by simp at hlen; omega
    rw [checkLines, steps_append]
    by_cases henc : isEncField sf = true
    · obtain ⟨t, ht1, ht2⟩ := emptyExpr_of_enc inst svar sf henc
      simp only [henc, if_true, ht1]
      by_cases hemp : fieldEmpty inst svar sf = true
      · have hom : omitted inst svar sf = true := by simp [omitted, henc, hemp]
        have hw := maskWord_bmask n i hi
        let st1 : RunState :=
          { st with
            count := fun x => if x = N then some (c - 1) else st.count x
            mask := fun x => if x = M then
                fun j => if j = (if n > 64 then i >>> 6 else 0) then st.mask x j ||| bmaskBit i
                  else st.mask x j
              else st.mask x }
        have hs : steps inst (.active .exec st)
            [.ifEmpty t, .decr N, .maskSet (bmaskAssign1 M i n), .close] = .active .exec st1 := by
          simp [steps, step, execLine, ht2, hemp, hc, bmaskAssign1, hty, hw, st1]
        rw [hs]
        obtain ⟨st', g1, g2, g3, g4, g5, g6, g7⟩ :=
          ih (i + 1) st1 (c - 1) hlen' (by simp [st1]) (by simpa [st1] using hty)
        refine ⟨st', g1, g2, g3, g4, g5, ?_, ?_⟩
        · rw [g6]
          simp [List.filter, hom]
          omega
        · intro j hj
          rw [g7 j hj]
          have := maskBit_set (st.mask M) n i j hi hj
          simp only [st1, if_true, this, omittedAt, hom, Bool.and_true]
          cases decide (j = i) <;> cases maskBit (st.mask M) n j <;> simp
      · have hom : omitted inst svar sf = false := by simp [omitted, henc, hemp]
        have hs : steps inst (.active .exec st)
            [.ifEmpty t, .decr N, .maskSet (bmaskAssign1 M i n), .close] = .active .exec st := by
          simp [steps, step, execLine, ht2, hemp, Line.opens]
        rw [hs]
        obtain ⟨st', g1, g2, g3, g4, g5, g6, g7⟩ := ih (i + 1) st c hlen' hc hty
        refine ⟨st', g1, g2, g3, g4, g5, ?_, ?_⟩
        · rw [g6]
          simp [List.filter, hom]
        · intro j hj
          rw [g7 j hj]
          simp [omittedAt, hom]
    · have hom : omitted inst svar sf = false := by simp [omitted, henc]
      simp only [henc, if_false, Bool.false_eq_true, steps_nil]
      obtain ⟨st', g1, g2, g3, g4, g5, g6, g7⟩ := ih (i + 1) st c hlen' hc hty
      refine ⟨st', g1, g2, g3, g4, g5, ?_, ?_⟩
      · rw [g6]
        simp [List.filter, hom]
      · intro j hj
        rw [g7 j hj]
        simp [omittedAt, hom]

/-! ## The field loop of `mapstruct` on primitive fields -/

theorem next_base (E : Collab) (b : BaseElem) (m : marshalGen) :
    next E (.Base b) m = some (gBase E b m) := by
  rw [next]

theorem printf_mk (ap : Elem → Option Elem) (out : List Line) (fuse : List Nat)
    (ctx : List PathSeg) (ids : Nat) (l : Line) :
    (marshalGen.mk ap { out := out, err := false } fuse ctx ids).printf l
      = marshalGen.mk ap { out := out ++ [l], err := false } fuse ctx ids := by
  simp [marshalGen.printf, printer.printf]

theorem Fuse_mk (ap : Elem → Option Elem) (p : printer) (fuse : List Nat)
    (ctx : List PathSeg) (ids : Nat) (b : List Nat) :
    Fuse (marshalGen.mk ap p fuse ctx ids) b = marshalGen.mk ap p (fuse ++ b) ctx ids := by
  rw [Fuse_eq]

theorem fuseHook_mk (ap : Elem → Option Elem) (out : List Line) (fuse : List Nat)
    (ctx : List PathSeg) (ids : Nat) :
    fuseHook (marshalGen.mk ap { out := out, err := false } fuse ctx ids)
      = marshalGen.mk ap { out := out ++ flushLines fuse, err := false } [] ctx ids := by
  rw [fuseHook_ok _ rfl]

theorem PushString_mk (ap : Elem → Option Elem) (p : printer) (fuse : List Nat)
    (ctx : List PathSeg) (ids : Nat) (s : String) :
    (marshalGen.mk ap p fuse ctx ids).PushString s
      = marshalGen.mk ap p fuse (ctx ++ [.str s]) ids := rfl

theorem Pop_mk (ap : Elem → Option Elem) (p : printer) (fuse : List Nat)
    (ctx : List PathSeg) (ids : Nat) (x : PathSeg) :
    (marshalGen.mk ap p fuse (ctx ++ [x]) ids).Pop = marshalGen.mk ap p fuse ctx ids := by
  simp [marshalGen.Pop]

theorem gBase_mk (E : Collab) (b : BaseElem) (ap : Elem → Option Elem) (out : List Line)
    (fuse : List Nat) (ctx : List PathSeg) (ids : Nat) :
    gBase E b (marshalGen.mk ap { out := out, err := false } fuse ctx ids)
      = marshalGen.mk ap { out := out ++ (flushLines fuse ++ baseLines E b ids ctx), err := false }
          [] ctx (baseIdents b ids) := by
  rw [gBase_ok _ _ _ rfl]

theorem mapstructFields_ok (E : Collab) (M : String) (n : Nat) :
    ∀ (fs : List (StructField Elem)) (i : Nat) (m : marshalGen), m.p.err = false →
      m.fuse = [] → allBase fs →
      mapstructFields E M n i fs m
        = some { m with
            p := { out := m.p.out ++ fieldLines E M n m.ctx i fs m.idents, err := false }
            idents := fieldsIdents fs m.idents } := by
  intro fs
  induction fs with
  | nil =>
    intro i m hm hf _
    obtain ⟨ap, ⟨out, err⟩, fuse, ctx, ids⟩ := m
    simp only at hm hf
    subst hm hf
    simp [mapstructFields, fieldLines, fieldsIdents]
  | cons sf rest ih =>
    intro i m hm hf hb
    obtain ⟨b, hbase⟩ := hb sf (List.mem_cons_self _ _)
    have hb' : allBase rest := fun x hx => hb x (List.mem_cons_of_mem _ hx)
    obtain ⟨ap, ⟨out, err⟩, fuse, ctx, ids⟩ := m
    simp only at hm hf
    subst hm hf
    rw [mapstructFields]
    by_cases henc : isEncField sf = true
    · simp only [printer.ok, Bool.not_false, Bool.true_eq_false, if_false, henc, if_true,
        Bool.not_true, hbase, next_base, printf_mk, Fuse_mk, PushString_mk, gBase_mk, Pop_mk]
      rw [ih _ _ rfl rfl hb']
      simp [fieldLines, fieldsIdents, hbase, henc, List.append_assoc]
    · simp only [printer.ok, Bool.not_false, Bool.true_eq_false, if_false, henc,
        Bool.false_eq_true, Bool.not_true, hbase, next_base, printf_mk, Fuse_mk, PushString_mk,
        gBase_mk, Pop_mk]
      rw [ih _ _ rfl rfl hb']
      simp [fieldLines, fieldsIdents, hbase, henc, List.append_assoc]

theorem omittedAt_lt (inst : Instance) (svar : String) :
    ∀ (fs : List (StructField Elem)) (i j : Nat), j < i → omittedAt inst svar fs i j = false := by
  intro fs
  induction fs with
  | nil => intro i j _; rfl
  | cons sf rest ih =>
    intro i j h
    have h1 : ¬ j = i := by omega
    simp [omittedAt, h1, ih (i + 1) j (by omega)]

theorem flushLines_run (inst : Instance) (st : RunState) (h : st.err = false) (x : List Nat) :
    RunsTo inst st (flushLines x) (some x) := by
  unfold flushLines
  split_ifs with hx
  · exact ⟨{ st with o := st.o ++ x }, by simp [steps, step, execLine], rfl, h, rfl, rfl, rfl, rfl⟩
  · have : x = [] := by
      cases x with
      | nil => rfl
      | cons a t => simp at hx
    subst this
    exact RunsTo_nil inst st h

theorem flushLines_neutral (x : List Nat) :
    (flushLines x).all Line.parses = true ∧ ∀ l ∈ flushLines x, l.neutral = true := by
  unfold flushLines
  split_ifs <;> simp [Line.parses, Line.neutral, Line.opens]

theorem RunsTo_map_nil (r : Option (List Nat)) : r.map (([] : List Nat) ++ ·) = r := by
  cases r <;> simp

theorem RunsTo_close (inst : Instance) (st : RunState) (L : List Line) (r : Option (List Nat))
    (h : RunsTo inst st L r) : RunsTo inst st (L ++ [.close]) r := by
  cases r with
  | none => exact RunsTo_fail_append inst st L _ h
  | some x =>
    have := RunsTo_append inst st L [.close] x (some []) h
      (fun st' _ he _ _ _ _ => ⟨st', by simp [steps, step, execLine], by simp, he, rfl, rfl, rfl, rfl⟩)
    simpa using this

theorem RunsTo_comment (inst : Instance) (st : RunState) (c : Comment) (L : List Line)
    (r : Option (List Nat)) (h : RunsTo inst st L r) : RunsTo inst st (.comment c :: L) r := by
  have := RunsTo_seq inst st st [.comment c] L [] r (by simp [steps, step, execLine]) (by simp)
    rfl rfl rfl rfl h
  simpa [RunsTo_map_nil] using this

theorem RunsTo_guard_pass (inst : Instance) (st : RunState) (M : String) (n i : Nat)
    (hi : i < n) (hty : st.maskTy M = some (bmaskType n))
    (hbit : maskBit (st.mask M) n i = false) (L : List Line) (r : Option (List Nat))
    (h : RunsTo inst st L r) : RunsTo inst st (.ifMask (bmaskRead M i n) :: L) r := by
  have hz : st.mask M (if n > 64 then i >>> 6 else 0) &&& bmaskBit i = 0 := by
    rw [bmaskBit_eq, and_two_pow_eq_zero]
    exact hbit
  have hs : steps inst (.active .exec st) [.ifMask (bmaskRead M i n)] = .active .exec st := by
    simp [steps, step, execLine, bmaskRead, hty, maskWord_bmask n i hi, hz]
  have := RunsTo_seq inst st st [.ifMask (bmaskRead M i n)] L [] r hs (by simp) rfl rfl rfl rfl h
  simpa [RunsTo_map_nil] using this

theorem guard_skip (inst : Instance) (st : RunState) (M : String) (n i : Nat)
    (hi : i < n) (hty : st.maskTy M = some (bmaskType n))
    (hbit : maskBit (st.mask M) n i = true) (L : List Line)
    (hn : ∀ l ∈ L, l.neutral = true) :
    steps inst (.active .exec st) (.ifMask (bmaskRead M i n) :: (L ++ [.close]))
      = .active .exec st := by
  have hz : ¬ st.mask M (if n > 64 then i >>> 6 else 0) &&& bmaskBit i = 0 := by
    rw [bmaskBit_eq, and_two_pow_eq_zero]
    simpa [maskBit] using hbit
  have hs : step inst (.active .exec st) (.ifMask (bmaskRead M i n)) = .active (.skip 0) st := by
    simp [step, execLine, bmaskRead, hty, maskWord_bmask n i hi, hz]
  rw [steps_cons, hs, steps_append, skip_neutral inst 0 st L hn]
  simp [steps, step, Line.opens]

theorem keyValue_run (E : Collab) (inst : Instance) (st : RunState) (h : st.err = false)
    (tag : String) (b : BaseElem) (k : Nat) (ctx : List PathSeg) :
    RunsTo inst st
      (.comment (.keyString tag) :: (flushLines (E.AppendString tag) ++ baseLines E b k ctx))
      ((b.bytes inst).map (E.AppendString tag ++ ·)) := by
  apply RunsTo_comment
  exact RunsTo_append inst st _ _ _ _ (flushLines_run inst st h _)
    (fun st' _ he _ _ _ _ => baseLines_run E inst b k ctx st' he)

theorem keyValue_neutral (E : Collab) (tag : String) (b : BaseElem) (k : Nat)
    (ctx : List PathSeg) :
    ∀ l ∈ Line.comment (.keyString tag) :: (flushLines (E.AppendString tag) ++ baseLines E b k ctx),
      l.neutral = true := by
  intro l hl
  simp only [List.mem_cons, List.mem_append] at hl
  rcases hl with hl | hl | hl
  · subst hl; rfl
  · exact (flushLines_neutral _).2 l hl
  · exact (baseLines_parses E b k ctx).2 l hl

theorem fieldLines_parses (E : Collab) (M : String) (n : Nat) (ctx : List PathSeg) :
    ∀ (fs : List (StructField Elem)) (i k : Nat),
      (fieldLines E M n ctx i fs k).all Line.parses = true := by
  intro fs
  induction fs with
  | nil => intro i k; rfl
  | cons sf rest ih =>
    intro i k
    rw [fieldLines]
    split
    · simp only [List.all_append, ih, (flushLines_neutral _).1, (baseLines_parses E _ _ _).1]
      split_ifs <;> simp [Line.parses]
    · rfl

theorem fieldLines_run (E : Collab) (inst : Instance) (M svar : String) (n : Nat)
    (ctx : List PathSeg) :
    ∀ (fs : List (StructField Elem)) (i k : Nat) (st : RunState), allBase fs →
      i + fs.length ≤ n → st.err = false → st.maskTy M = some (bmaskType n) →
      (∀ j, i ≤ j → j < n → maskBit (st.mask M) n j = omittedAt inst svar fs i j) →
      RunsTo inst st (fieldLines E M n ctx i fs k)
        (encodeFields E inst (keptFields inst svar fs)) := by
  intro fs
  induction fs with
  | nil =>
    intro i k st _ _ he _ _
    exact RunsTo_nil inst st he
  | cons sf rest ih =>
    intro i k st hb hlen he hty hbits
    obtain ⟨b, hbase⟩ := hb sf (List.mem_cons_self _ _)
    have hb' : allBase rest := fun x hx => hb x (List.mem_cons_of_mem _ hx)
    have hi : i < n := by simp at hlen; omega
    have hlen' : (i + 1) + rest.length ≤ n := by simp at hlen; omega
    have hbit_i : maskBit (st.mask M) n i = omitted inst svar sf := by
      rw [hbits i (le_refl _) hi]
      simp [omittedAt, omittedAt_lt inst svar rest (i + 1) i (by omega)]
    have htail : ∀ st' : RunState, st'.err = false → st'.maskTy = st.maskTy →
        st'.mask = st.mask →
        RunsTo inst st' (fieldLines E M n ctx (i + 1) rest (baseIdents b k))
          (encodeFields E inst (keptFields inst svar rest)) := by
      intro st' he' hty' hmask'
      apply ih (i + 1) _ st' hb' hlen' he' (by rw [hty', hty])
      intro j hj1 hj2
      rw [hmask', hbits j (by omega) hj2]
      have : ¬ j = i := by omega
      simp [omittedAt, this]
    have hval : valueBytes inst sf = b.bytes inst := by simp [valueBytes, hbase]
    rw [fieldLines]
    simp only [hbase]
    by_cases hom : omitted inst svar sf = true
    · have henc : isEncField sf = true := by
        simp only [omitted, Bool.and_eq_true] at hom
        exact hom.1
      have hk : keptFields inst svar (sf :: rest) = keptFields inst svar rest := by
        simp [keptFields, List.filter, hom]
      rw [hk]
      simp only [henc, if_true, List.append_assoc, List.singleton_append]
      have hs := guard_skip inst st M n i hi hty (by rw [hbit_i, hom]) _
        (keyValue_neutral E sf.FieldTag b k (ctx ++ [.str sf.FieldName]))
      have := RunsTo_seq inst st st _ (fieldLines E M n ctx (i + 1) rest (baseIdents b k)) [] _
        hs (by simp) rfl rfl rfl rfl (htail st he rfl rfl)
      simpa [RunsTo_map_nil, List.append_assoc] using this
    · have hom' : omitted inst svar sf = false := by simpa using hom
      have hk : keptFields inst svar (sf :: rest) = sf :: keptFields inst svar rest := by
        simp [keptFields, List.filter, hom']
      rw [hk, encodeFields, hval]
      have hkv := keyValue_run E inst st he sf.FieldTag b k (ctx ++ [.str sf.FieldName])
      have hblock : RunsTo inst st
          ((if isEncField sf = true then [Line.ifMask (bmaskRead M i n)] else []) ++
            [Line.comment (.keyString sf.FieldTag)] ++ flushLines (E.AppendString sf.FieldTag) ++
            baseLines E b k (ctx ++ [.str sf.FieldName]) ++
            (if isEncField sf = true then [Line.close] else []))
          ((b.bytes inst).map (E.AppendString sf.FieldTag ++ ·)) := by
        by_cases henc : isEncField sf = true
        · simp only [henc, if_true, List.append_assoc, List.singleton_append]
          have h1 := RunsTo_close inst st _ _ hkv
          have h2 := RunsTo_guard_pass inst st M n i hi hty (by rw [hbit_i, hom']) _ _ h1
          simpa [List.append_assoc] using h2
        · have henc' : isEncField sf = false := by simpa using henc
          simpa [henc', List.append_assoc] using hkv
      cases hbytes : b.bytes inst with
      | none =>
        rw [hbytes] at hblock
        simp only [Option.map] at hblock
        exact RunsTo_fail_append inst st _ _ hblock
      | some x =>
        rw [hbytes] at hblock
        simp only [Option.map] at hblock
        have := RunsTo_append inst st _ (fieldLines E M n ctx (i + 1) rest (baseIdents b k)) _
          (encodeFields E inst (keptFields inst svar rest)) hblock
          (fun st' _ he' _ _ hty' hmask' => htail st' he' hty' hmask')
        cases hrest : encodeFields E inst (keptFields inst svar rest) with
        | none => simpa [hrest] using this
        | some xs => simpa [hrest, List.append_assoc] using this

/-! ## The procedure of a keyed record with omission -/

theorem writeMarshalDynMapHeader_ok (p : printer) (h : p.err = false) (v : String) (n : Nat) :
    writeMarshalDynMapHeader p v n
      = { out := p.out ++ marshalHeaderLines v n, err := false } := by
  obtain ⟨out, err⟩ := p
  simp only at h
  subst h
  unfold marshalHeaderLines writeMarshalDynMapHeader
  split_ifs <;> simp [printer.printf]

theorem writeHeader_mk (out : List Line) (v : String) (n : Nat) :
    writeMarshalDynMapHeader { out := out, err := false } v n
      = { out := out ++ marshalHeaderLines v n, err := false } :=
  writeMarshalDynMapHeader_ok _ rfl v n

theorem procedure_omit (E : Collab) (v : String) (fs : List (StructField Elem)) (m : marshalGen)
    (hs : passStarts E (.Struct v false fs) m) (hb : allBase fs)
    (hany : isEncForAnyFields fs = true) :
    procedure E (.Struct v false fs) m = some (omitProcedure E v fs m.idents) := by
  obtain ⟨h1, h2, h3, h4⟩ := hs
  obtain ⟨ap, ⟨out, err⟩, fuse, ctx, ids⟩ := m
  simp only at h1 h2 h3
  subst h1 h2
  unfold procedure Execute
  simp only [printer.ok, Bool.not_false, Bool.false_eq_true, if_false, h3, h4, Bool.not_true,
    printf_mk, Elem.Varname]
  rw [next]
  simp only [gStruct, printer.ok, Bool.not_false, Bool.false_eq_true, if_false, mapstruct, hany,
    if_true, printf_mk]
  rw [mapstructChecks_ok _ _ _ _ _ _ _ rfl]
  simp only [writeHeader_mk, printer.ok, Bool.not_false, Bool.false_eq_true,
    if_false, printf_mk]
  rw [mapstructFields_ok E _ _ _ _ _ rfl rfl hb]
  simp [omitProcedure, omitPrologue, fieldNVarOf, fieldEMVarOf, marshalGen.printf,
    printer.printf, List.append_assoc]

theorem marshalHeaderLines_parses (v : String) (n : Nat) (h : n ≤ 65535) :
    (marshalHeaderLines v n).all Line.parses = true := by
  unfold marshalHeaderLines writeMarshalDynMapHeader
  have : n ≤ MaxUint16 := h
  split_ifs <;> simp [printer.printf, Line.parses, argsParse]

theorem kept_length (inst : Instance) (svar : String) (fs : List (StructField Elem)) :
    (keptFields inst svar fs).length + (fs.filter (omitted inst svar)).length = fs.length := by
  induction fs with
  | nil => rfl
  | cons sf rest ih =>
    cases h : omitted inst svar sf <;> simp [keptFields, List.filter, h] at ih ⊢ <;> omega

theorem isEncForAnyFields_pos (fs : List (StructField Elem)) (h : isEncForAnyFields fs = true) :
    1 ≤ fs.length := by
  cases fs with
  | nil => simp [isEncForAnyFields] at h
  | cons a t => simp

theorem omitPrologue_run (E : Collab) (inst : Instance) (v : String)
    (fs : List (StructField Elem)) (b : List Nat) (hn : fs.length ≤ 65535) :
    ∃ st4, steps inst (.active .exec (RunState.init b)) (omitPrologue E v fs) = .active .exec st4 ∧
      st4.o = b ++ AppendMapHeader [] (keptFields inst v fs).length ∧
      st4.err = false ∧
      st4.count (fieldNVarOf v) = some ((keptFields inst v fs).length : Int) ∧
      st4.maskTy (fieldEMVarOf v) = some (bmaskType fs.length) ∧
      ∀ j, j < fs.length →
        maskBit (st4.mask (fieldEMVarOf v)) fs.length j = omittedAt inst v fs 0 j := by
  unfold omitPrologue
  set N := fieldNVarOf v with hN
  set M := fieldEMVarOf v with hM
  set n := fs.length with hnn
  set c := (keptFields inst v fs).length with hc
  let st2 : RunState :=
    { RunState.init b with
      o := b
      count := fun x => if x = N then some (n : Int) else none
      maskTy := fun x => if x = M then some (bmaskType n) else none
      mask := fun x => if x = M then fun _ => 0 else fun _ => 0 }
  have h12 : steps inst (.active .exec (RunState.init b))
      ([.comment .implements, .funcHeader v (E.imutMethodReceiver (.Struct v false fs)),
        .require v] ++ [.comment .omitCheck, .countDecl N n, .maskDecl M (bmaskType n)])
      = .active .exec st2 := by
    simp [steps, step, execLine, RunState.init, st2]
  obtain ⟨st3, g1, g2, g3, g4, g5, g6, g7⟩ :=
    checkLines_run inst v N M n fs 0 st2 (n : Int) (by omega) (by simp [st2]) (by simp [st2])
  have hkl := kept_length inst v fs
  have hcnt : st3.count N = some (c : Int) := by
    rw [g6]
    congr 1
    omega
  have hcn : c ≤ n := by omega
  have hhdr := marshalHeader_run inst st3 N n c hn hcn hcnt
  have hbytes : mapHeaderBytes c = AppendMapHeader [] c := hhdr.1
  have hrun := hhdr.2
  have ho3 : st3.o = b := by simp [g2, st2]
  have he3 : st3.err = false := by simp [g3, st2, RunState.init]
  have hty3 : st3.maskTy M = some (bmaskType n) := by simp [g5, st2]
  refine ⟨{ st3 with o := st3.o ++ mapHeaderBytes c }, ?_, ?_, he3, hcnt, hty3, ?_⟩
  · rw [steps_append, steps_append, steps_append, h12, g1]
    simp only [steps_cons, steps_nil, step, execLine]
    exact hrun
  · simp [ho3, hbytes]
  · intro j hj
    have := g7 j hj
    simp only [this]
    simp [st2, maskBit]

theorem omitProcedure_parses (E : Collab) (v : String) (fs : List (StructField Elem)) (k : Nat)
    (hn : fs.length ≤ 65535) : (omitProcedure E v fs k).all Line.parses = true := by
  simp [omitProcedure, omitPrologue, List.all_append, checkLines_parses, fieldLines_parses,
    marshalHeaderLines_parses _ _ hn, Line.parses]

theorem omitProcedure_run (E : Collab) (inst : Instance) (v : String)
    (fs : List (StructField Elem)) (k : Nat) (b : List Nat) (hb : allBase fs)
    (hn : fs.length ≤ 65535) :
    run inst b (omitProcedure E v fs k) =
      match encodeFields E inst (keptFields inst v fs) with
      | some body => .ok (b ++ AppendMapHeader [] (keptFields inst v fs).length ++ body)
      | none => .error := by
  unfold run
  rw [if_pos (omitProcedure_parses E v fs k hn)]
  obtain ⟨st4, h4, ho4, he4, hcnt4, hty4, hbits4⟩ := omitPrologue_run E inst v fs b hn
  unfold omitProcedure
  set N := fieldNVarOf v with hN
  set M := fieldEMVarOf v with hM
  set n := fs.length with hnn
  set c := (keptFields inst v fs).length with hc
  rw [steps_append, steps_append, steps_append, h4]
  by_cases hc0 : c = 0
  · have hk : keptFields inst v fs = [] := List.length_eq_zero.mp (by rw [← hc]; exact hc0)
    have hz : step inst (.active .exec st4) (.ifZeroReturn N) = .halted (.ok st4.o) := by
      have : st4.count N = some (0 : Int) := by rw [hcnt4, hc0]; rfl
      simp [step, execLine, this, RunState.ret, he4]
    have e1 : steps inst (.active .exec st4) [.ifZeroReturn N] = .halted (.ok st4.o) := by
      rw [steps_cons, hz, steps_nil]
    rw [e1, steps_halted, steps_halted]
    simp [Config.result, hk, encodeFields, ho4, hc0]
  · have hz : step inst (.active .exec st4) (.ifZeroReturn N) = .active .exec st4 := by
      have hne : ¬ (c : Int) = 0 := by omega
      simp [step, execLine, hcnt4, hne]
    have e1 : steps inst (.active .exec st4) [.ifZeroReturn N] = .active .exec st4 := by
      rw [steps_cons, hz, steps_nil]
    rw [e1]
    have hfl := fieldLines_run E inst M v n [] fs 0 k st4 hb (by omega) he4 hty4
      (fun j _ hj => hbits4 j hj)
    cases hbody : encodeFields E inst (keptFields inst v fs) with
    | none =>
      rw [hbody] at hfl
      simp only [RunsTo] at hfl
      rw [hfl]
      rfl
    | some body =>
      rw [hbody] at hfl
      obtain ⟨st5, f1, f2, f3, _, _, _, _⟩ := hfl
      rw [f1]
      simp [steps, step, execLine, RunState.ret, f3, Config.result, f2, ho4]

theorem omit_quick_return (E : Collab) (inst : Instance) (v : String)
    (fs : List (StructField Elem)) (b : List Nat) (hn : fs.length ≤ 65535)
    (hk : keptFields inst v fs = []) :
    steps inst (.active .exec (RunState.init b))
      (omitPrologue E v fs ++ [.ifZeroReturn (fieldNVarOf v)]) = .halted (.ok (b ++ [0x80])) := by
  obtain ⟨st4, h4, ho4, he4, hcnt4, _, _⟩ := omitPrologue_run E inst v fs b hn
  rw [hk] at ho4 hcnt4
  have hz : step inst (.active .exec st4) (.ifZeroReturn (fieldNVarOf v))
      = .halted (.ok st4.o) := by
    have : st4.count (fieldNVarOf v) = some (0 : Int) := by rw [hcnt4]; rfl
    simp [step, execLine, this, RunState.ret, he4]
  rw [steps_append, h4, steps_cons, hz, steps_nil, ho4]
  rfl

/-! ## Claims on keyed records with omission -/

theorem mem_keptFields (inst : Instance) (v : String) (fs : List (StructField Elem))
    (sf : StructField Elem) (h : sf ∈ fs) :
    sf ∈ keptFields inst v fs ↔ ¬ (isEncField sf = true ∧ fieldEmpty inst v sf = true) := by
  simp only [keptFields, List.mem_filter, h, omitted, true_and]
  cases isEncField sf <;> cases fieldEmpty inst v sf <;> simp

/-- C1 as stated fails when a value encoding can fail: for the keyed record
with an omitted string field and a field of a named type, on the instance
whose delegated `MarshalMsg` returns an error, the procedure returns that
error and no output, although the record meets every condition of the claim. -/
theorem mapstruct_omitempty_delegate_error :
    isEncForAnyFields [stringField "A" "a" ["omitempty"], identField "B" "b" []] = true ∧
    (procedure msgpack delegatingRecord marshal).map (run failingInstance []) = some .error ∧
    ¬ ∃ o, (procedure msgpack delegatingRecord marshal).map (run failingInstance []) = some (.ok o) := by
  have h : (procedure msgpack delegatingRecord marshal).map (run failingInstance [])
      = some .error := by decide
  refine ⟨by decide, h, ?_⟩
  rintro ⟨o, ho⟩
  rw [h] at ho
  cases ho

/-- C1 (amended): for a keyed record that is the top-level Elem of a marshal
pass, with `1 ≤ n ≤ 65535` fields, all primitive, at least one of them
omission-qualifying, and for every instance: the number of kept fields is `n`
minus the number of fields that are qualifying and empty, a field is kept
exactly when it is not (qualifying and empty), and, when no fallible
conversion or delegated marshal of a kept field fails, the generated
procedure returns the input buffer followed by the map header of that count
and by key string and value encoding of exactly the kept fields in declared
order; when one fails the procedure returns the error. -/
theorem mapstruct_omitempty_output (E : Collab) (inst : Instance) (v : String)
    (fs : List (StructField Elem)) (m : marshalGen) (b : List Nat)
    (hs : passStarts E (.Struct v false fs) m)
    (hn : 1 ≤ fs.length ∧ fs.length ≤ 65535) (hb : allBase fs)
    (hany : isEncForAnyFields fs = true) :
    (keptFields inst v fs).length = fs.length - (fs.filter (omitted inst v)).length ∧
    (∀ sf ∈ fs, (sf ∈ keptFields inst v fs ↔
      ¬ (isEncField sf = true ∧ fieldEmpty inst v sf = true))) ∧
    (procedure E (.Struct v false fs) m).map (run inst b) =
      some (match encodeFields E inst (keptFields inst v fs) with
        | some body =>
          .ok (b ++ AppendMapHeader [] (fs.length - (fs.filter (omitted inst v)).length) ++ body)
        | none => .error) := by
  have hk := kept_length inst v fs
  have hlen : (keptFields inst v fs).length = fs.length - (fs.filter (omitted inst v)).length := by
    omega
  refine ⟨hlen, fun sf h => mem_keptFields inst v fs sf h, ?_⟩
  rw [procedure_omit E v fs m hs hb hany, Option.map_some', omitProcedure_run E inst v fs _ b hb hn.2,
    hlen]

/-- Witness of C1 (amended): a qualifying empty string field and a
non-qualifying one; only the second is written. -/
theorem mapstruct_omitempty_output_witness :
    (procedure msgpack (.Struct "z" false twoFieldRecord) marshal).map (run zeroInstance [1, 2])
      = some (.ok [1, 2, 0x81, 0xa1, 98, 0xa0]) :=
  (mapstruct_omitempty_output msgpack zeroInstance "z" twoFieldRecord marshal [1, 2]
    ⟨rfl, rfl, rfl, rfl⟩ ⟨by decide, by decide⟩
    (by intro sf h
        simp only [twoFieldRecord, List.mem_cons, List.mem_singleton, List.not_mem_nil,
          or_false] at h
        rcases h with rfl | rfl <;> exact ⟨_, rfl⟩)
    (by decide)).2.2.trans (by decide)

/-- C2: for a keyed record with `1 ≤ n ≤ 65535` fields that are all
omission-qualifying, marshalling an instance whose fields are all empty
returns the input buffer followed by the single byte 0x80, the zero-count map
header, and the procedure returns at the quick return that follows the
header, before any line of a field.  No case distinction on `n` is made. -/
theorem mapstruct_all_empty (E : Collab) (inst : Instance) (v : String)
    (fs : List (StructField Elem)) (m : marshalGen) (b : List Nat)
    (hs : passStarts E (.Struct v false fs) m)
    (hn : 1 ≤ fs.length ∧ fs.length ≤ 65535)
    (hq : ∀ sf ∈ fs, isEncField sf = true)
    (he : ∀ sf ∈ fs, fieldEmpty inst v sf = true) :
    (procedure E (.Struct v false fs) m).map (run inst b) = some (.ok (b ++ [0x80])) ∧
    ∃ pre post, procedure E (.Struct v false fs) m
        = some (pre ++ [.ifZeroReturn (fieldNVarOf v)] ++ post) ∧
      steps inst (.active .exec (RunState.init b)) (pre ++ [.ifZeroReturn (fieldNVarOf v)])
        = .halted (.ok (b ++ [0x80])) := by
  have hb : allBase fs := by
    intro sf h
    have := isEncField_supported sf (hq sf h)
    cases hel : sf.FieldElem with
    | Base b => exact ⟨b, rfl⟩
    | _ => simp [hel, isSupportedElem] at this
  have hany : isEncForAnyFields fs = true := by
    cases fs with
    | nil => simp at hn
    | cons a t => simp [isEncForAnyFields, hq a (List.mem_cons_self _ _)]
  have hk : keptFields inst v fs = [] := by
    simp only [keptFields, List.filter_eq_nil_iff]
    intro sf h
    simp [omitted, hq sf h, he sf h]
  refine ⟨?_, omitPrologue E v fs,
    fieldLines E (fieldEMVarOf v) fs.length [] 0 fs m.idents ++ [.nakedReturn], ?_, ?_⟩
  · rw [procedure_omit E v fs m hs hb hany, Option.map_some',
      omitProcedure_run E inst v fs _ b hb hn.2, hk]
    simp [encodeFields, AppendMapHeader]
  · rw [procedure_omit E v fs m hs hb hany]
    simp [omitProcedure, List.append_assoc]
  · exact omit_quick_return E inst v fs b hn.2 hk

/-- Witness of C2: one string field tagged `omitempty`, empty. -/
theorem mapstruct_all_empty_witness :
    (procedure msgpack (.Struct "z" false [stringField "AString" "astring" ["omitempty"]])
      marshal).map (run zeroInstance [7]) = some (.ok [7, 0x80]) :=
  (mapstruct_all_empty msgpack zeroInstance "z" [stringField "AString" "astring" ["omitempty"]]
    marshal [7] ⟨rfl, rfl, rfl, rfl⟩ ⟨by decide, by decide⟩
    (by intro sf h
        simp only [List.mem_singleton] at h
        subst h
        decide)
    (by intro sf h
        simp only [List.mem_singleton] at h
        subst h
        decide)).1

/-- C5 as stated fails: for the keyed record of three string fields whose
1st and 3rd fields carry `omitempty` and whose 2nd does not, the zero-value
instance is marshalled to a map of one entry, the 2nd key with an empty
string (0x81, "field02", 0xa0); the 1st and 3rd keys are the absent ones.
The map the claim describes (0x82, "field01", 0xa0, "field03", 0xa0) is a
different byte sequence. -/
theorem omitempty_half_tagged_zero :
    (procedure msgpack (.Struct "z" false halfTagged) marshal).map (run zeroInstance [])
      = some (.ok ([0x81] ++ msgpack.AppendString "field02" ++ msgpack.AppendString "")) ∧
    (procedure msgpack (.Struct "z" false halfTagged) marshal).map (run zeroInstance [])
      ≠ some (.ok ([0x82] ++ msgpack.AppendString "field01" ++ msgpack.AppendString ""
          ++ msgpack.AppendString "field03" ++ msgpack.AppendString "")) := by
  decide

/-- C5 (amended): for a keyed record with three string fields of which the
1st and the 3rd are omission-qualifying and the 2nd is not, marshalling an
instance whose three strings are empty yields a map with exactly the 2nd key
present, mapped to the empty string, and with the 1st and 3rd keys absent. -/
theorem omitempty_three_strings (E : Collab) (inst : Instance) (v : String)
    (f1 f2 f3 : StructField Elem) (m : marshalGen) (b : List Nat)
    (hs : passStarts E (.Struct v false [f1, f2, f3]) m)
    (h1 : isEncField f1 = true) (h2 : isEncField f2 = false) (h3 : isEncField f3 = true)
    (hstr : ∀ sf ∈ [f1, f2, f3], ∃ be, sf.FieldElem = .Base be ∧ be.Value = .String)
    (hzero : ∀ sf ∈ [f1, f2, f3], inst.len (v ++ "." ++ sf.FieldName) = 0)
    (hval : valueBytes inst f2 = some (E.AppendString "")) :
    (procedure E (.Struct v false [f1, f2, f3]) m).map (run inst b)
      = some (.ok (b ++ [0x81] ++ E.AppendString f2.FieldTag ++ E.AppendString "")) := by
  have hb : allBase [f1, f2, f3] := by
    intro sf h
    obtain ⟨be, hbe, _⟩ := hstr sf h
    exact ⟨be, hbe⟩
  have hany : isEncForAnyFields [f1, f2, f3] = true := by simp [isEncForAnyFields, h1]
  have hemp : ∀ sf ∈ [f1, f2, f3], fieldEmpty inst v sf = true := by
    intro sf h
    obtain ⟨be, hbe, hv⟩ := hstr sf h
    simp [fieldEmpty, hbe, hv, isEmptyKind, hzero sf h]
  have hk : keptFields inst v [f1, f2, f3] = [f2] := by
    simp [keptFields, List.filter, omitted, h1, h2, h3, hemp f1 (by simp), hemp f3 (by simp)]
  rw [procedure_omit E v _ m hs hb hany, Option.map_some',
    omitProcedure_run E inst v _ _ b hb (by simp), hk]
  simp [encodeFields, hval, AppendMapHeader, List.append_assoc]

/-- Witness of C5 (amended) on the record of the counterexample. -/
theorem omitempty_three_strings_witness :
    (procedure msgpack (.Struct "z" false halfTagged) marshal).map (run zeroInstance [])
      = some (.ok ([] ++ [0x81] ++ msgpack.AppendString "field02" ++ msgpack.AppendString "")) :=
  omitempty_three_strings msgpack zeroInstance "z"
    (stringField "Field01" "field01" ["omitempty"]) (stringField "Field02" "field02" [])
    (stringField "Field03" "field03" ["omitempty"]) marshal []
    ⟨rfl, rfl, rfl, rfl⟩ (by decide) (by decide) (by decide)
    (by intro sf h
        simp only [List.mem_cons, List.mem_singleton, List.not_mem_nil, or_false] at h
        rcases h with rfl | rfl | rfl <;> exact ⟨_, rfl, rfl⟩)
    (by intro sf _; rfl)
    (by decide)

/-! ## Positional records -/

theorem tupleFields_ok (E : Collab) :
    ∀ (fs : List (StructField Elem)) (ap : Elem → Option Elem) (out : List Line)
      (fuse : List Nat) (ctx : List PathSeg) (ids : Nat), allBase fs →
      tupleFields E fs (marshalGen.mk ap { out := out, err := false } fuse ctx ids)
        = some (marshalGen.mk ap { out := out ++ tupleLines E ctx fs fuse ids, err := false }
            (tupleFuse fs fuse) ctx (fieldsIdents fs ids)) := by
  intro fs
  induction fs with
  | nil =>
    intro ap out fuse ctx ids _
    simp [tupleFields, tupleLines, tupleFuse, fieldsIdents]
  | cons sf rest ih =>
    intro ap out fuse ctx ids hb
    obtain ⟨b, hbase⟩ := hb sf (List.mem_cons_self _ _)
    have hb' : allBase rest := fun x hx => hb x (List.mem_cons_of_mem _ hx)
    rw [tupleFields]
    simp only [printer.ok, Bool.not_false, Bool.false_eq_true, if_false, hbase, next_base,
      PushString_mk, gBase_mk, Pop_mk]
    rw [ih _ _ _ _ _ hb']
    cases rest <;> simp [tupleLines, tupleFuse, fieldsIdents, hbase, List.append_assoc]

theorem tupleLines_parses (E : Collab) (ctx : List PathSeg) :
    ∀ (fs : List (StructField Elem)) (pend : List Nat) (k : Nat),
      (tupleLines E ctx fs pend k).all Line.parses = true := by
  intro fs
  induction fs with
  | nil => intro pend k; rfl
  | cons sf rest ih =>
    intro pend k
    rw [tupleLines]
    split
    · simp only [List.all_append, ih, (flushLines_neutral _).1, (baseLines_parses E _ _ _).1,
        Bool.and_self]
    · rfl

theorem tupleLines_run (E : Collab) (inst : Instance) (ctx : List PathSeg) :
    ∀ (fs : List (StructField Elem)) (sf : StructField Elem) (pend : List Nat) (k : Nat)
      (st : RunState), allBase (sf :: fs) → st.err = false →
      RunsTo inst st (tupleLines E ctx (sf :: fs) pend k)
        ((encodeValues inst (sf :: fs)).map (pend ++ ·)) := by
  intro fs
  induction fs with
  | nil =>
    intro sf pend k st hb he
    obtain ⟨b, hbase⟩ := hb sf (List.mem_cons_self _ _)
    have hval : valueBytes inst sf = b.bytes inst := by simp [valueBytes, hbase]
    rw [tupleLines]
    simp only [hbase, tupleLines, List.append_nil, encodeValues, hval]
    have := RunsTo_append inst st _ _ _ _ (flushLines_run inst st he pend)
      (fun st' _ he' _ _ _ _ => baseLines_run E inst b k (ctx ++ [.str sf.FieldName]) st' he')
    cases hbytes : b.bytes inst with
    | none => simpa [hbytes] using this
    | some x => simpa [hbytes] using this
  | cons sf' rest ih =>
    intro sf pend k st hb he
    obtain ⟨b, hbase⟩ := hb sf (List.mem_cons_self _ _)
    have hb' : allBase (sf' :: rest) := fun x hx => hb x (List.mem_cons_of_mem _ hx)
    have hval : valueBytes inst sf = b.bytes inst := by simp [valueBytes, hbase]
    rw [tupleLines]
    simp only [hbase]
    rw [encodeValues, hval]
    have hhead := RunsTo_append inst st _ _ _ _ (flushLines_run inst st he pend)
      (fun st' _ he' _ _ _ _ => baseLines_run E inst b k (ctx ++ [.str sf.FieldName]) st' he')
    cases hbytes : b.bytes inst with
    | none =>
      rw [hbytes] at hhead
      simp only [Option.map] at hhead
      exact RunsTo_fail_append inst st _ _ hhead
    | some x =>
      rw [hbytes] at hhead
      simp only [Option.map] at hhead
      have := RunsTo_append inst st _ (tupleLines E ctx (sf' :: rest) [] (baseIdents b k)) _ _
        hhead (fun st' _ he' _ _ _ _ => ih sf' [] (baseIdents b k) st' hb' he')
      cases hrest : encodeValues inst (sf' :: rest) with
      | none => simpa [hrest] using this
      | some xs => simpa [hrest, List.append_assoc] using this

theorem procedure_tuple (E : Collab) (v : String) (fs : List (StructField Elem)) (m : marshalGen)
    (hs : passStarts E (.Struct v true fs) m) (hb : allBase fs) :
    procedure E (.Struct v true fs) m = some (tupleProcedure E v fs m.idents) ∧
    (Execute E (.Struct v true fs) m).map (fun r => r.fuse) = some [] := by
  obtain ⟨h1, h2, h3, h4⟩ := hs
  obtain ⟨ap, ⟨out, err⟩, fuse, ctx, ids⟩ := m
  simp only at h1 h2 h3
  subst h1 h2
  unfold procedure Execute
  simp only [printer.ok, Bool.not_false, Bool.false_eq_true, if_false, h3, h4, Bool.not_true,
    printf_mk, Elem.Varname]
  rw [next]
  simp only [gStruct, printer.ok, Bool.not_false, Bool.false_eq_true, if_false, if_true, tuple,
    printf_mk, Fuse_mk, List.nil_append]
  by_cases h0 : fs.length = 0
  · have hfs : fs = [] := List.length_eq_zero.mp h0
    subst hfs
    simp [fuseHook_mk, tupleFields, tupleProcedure, tupleLines, marshalGen.printf,
      printer.printf, List.append_assoc]
  · simp only [h0, if_false]
    rw [tupleFields_ok E fs _ _ _ _ _ hb]
    cases fs with
    | nil => simp at h0
    | cons a t =>
      simp [tupleProcedure, tupleFuse, marshalGen.printf, printer.printf, List.append_assoc]

theorem tupleProcedure_run (E : Collab) (inst : Instance) (v : String)
    (fs : List (StructField Elem)) (k : Nat) (b : List Nat) (hb : allBase fs) :
    run inst b (tupleProcedure E v fs k) =
      match encodeValues inst fs with
      | some vals => .ok (b ++ E.AppendArrayHeader (fs.length % 2 ^ 32) ++ vals)
      | none => .error := by
  have hparse : (tupleProcedure E v fs k).all Line.parses = true := by
    unfold tupleProcedure
    simp only [List.all_append, tupleLines_parses]
    split_ifs <;> simp [Line.parses, (flushLines_neutral _).1]
  unfold run
  rw [if_pos hparse]
  unfold tupleProcedure
  set hdr := E.AppendArrayHeader (fs.length % 2 ^ 32) with hhdr
  obtain ⟨st1, hst1⟩ : ∃ s : RunState, s = { RunState.init b with o := b } := ⟨_, rfl⟩
  have h1 : steps inst (.active .exec (RunState.init b))
      [.comment .implements, .funcHeader v (E.imutMethodReceiver (.Struct v true fs)), .require v,
       .comment (.arrayHeader fs.length)] = .active .exec st1 := by
    rw [hst1]
    simp [steps, step, execLine, RunState.init]
  have he1 : st1.err = false := by rw [hst1]; rfl
  have ho1 : st1.o = b := by rw [hst1]
  rw [steps_append, steps_append, steps_append, h1]
  cases fs with
  | nil =>
    obtain ⟨st2, f1, f2, f3, _, _, _, _⟩ := flushLines_run inst st1 he1 hdr
    simp only [List.length_nil, if_true, tupleLines, steps_nil, encodeValues]
    rw [f1]
    simp [steps, step, execLine, RunState.ret, f3, Config.result, f2, ho1]
  | cons sf rest =>
    have h0 : ¬ (sf :: rest).length = 0 := by simp
    simp only [h0, if_false, steps_nil]
    have hrun := tupleLines_run E inst [] rest sf hdr k st1 hb he1
    cases hv : encodeValues inst (sf :: rest) with
    | none =>
      rw [hv] at hrun
      simp only [RunsTo, Option.map] at hrun
      rw [hrun]
      rfl
    | some vals =>
      rw [hv] at hrun
      obtain ⟨st2, f1, f2, f3, _, _, _, _⟩ := hrun
      rw [f1]
      simp [steps, step, execLine, RunState.ret, f3, Config.result, f2, ho1]

theorem tupleLines_opens (E : Collab) (ctx : List PathSeg) :
    ∀ (fs : List (StructField Elem)) (pend : List Nat) (k : Nat),
      ∀ l ∈ tupleLines E ctx fs pend k, l.neutral = true := by
  intro fs
  induction fs with
  | nil => intro pend k l hl; simp [tupleLines] at hl
  | cons sf rest ih =>
    intro pend k l hl
    rw [tupleLines] at hl
    split at hl
    · simp only [List.mem_append] at hl
      rcases hl with (hl | hl) | hl
      · exact (flushLines_neutral _).2 l hl
      · exact (baseLines_parses E _ _ _).2 l hl
      · exact ih _ _ l hl
    · simp at hl

/-- C4 as stated fails when a value encoding can fail: for the positional
record whose only field has a named type, on the instance whose delegated
`MarshalMsg` returns an error, the procedure returns that error and no
output. -/
theorem tuple_delegate_error :
    (procedure msgpack delegatingTuple marshal).map (run failingInstance []) = some .error ∧
    ¬ ∃ o, (procedure msgpack delegatingTuple marshal).map (run failingInstance [])
      = some (.ok o) := by
  have h : (procedure msgpack delegatingTuple marshal).map (run failingInstance [])
      = some .error := by decide
  refine ⟨h, ?_⟩
  rintro ⟨o, ho⟩
  rw [h] at ho
  cases ho

/-- C4 (amended): for a positional record with `n < 2^32` primitive fields,
whatever their directive tokens, and for every instance: when no fallible
conversion or delegated marshal of a field fails, the generated procedure
returns the input buffer followed by the array header of `n` and by the value
encodings of all the fields in declared order, with no key string; when one
fails it returns the error.  No line of the procedure opens a conditional
block, so no field is omitted.  For `n = 0` the output is the zero-count
array header alone, and in every case the fusion buffer is empty after the
pass. -/
theorem tuple_output (E : Collab) (inst : Instance) (v : String)
    (fs : List (StructField Elem)) (m : marshalGen) (b : List Nat)
    (hs : passStarts E (.Struct v true fs) m) (hb : allBase fs) (hn : fs.length < 2 ^ 32) :
    (procedure E (.Struct v true fs) m).map (run inst b) =
      some (match encodeValues inst fs with
        | some vals => .ok (b ++ E.AppendArrayHeader fs.length ++ vals)
        | none => .error) ∧
    (fs = [] → (procedure E (.Struct v true fs) m).map (run inst b)
      = some (.ok (b ++ E.AppendArrayHeader 0))) ∧
    (∀ L, procedure E (.Struct v true fs) m = some L → ∀ l ∈ L, l.opens = false) ∧
    (Execute E (.Struct v true fs) m).map (fun r => r.fuse) = some [] := by
  obtain ⟨hp, hf⟩ := procedure_tuple E v fs m hs hb
  have hmod : fs.length % 2 ^ 32 = fs.length := Nat.mod_eq_of_lt hn
  have hrun : (procedure E (.Struct v true fs) m).map (run inst b) =
      some (match encodeValues inst fs with
        | some vals => .ok (b ++ E.AppendArrayHeader fs.length ++ vals)
        | none => .error) := by
    rw [hp, Option.map_some', tupleProcedure_run E inst v fs _ b hb, hmod]
  refine ⟨hrun, ?_, ?_, hf⟩
  · intro h0
    rw [hrun]
    subst h0
    simp [encodeValues]
  · intro L hL l hl
    rw [hp] at hL
    cases hL
    unfold tupleProcedure at hl
    simp only [List.mem_append, List.mem_cons, List.mem_singleton, List.not_mem_nil,
      or_false] at hl
    rcases hl with ((hl | hl) | hl) | hl
    · rcases hl with rfl | rfl | rfl | rfl <;> rfl
    · split_ifs at hl
      · have := (flushLines_neutral _).2 l hl
        cases l <;> simp_all [Line.neutral]
      · simp at hl
    · have := tupleLines_opens E [] fs _ _ l hl
      cases l <;> simp_all [Line.neutral]
    · subst hl; rfl

/-- Witness of C4 (amended): two string fields, the first tagged
`omitempty` and empty; both values are written after the header 0x92. -/
theorem tuple_output_witness :
    (procedure msgpack (.Struct "z" true pairFields) marshal).map (run zeroInstance [9])
      = some (.ok [9, 0x92, 0xa0, 0xa0]) :=
  (tuple_output msgpack zeroInstance "z" pairFields marshal [9] ⟨rfl, rfl, rfl, rfl⟩
    (by intro sf h
        simp only [pairFields, List.mem_cons, List.mem_singleton, List.not_mem_nil,
          or_false] at h
        rcases h with rfl | rfl <;> exact ⟨_, rfl⟩)
    (by decide)).1.trans (by decide)

/-! ## Keyed records without omission that nest a record with omission -/

/-- C3: evaluation at a keyed record with no omission-qualifying field whose
single field `in` is a keyed record with an `omitempty` string field.  On the
all-zero instance the claim requires the static header of one entry, the key
`in` and the encoding of the zero value of the inner record (its empty map,
0x80).  The generated procedure returns the byte 0x80 alone: the header and
the key of the outer record are still in the fusion buffer when the inner
record prints its emptiness tests, its dynamic header and its quick return.
On an instance whose inner string is not empty the dynamic header of the
inner record comes out before the header and key of the outer record.  With a
second field after the nested record the result is the same single byte: the
quick return of the inner record leaves the whole procedure. -/
theorem nested_omitempty_drops_outer_header :
    isEncForAnyFields outerFields = false ∧
    (procedure msgpack nestedRecord marshal).map (run zeroInstance []) = some (.ok [0x80]) ∧
    (procedure msgpack nestedRecord marshal).map (run zeroInstance [])
      ≠ some (.ok (AppendMapHeader [] 1 ++ msgpack.AppendString "in" ++ [0x80])) ∧
    (procedure msgpack nestedRecord marshal).map (run filledInstance [])
      = some (.ok ([0x81] ++ (AppendMapHeader [] 1 ++ msgpack.AppendString "in")
          ++ msgpack.AppendString "a" ++ [0xa1, 65])) ∧
    isEncForAnyFields (outerFields ++ [stringField "B" "b" []]) = false ∧
    (procedure msgpack nestedThenString marshal).map (run zeroInstance []) = some (.ok [0x80]) ∧
    (procedure msgpack nestedThenString marshal).map (run zeroInstance [])
      ≠ some (.ok (AppendMapHeader [] 2 ++ msgpack.AppendString "in" ++ [0x80]
          ++ msgpack.AppendString "b" ++ msgpack.AppendString "")) := by
  decide

/-! ## Tag policy -/

theorem isEncForAnyFields_iff (fs : List (StructField Elem)) :
    isEncForAnyFields fs = true ↔ ∃ sf ∈ fs, isEncField sf = true := by
  induction fs with
  | nil => simp [isEncForAnyFields]
  | cons a t ih =>
    rw [isEncForAnyFields]
    by_cases h : isEncField a = true
    · simp [h]
    · simp [h, ih]

theorem any_filter_self {α : Type} (p : α → Bool) (l : List α) :
    (l.filter p).any p = l.any p := by
  induction l with
  | nil => rfl
  | cons d t ih =>
    cases hd : p d
    · rw [List.filter_cons_of_neg (by simp [hd]), List.any_cons, hd, Bool.false_or, ih]
    · rw [List.filter_cons_of_pos hd, List.any_cons, List.any_cons, hd, Bool.true_or,
        Bool.true_or]

/-- C12: `isEncField sf` holds exactly when one of the tag parts after the
first equals "omitempty" or "omitemptyenc" and `isSupportedElem` holds of the
element.  The first tag part has no influence, the parts that are neither of
the two tokens (such as "omitemptydec") have none either, and
`isEncForAnyFields` holds exactly when `isEncField` holds of a field of the
list. -/
theorem isEncField_iff (sf : StructField Elem) :
    (isEncField sf = true ↔
      (∃ p ∈ sf.FieldTagParts.tail, p = "omitempty" ∨ p = "omitemptyenc") ∧
        isSupportedElem sf.FieldElem = true) ∧
    (∀ (a b tag name : String) (ds : List String) (el : Elem),
      isEncField ⟨tag, a :: ds, name, el⟩ = isEncField ⟨tag, b :: ds, name, el⟩) ∧
    (∀ (a tag name : String) (ds : List String) (el : Elem),
      isEncField ⟨tag, a :: ds, name, el⟩ =
        isEncField ⟨tag, a :: ds.filter (fun p => p == "omitempty" || p == "omitemptyenc"),
          name, el⟩) ∧
    (∀ (a tag name : String) (el : Elem),
      isEncField ⟨tag, [a, "omitemptydec"], name, el⟩ = false) ∧
    (∀ fs : List (StructField Elem),
      isEncForAnyFields fs = true ↔ ∃ x ∈ fs, isEncField x = true) := by
  have key : ∀ (tag name : String) (parts : List String) (el : Elem),
      isEncField ⟨tag, parts, name, el⟩ =
        (parts.tail.any (fun p => p == "omitempty" || p == "omitemptyenc") &&
          isSupportedElem el) := by
    intro tag name parts el
    unfold isEncField
    cases parts with
    | nil => simp
    | cons a t =>
      cases t with
      | nil => simp
      | cons b t' =>
        simp only [List.length_cons, List.drop_succ_cons, List.drop_zero, List.tail_cons]
        have : ¬ (t'.length + 1 + 1 < 2) := by omega
        simp only [this, if_false]
        split_ifs with h <;> simp_all
  refine ⟨?_, ?_, ?_, ?_, isEncForAnyFields_iff⟩
  · obtain ⟨tag, parts, name, el⟩ := sf
    rw [key]
    simp only [Bool.and_eq_true, List.any_eq_true, Bool.or_eq_true, beq_iff_eq]
  · intro a b tag name ds el
    rw [key, key]
    rfl
  · intro a tag name ds el
    rw [key, key]
    congr 1
    simp only [List.tail_cons]
    exact (any_filter_self _ ds).symm
  · intro a tag name el
    rw [key]
    have h : (["omitemptydec"].any fun p => p == "omitempty" || p == "omitemptyenc")
        = false := by decide
    simp only [List.tail_cons, h, Bool.false_and]

/-- Witness of C12: the token is looked for after the wire key only. -/
theorem isEncField_iff_witness :
    isEncField (stringField "A" "omitempty" []) = false ∧
    isEncField (stringField "A" "a" ["x", "omitemptyenc"]) = true :=
  ⟨by decide,
   ((isEncField_iff (stringField "A" "a" ["x", "omitemptyenc"])).1).2
     ⟨⟨"omitemptyenc", by decide, Or.inr rfl⟩, by decide⟩⟩

theorem isDecField_eq (tag name : String) (parts : List String) (el : Elem) :
    isDecField ⟨tag, parts, name, el⟩ =
      (parts.tail.any (fun p => p == "omitempty" || p == "omitemptydec") &&
        isSupportedElem el) := by
  unfold isDecField
  cases parts with
  | nil => simp
  | cons a t =>
    cases t with
    | nil => simp
    | cons b t' =>
      simp only [List.length_cons, List.drop_succ_cons, List.drop_zero, List.tail_cons]
      have : ¬ (t'.length + 1 + 1 < 2) := by omega
      simp only [this, if_false]
      split_ifs with h <;> simp_all

theorem isEncField_eq (tag name : String) (parts : List String) (el : Elem) :
    isEncField ⟨tag, parts, name, el⟩ =
      (parts.tail.any (fun p => p == "omitempty" || p == "omitemptyenc") &&
        isSupportedElem el) := by
  unfold isEncField
  cases parts with
  | nil => simp
  | cons a t =>
    cases t with
    | nil => simp
    | cons b t' =>
      simp only [List.length_cons, List.drop_succ_cons, List.drop_zero, List.tail_cons]
      have : ¬ (t'.length + 1 + 1 < 2) := by omega
      simp only [this, if_false]
      split_ifs with h <;> simp_all

/-- C13: `isDecField sf` holds exactly when one of the tag parts after the
first equals "omitempty" or "omitemptydec" and `isSupportedElem` holds of the
element.  The two directions are independent: on a supported element a field
tagged only "omitemptyenc" qualifies for write-side and not for read-side
omission, a field tagged only "omitemptydec" for read-side and not for
write-side omission, and "omitempty" gives both. -/
theorem isDecField_iff (sf : StructField Elem) :
    (isDecField sf = true ↔
      (∃ p ∈ sf.FieldTagParts.tail, p = "omitempty" ∨ p = "omitemptydec") ∧
        isSupportedElem sf.FieldElem = true) ∧
    (∀ (key tag name : String) (el : Elem), isSupportedElem el = true →
      isEncField ⟨tag, [key, "omitemptyenc"], name, el⟩ = true ∧
      isDecField ⟨tag, [key, "omitemptyenc"], name, el⟩ = false ∧
      isDecField ⟨tag, [key, "omitemptydec"], name, el⟩ = true ∧
      isEncField ⟨tag, [key, "omitemptydec"], name, el⟩ = false ∧
      isEncField ⟨tag, [key, "omitempty"], name, el⟩ = true ∧
      isDecField ⟨tag, [key, "omitempty"], name, el⟩ = true) := by
  refine ⟨?_, ?_⟩
  · obtain ⟨tag, parts, name, el⟩ := sf
    rw [isDecField_eq]
    simp only [Bool.and_eq_true, List.any_eq_true, Bool.or_eq_true, beq_iff_eq]
  · intro key tag name el hs
    have e1 : (["omitemptyenc"].any fun p => p == "omitempty" || p == "omitemptyenc")
        = true := by decide
    have e2 : (["omitemptyenc"].any fun p => p == "omitempty" || p == "omitemptydec")
        = false := by decide
    have e3 : (["omitemptydec"].any fun p => p == "omitempty" || p == "omitemptydec")
        = true := by decide
    have e4 : (["omitemptydec"].any fun p => p == "omitempty" || p == "omitemptyenc")
        = false := by decide
    have e5 : (["omitempty"].any fun p => p == "omitempty" || p == "omitemptyenc")
        = true := by decide
    have e6 : (["omitempty"].any fun p => p == "omitempty" || p == "omitemptydec")
        = true := by decide
    simp only [isEncField_eq, isDecField_eq, List.tail_cons, e1, e2, e3, e4, e5, e6, hs,
      Bool.and_self, Bool.false_and, and_self]

/-- Witness of C13 on a string field tagged only "omitemptydec". -/
theorem isDecField_iff_witness :
    isDecField (stringField "A" "a" ["omitemptydec"]) = true ∧
    isEncField (stringField "A" "a" ["omitemptydec"]) = false :=
  ⟨((isDecField_iff (stringField "A" "a" ["omitemptydec"])).1).2
     ⟨⟨"omitemptydec", by decide, Or.inr rfl⟩, by decide⟩,
   by decide⟩

/-! ## Supported elements -/

/-- The kinds listed by `isSupportedElem`. -/
theorem isSupportedElem_base (b : BaseElem) :
    isSupportedElem (.Base b) = true ↔
      b.Value ∈ [Primitive.Bytes, .String, .Float32, .Float64, .Complex64, .Complex128,
        .Uint, .Uint8, .Uint16, .Uint32, .Uint64, .Byte, .Int, .Int8, .Int16, .Int32, .Int64,
        .Bool] := by
  obtain ⟨vn, val, conv, sm, bn, bt, tb⟩ := b
  cases val <;> simp [isSupportedElem]

/-- C14: `isSupportedElem e` holds exactly when `e` is a primitive of one of
the eighteen listed kinds.  For a field whose element is anything else,
`isEncField` and `isDecField` are false for every tag (they are total: there
is nothing to fail), the first loop of `mapstruct` prints no emptiness test
for the field, and the second loop prints its key and value with no mask-bit
guard before and no closing brace after. -/
theorem unsupported_never_omitted (e : Elem) :
    (isSupportedElem e = true ↔ ∃ b, e = .Base b ∧
      b.Value ∈ [Primitive.Bytes, .String, .Float32, .Float64, .Complex64, .Complex128,
        .Uint, .Uint8, .Uint16, .Uint32, .Uint64, .Byte, .Int, .Int8, .Int16, .Int32, .Int64,
        .Bool]) ∧
    (isSupportedElem e = false →
      ∀ (tag name : String) (parts : List String),
        isEncField ⟨tag, parts, name, e⟩ = false ∧ isDecField ⟨tag, parts, name, e⟩ = false ∧
        (∀ (svar N M : String) (n i : Nat) (rest : List (StructField Elem)) (m : marshalGen),
          m.p.err = false →
          mapstructChecks svar N M n i (⟨tag, parts, name, e⟩ :: rest) m
            = mapstructChecks svar N M n (i + 1) rest m) ∧
        (∀ (E : Collab) (M : String) (n i : Nat) (rest : List (StructField Elem))
          (m : marshalGen), m.p.err = false →
          mapstructFields E M n i (⟨tag, parts, name, e⟩ :: rest) m
            = (next E e ((Fuse (m.printf (.comment (.keyString tag)))
                (E.AppendString tag)).PushString name)).bind
                fun m' => mapstructFields E M n (i + 1) rest m'.Pop)) := by
  refine ⟨?_, ?_⟩
  · cases e with
    | Base b =>
      rw [isSupportedElem_base]
      constructor
      · intro h; exact ⟨b, rfl, h⟩
      · rintro ⟨b', hb, h⟩
        cases hb
        exact h
    | _ => simp [isSupportedElem]
  · intro hs tag name parts
    have h1 : isEncField ⟨tag, parts, name, e⟩ = false := by
      rw [isEncField_eq, hs, Bool.and_false]
    have h2 : isDecField ⟨tag, parts, name, e⟩ = false := by
      rw [isDecField_eq, hs, Bool.and_false]
    refine ⟨h1, h2, ?_, ?_⟩
    · intro svar N M n i rest m hm
      rw [mapstructChecks]
      simp [printer.ok, hm, h1]
    · intro E M n i rest m hm
      rw [mapstructFields]
      simp only [printer.ok, hm, Bool.not_false, Bool.false_eq_true, if_false, h1]
      cases next E e ((Fuse (m.printf (.comment (.keyString tag)))
        (E.AppendString tag)).PushString name) <;> rfl

/-- Witness of C14: a field of a named type tagged `omitempty` does not
qualify. -/
theorem unsupported_never_omitted_witness :
    isEncField (identField "B" "b" ["omitempty"]) = false ∧
    isDecField (identField "B" "b" ["omitempty"]) = false :=
  ⟨((unsupported_never_omitted (.Base ⟨"z.B", .IDENT, false, .Cast, "T", "T", ""⟩)).2
      (by decide) "b" "B" ["b", "omitempty"]).1,
   ((unsupported_never_omitted (.Base ⟨"z.B", .IDENT, false, .Cast, "T", "T", ""⟩)).2
      (by decide) "b" "B" ["b", "omitempty"]).2.1⟩

/-! ## Fusion buffer -/

/-- C16: starting from an empty fusion buffer, `Fuse a; Fuse b; fuseHook`
and `Fuse (a ++ b); fuseHook` leave the generator in the same state; on a
printer without error the output gains exactly one literal append of
`a ++ b` when `a ++ b` is not empty and nothing when it is empty; in both
cases the fusion buffer is empty afterwards. -/
theorem fuse_associative (m : marshalGen) (a b : List Nat) (hf : m.fuse = []) :
    fuseHook (Fuse (Fuse m a) b) = fuseHook (Fuse m (a ++ b)) ∧
    (fuseHook (Fuse (Fuse m a) b)).fuse = [] ∧
    (m.p.err = false →
      (fuseHook (Fuse (Fuse m a) b)).p.out =
        m.p.out ++ (if a ++ b = [] then [] else [.rawbytes (a ++ b)])) := by
  obtain ⟨ap, ⟨out, err⟩, fuse, ctx, ids⟩ := m
  simp only at hf
  subst hf
  have h1 : Fuse (Fuse (marshalGen.mk ap ⟨out, err⟩ [] ctx ids) a) b
      = Fuse (marshalGen.mk ap ⟨out, err⟩ [] ctx ids) (a ++ b) := by
    simp [Fuse_eq]
  refine ⟨by rw [h1], ?_, ?_⟩
  · rw [h1, Fuse_eq]
    unfold fuseHook
    split_ifs <;> simp_all
  · intro he
    simp only at he
    subst he
    rw [h1, Fuse_mk, fuseHook_mk]
    simp only [List.nil_append, flushLines]
    by_cases hab : a ++ b = []
    · simp [hab]
    · have : (a ++ b).length > 0 := List.length_pos.mpr hab
      rw [if_pos this, if_neg hab]

/-- Witness of C16 with a header fused before a key. -/
theorem fuse_associative_witness :
    (fuseHook (Fuse (Fuse marshal [0x81]) [0xa1, 97])).p.out = [.rawbytes [0x81, 0xa1, 97]] ∧
    (fuseHook (Fuse (Fuse marshal []) [])).p.out = [] :=
  ⟨((fuse_associative marshal [0x81] [0xa1, 97] rfl).2.2 rfl).trans (by decide),
   ((fuse_associative marshal [] [] rfl).2.2 rfl).trans (by decide)⟩

/-! ## Validity and round trip of mask accesses -/

/-- C19: for a field count `n ≥ 1` and an offset `i < n`, the accesses printed
by `bmaskRead` and `bmaskAssign1` are valid for the mask type `bmaskType n`.
For `n > 64` the printed word index `i >> 6` is below the declared array
length `(n >> 6) + 1`.  For `n ≤ 64` no index is printed and the constant
`1 << (i & 63)` is below `2 ^ w`, `w` being the width of the chosen type. -/
theorem bmask_access_valid (v : String) (n i : Nat) (hn : 1 ≤ n) (hi : i < n) :
    (bmaskRead v i n).index = (bmaskAssign1 v i n).index ∧
    (bmaskRead v i n).bit = (bmaskAssign1 v i n).bit ∧
    (bmaskRead v i n).bit = 1 <<< (i &&& 63) ∧
    (64 < n → (bmaskRead v i n).index = some (i >>> 6) ∧
      bmaskType n = .array ((n >>> 6) + 1) ∧ i >>> 6 < (n >>> 6) + 1) ∧
    (n ≤ 64 → (bmaskRead v i n).index = none ∧ (bmaskType n).words = 1 ∧
      (bmaskRead v i n).bit < 2 ^ (bmaskType n).bits) := by
  have hand : i &&& 63 = i % 64 := by
    have h := Nat.and_pow_two_sub_one_eq_mod i 6
    have e : (2 : Nat) ^ 6 - 1 = 63 := by norm_num
    rw [e] at h
    rw [h]
  have hbit : (bmaskRead v i n).bit = 2 ^ (i % 64) := by
    simp [bmaskRead, bmaskBit_eq]
  refine ⟨rfl, rfl, ?_, ?_, ?_⟩
  · rw [hbit, hand, Nat.one_shiftLeft]
  · intro h
    have a : ¬ n ≤ 8 := by omega
    have b : ¬ n ≤ 16 := by omega
    have c : ¬ n ≤ 32 := by omega
    have d : ¬ n ≤ 64 := by omega
    refine ⟨by simp [bmaskRead, h], by simp [bmaskType, a, b, c, d], ?_⟩
    simp only [Nat.shiftRight_eq_div_pow]
    omega
  · intro h
    have hn64 : ¬ n > 64 := by omega
    refine ⟨by simp [bmaskRead, hn64], ?_, ?_⟩
    · unfold bmaskType
      split_ifs
      · rfl
      · rfl
      · rfl
      · rfl
    · rw [hbit]
      have hj : i % 64 = i := Nat.mod_eq_of_lt (by omega)
      rw [hj]
      apply Nat.pow_lt_pow_right (by decide)
      unfold bmaskType
      split_ifs <;> simp [MaskType.bits] <;> omega

/-- Witness of C19 at the last offset of a mask of 65 fields. -/
theorem bmask_access_valid_witness :
    (bmaskRead "m" 64 65).index = some 1 ∧ bmaskType 65 = .array 2 ∧ 64 >>> 6 < (65 >>> 6) + 1 :=
  ⟨((bmask_access_valid "m" 65 64 (by decide) (by decide)).2.2.2.1 (by decide)).1.trans
      (by decide),
   by decide, by decide⟩

theorem bmaskBit_lt_bits (n i : Nat) (hi : i < n) : bmaskBit i < 2 ^ (bmaskType n).bits := by
  rw [bmaskBit_eq]
  apply Nat.pow_lt_pow_right (by decide)
  have h64 : i % 64 < 64 := Nat.mod_lt _ (by decide)
  have hle : i % 64 ≤ i := Nat.mod_le _ _
  unfold bmaskType
  split_ifs <;> simp [MaskType.bits] <;> omega

theorem or_and_two_pow_ne (a p q : Nat) (h : p ≠ q) :
    (a ||| 2 ^ p) &&& 2 ^ q = a &&& 2 ^ q := by
  apply Nat.eq_of_testBit_eq
  intro k
  simp only [Nat.testBit_and, Nat.testBit_or, Nat.testBit_two_pow]
  by_cases hq : q = k
  · have hp : ¬ p = k := fun e => h (e.trans hq.symm)
    simp [hq, hp]
  · simp [hq]

theorem or_and_two_pow_self (a p : Nat) : (a ||| 2 ^ p) &&& 2 ^ p = 2 ^ p := by
  apply Nat.eq_of_testBit_eq
  intro k
  simp only [Nat.testBit_and, Nat.testBit_or, Nat.testBit_two_pow]
  by_cases hp : p = k <;> simp [hp]

/-- C11: for a field count `n`, offsets `i, j < n` and a mask of the
representation `bmaskType n` (every word below `2 ^ w`): the statement of
`bmaskAssign1 v i n` is valid and gives a mask of the same representation on
which the expression of `bmaskRead v i n` is non-zero, while for `j ≠ i` the
expression of `bmaskRead v j n` has the value it had before.  From the
all-zero mask, offset `i` then tests non-zero and every other offset tests 0;
nothing depends on which side of the 64-field boundary `n` lies. -/
theorem bmask_set_then_read (v : String) (n i j : Nat) (mk : Nat → Nat)
    (hi : i < n) (hj : j < n) (hmk : ∀ w, mk w < 2 ^ (bmaskType n).bits) :
    ∃ mk', (bmaskAssign1 v i n).apply (bmaskType n) mk = some mk' ∧
      (∀ w, mk' w < 2 ^ (bmaskType n).bits) ∧
      (∃ x, (bmaskRead v i n).value (bmaskType n) mk' = some x ∧ x ≠ 0) ∧
      (j ≠ i → (bmaskRead v j n).value (bmaskType n) mk'
        = (bmaskRead v j n).value (bmaskType n) mk) ∧
      ((∀ w, mk w = 0) → j ≠ i → (bmaskRead v j n).value (bmaskType n) mk' = some 0) := by
  have hwi := maskWord_bmask n i hi
  have hwj := maskWord_bmask n j hj
  have hbi := bmaskBit_lt_bits n i hi
  have hbi' : 2 ^ (i % 64) < 2 ^ (bmaskType n).bits := by rw [← bmaskBit_eq]; exact hbi
  have hor : ∀ w, (mk w ||| bmaskBit i) % 2 ^ (bmaskType n).bits = mk w ||| bmaskBit i :=
    fun w => Nat.mod_eq_of_lt (Nat.or_lt_two_pow (hmk w) hbi)
  have hval : ∀ (k : Nat) (f : Nat → Nat) (w : Nat), k < n →
      (f w &&& bmaskBit k) % 2 ^ (bmaskType n).bits = f w &&& bmaskBit k := by
    intro k f w hk
    exact Nat.mod_eq_of_lt (lt_of_le_of_lt Nat.and_le_right (bmaskBit_lt_bits n k hk))
  refine ⟨fun w => if w = (if n > 64 then i >>> 6 else 0) then
    (mk w ||| bmaskBit i) % 2 ^ (bmaskType n).bits else mk w, ?_, ?_, ?_, ?_, ?_⟩
  · simp [MaskAssign.apply, bmaskAssign1, hwi]
  · intro w
    by_cases hw : w = (if n > 64 then i >>> 6 else 0)
    · simp only [hw, if_true]
      exact Nat.mod_lt _ (Nat.pos_pow_of_pos _ (by decide))
    · simp only [hw, if_false]
      exact hmk w
  · refine ⟨2 ^ (i % 64), ?_, ?_⟩
    · simp only [MaskRead.value, bmaskRead, hwi, Option.map_some', if_true, hor]
      rw [hval i _ _ hi, bmaskBit_eq, or_and_two_pow_self]
    · exact Nat.pos_iff_ne_zero.mp (Nat.pos_pow_of_pos _ (by decide))
  · intro hji
    simp only [MaskRead.value, bmaskRead, hwj, Option.map_some']
    by_cases hw : (if n > 64 then j >>> 6 else 0) = (if n > 64 then i >>> 6 else 0)
    · simp only [hw, if_true, hor]
      have hpq : i % 64 ≠ j % 64 := by
        by_cases hn : n > 64
        · simp only [hn, if_true, Nat.shiftRight_eq_div_pow] at hw
          omega
        · have h1 : i % 64 = i := Nat.mod_eq_of_lt (by omega)
          have h2 : j % 64 = j := Nat.mod_eq_of_lt (by omega)
          omega
      rw [bmaskBit_eq, bmaskBit_eq, or_and_two_pow_ne _ _ _ hpq]
    · simp only [hw, if_false]
  · intro hz hji
    simp only [MaskRead.value, bmaskRead, hwj, Option.map_some']
    by_cases hw : (if n > 64 then j >>> 6 else 0) = (if n > 64 then i >>> 6 else 0)
    · simp only [hw, if_true, hor]
      have hpq : i % 64 ≠ j % 64 := by
        by_cases hn : n > 64
        · simp only [hn, if_true, Nat.shiftRight_eq_div_pow] at hw
          omega
        · have h1 : i % 64 = i := Nat.mod_eq_of_lt (by omega)
          have h2 : j % 64 = j := Nat.mod_eq_of_lt (by omega)
          omega
      rw [bmaskBit_eq, bmaskBit_eq, or_and_two_pow_ne _ _ _ hpq, hz]
      simp
    · simp only [hw, if_false, hz]
      simp

/-- Witness of C11 across the 64-field boundary: in a mask of 65 fields
setting offset 64 leaves the value read at offset 0 as it was. -/
theorem bmask_set_then_read_witness :
    ∃ mk', (bmaskAssign1 "m" 64 65).apply (bmaskType 65) (fun _ => 0) = some mk' ∧
      (bmaskRead "m" 0 65).value (bmaskType 65) mk'
        = (bmaskRead "m" 0 65).value (bmaskType 65) (fun _ => 0) := by
  obtain ⟨mk', h1, _, _, h4, _⟩ :=
    bmask_set_then_read "m" 65 64 0 (fun _ => 0) (by decide) (by decide)
      (fun _ => Nat.pos_pow_of_pos _ (by decide))
  exact ⟨mk', h1, h4 (by decide)⟩

theorem maskSet_apply_in_range (t : MaskType) (a : MaskAssign) (mk : Nat → Nat)
    (hmk : ∀ w, mk w < 2 ^ t.bits) (hb : a.bit < 2 ^ t.bits) :
    a.apply t mk = (maskWord (some t) a.index a.bit).map fun w =>
      fun j => if j = w then mk j ||| a.bit else mk j := by
  unfold MaskAssign.apply
  cases maskWord (some t) a.index a.bit with
  | none => rfl
  | some w =>
    simp only [Option.map_some', Option.some.injEq]
    funext j
    split_ifs
    · exact Nat.mod_eq_of_lt (Nat.or_lt_two_pow (hmk j) hb)
    · rfl

/-! ## Zero-value assignment -/

theorem holds_eval (σ : String → Val) (c : EmptyTest) (r : Bool)
    (h : c.holds σ = some r) : c.eval (observe σ) = r := by
  cases c with
  | lenZero v =>
    simp only [EmptyTest.holds] at h
    simp only [EmptyTest.eval, observe]
    cases hv : σ v with
    | bytes b => cases b <;> simp_all
    | str s => simp_all
    | _ => simp_all
  | complexZero v =>
    simp only [EmptyTest.holds] at h
    simp only [EmptyTest.eval, observe]
    cases hv : σ v <;> simp_all
  | numZero v =>
    simp only [EmptyTest.holds] at h
    simp only [EmptyTest.eval, observe]
    cases hv : σ v <;> simp_all
  | notTrue v =>
    simp only [EmptyTest.holds] at h
    simp only [EmptyTest.eval, observe]
    cases hv : σ v <;> simp_all

theorem empty_table (b : BaseElem) (v : String) :
    (b.Value = .Bytes →
      emptyAssign (.Base b) v = some (.setNil v) ∧ emptyExpr (.Base b) v = some (.lenZero v)) ∧
    (b.Value = .String →
      emptyAssign (.Base b) v = some (.setEmptyString v) ∧
      emptyExpr (.Base b) v = some (.lenZero v)) ∧
    (b.Value = .Complex64 ∨ b.Value = .Complex128 →
      emptyAssign (.Base b) v = some (.setComplexZero v) ∧
      emptyExpr (.Base b) v = some (.complexZero v)) ∧
    (b.Value = .Bool →
      emptyAssign (.Base b) v = some (.setFalse v) ∧ emptyExpr (.Base b) v = some (.notTrue v)) ∧
    (b.Value ∈ [Primitive.Float32, .Float64, .Uint, .Uint8, .Uint16, .Uint32, .Uint64, .Byte,
        .Int, .Int8, .Int16, .Int32, .Int64] →
      emptyAssign (.Base b) v = some (.setZero v) ∧ emptyExpr (.Base b) v = some (.numZero v)) := by
  obtain ⟨vn, val, conv, sm, bn, bt, tb⟩ := b
  cases val <;> simp [emptyAssign, emptyExpr]

theorem empty_core (b : BaseElem) (v : String) (σ : String → Val)
    (hty : (σ v).hasKind b.Value = true) :
    ∃ a c σ', emptyAssign (.Base b) v = some a ∧ emptyExpr (.Base b) v = some c ∧
      a.exec σ = some σ' ∧ c.holds σ' = some true ∧ (∀ x, x ≠ v → σ' x = σ x) := by
  obtain ⟨vn, val, conv, sm, bn, bt, tb⟩ := b
  simp only at hty
  cases hv : σ v with
  | bytes x =>
    rw [hv] at hty
    have hk : val = .Bytes := by simpa [Val.hasKind] using hty
    subst hk
    exact ⟨.setNil v, .lenZero v, fun x => if x = v then .bytes none else σ x, rfl, rfl,
      by simp [EmptyAssign.exec, hv], by simp [EmptyTest.holds],
      fun x hx => by simp [hx]⟩
  | str x =>
    rw [hv] at hty
    have hk : val = .String := by simpa [Val.hasKind] using hty
    subst hk
    exact ⟨.setEmptyString v, .lenZero v, fun x => if x = v then .str [] else σ x, rfl, rfl,
      by simp [EmptyAssign.exec, hv], by simp [EmptyTest.holds],
      fun x hx => by simp [hx]⟩
  | int x =>
    rw [hv] at hty
    refine ⟨.setZero v, .numZero v, fun x => if x = v then .int 0 else σ x, ?_, ?_,
      by simp [EmptyAssign.exec, hv], by simp [EmptyTest.holds],
      fun x hx => by simp [hx]⟩ <;>
    · cases val <;> simp [Val.hasKind] at hty <;> rfl
  | float x y =>
    rw [hv] at hty
    refine ⟨.setZero v, .numZero v, fun x => if x = v then .float false 0 else σ x, ?_, ?_,
      by simp [EmptyAssign.exec, hv], by simp [EmptyTest.holds],
      fun x hx => by simp [hx]⟩ <;>
    · cases val <;> simp [Val.hasKind] at hty <;> rfl
  | complex x y z w =>
    rw [hv] at hty
    refine ⟨.setComplexZero v, .complexZero v,
      fun x => if x = v then .complex false 0 false 0 else σ x, ?_, ?_,
      by simp [EmptyAssign.exec, hv], by simp [EmptyTest.holds],
      fun x hx => by simp [hx]⟩ <;>
    · cases val <;> simp [Val.hasKind] at hty <;> rfl
  | bool x =>
    rw [hv] at hty
    have hk : val = .Bool := by simpa [Val.hasKind] using hty
    subst hk
    exact ⟨.setFalse v, .notTrue v, fun x => if x = v then .bool false else σ x, rfl, rfl,
      by simp [EmptyAssign.exec, hv], by simp [EmptyTest.holds],
      fun x hx => by simp [hx]⟩

/-- C15: for a primitive `b` of a supported kind and a variable `v` holding a
value of that kind: `emptyAssign` and `emptyExpr` both return; the statement
of `emptyAssign` executes, changes no other variable, and afterwards the
expression of `emptyExpr` evaluates to true.  The statement assigns nil to a
byte sequence, the empty string to a string, `complex(0,0)` to a complex
kind, `false` to a boolean and 0 to every other kind; the expression tests
the length of byte sequences and strings, equality with `complex(0,0)`,
negation of a boolean and equality with 0. -/
theorem emptyAssign_then_emptyExpr (b : BaseElem) (v : String) (σ : String → Val)
    (hty : (σ v).hasKind b.Value = true) :
    (∃ a c σ', emptyAssign (.Base b) v = some a ∧ emptyExpr (.Base b) v = some c ∧
      a.exec σ = some σ' ∧ c.holds σ' = some true ∧ c.eval (observe σ') = true ∧
      (∀ x, x ≠ v → σ' x = σ x)) ∧
    (b.Value = .Bytes →
      emptyAssign (.Base b) v = some (.setNil v) ∧ emptyExpr (.Base b) v = some (.lenZero v)) ∧
    (b.Value = .String →
      emptyAssign (.Base b) v = some (.setEmptyString v) ∧
      emptyExpr (.Base b) v = some (.lenZero v)) ∧
    (b.Value = .Complex64 ∨ b.Value = .Complex128 →
      emptyAssign (.Base b) v = some (.setComplexZero v) ∧
      emptyExpr (.Base b) v = some (.complexZero v)) ∧
    (b.Value = .Bool →
      emptyAssign (.Base b) v = some (.setFalse v) ∧ emptyExpr (.Base b) v = some (.notTrue v)) ∧
    (b.Value ∈ [Primitive.Float32, .Float64, .Uint, .Uint8, .Uint16, .Uint32, .Uint64, .Byte,
        .Int, .Int8, .Int16, .Int32, .Int64] →
      emptyAssign (.Base b) v = some (.setZero v) ∧ emptyExpr (.Base b) v = some (.numZero v)) := by
  refine ⟨?_, empty_table b v⟩
  obtain ⟨a, c, σ', h1, h2, h3, h4, h5⟩ := empty_core b v σ hty
  exact ⟨a, c, σ', h1, h2, h3, h4, holds_eval σ' c true h4, h5⟩

/-- Witness of C15 on a float variable holding a non-zero value. -/
theorem emptyAssign_then_emptyExpr_witness :
    ∃ a c σ', emptyAssign (.Base ⟨"z.F", .Float64, false, .Cast, "Float64", "float64", ""⟩) "z.F"
        = some a ∧
      EmptyAssign.exec (fun _ => .float true 5) a = some σ' ∧
      EmptyTest.holds σ' c = some true := by
  obtain ⟨a, c, σ', h1, _, h3, h4, _⟩ :=
    (emptyAssign_then_emptyExpr ⟨"z.F", .Float64, false, .Cast, "Float64", "float64", ""⟩ "z.F"
      (fun _ => .float true 5) (by decide)).1
  exact ⟨a, c, σ', h1, h3, h4⟩

/-! ## Conservation of the fused bytes -/

theorem literalBytes_append (a b : List Line) :
    literalBytes (a ++ b) = literalBytes a ++ literalBytes b := by
  simp [literalBytes, List.flatMap_append]

theorem literalBytes_single (l : Line) : literalBytes [l] = l.literal := by
  simp [literalBytes]

theorem literalBytes_cons (l : Line) (ls : List Line) :
    literalBytes (l :: ls) = l.literal ++ literalBytes ls := by
  simp [literalBytes]

theorem literalBytes_nil : literalBytes [] = [] := rfl

theorem literalBytes_flush (f : List Nat) : literalBytes (flushLines f) = f := by
  unfold flushLines
  split_ifs with h
  · simp [literalBytes, Line.literal]
  · cases f with
    | nil => rfl
    | cons a t => simp at h

theorem literalBytes_none (ls : List Line) (h : ∀ l ∈ ls, l.literal = []) :
    literalBytes ls = [] := by
  induction ls with
  | nil => rfl
  | cons a t ih =>
    have ha := h a (List.mem_cons_self _ _)
    have ht := ih (fun l hl => h l (List.mem_cons_of_mem _ hl))
    simp only [literalBytes, List.flatMap_cons, ha, List.nil_append] at ht ⊢
    exact ht

theorem literalBytes_base (E : Collab) (b : BaseElem) (k : Nat) (ctx : List PathSeg) :
    literalBytes (baseLines E b k ctx) = [] := by
  apply literalBytes_none
  obtain ⟨vn, val, conv, sm, bn, bt, tb⟩ := b
  cases conv <;> cases sm <;> cases val <;> simp [baseLines, valueLines, Line.literal]

theorem literalBytes_checks (svar N M : String) (n : Nat) :
    ∀ (fs : List (StructField Elem)) (i : Nat), literalBytes (checkLines svar N M n i fs) = [] := by
  intro fs
  induction fs with
  | nil => intro i; rfl
  | cons sf rest ih =>
    intro i
    rw [checkLines, literalBytes_append, ih, List.append_nil]
    apply literalBytes_none
    intro l hl
    split_ifs at hl
    · split at hl <;> simp at hl
      rcases hl with rfl | rfl | rfl | rfl <;> rfl
    · simp at hl

theorem literalBytes_header (v : String) (n : Nat) : literalBytes (marshalHeaderLines v n) = [] := by
  apply literalBytes_none
  unfold marshalHeaderLines writeMarshalDynMapHeader
  split_ifs <;> simp [printer.printf, Line.literal]

theorem static_printf (m : marshalGen) (h : m.p.err = false) (l : Line) (hl : l.literal = []) :
    (m.printf l).p.err = false ∧ (m.printf l).fuse = m.fuse ∧
    (m.printf l).staticBytes = m.staticBytes := by
  obtain ⟨ap, ⟨out, err⟩, fuse, ctx, ids⟩ := m
  simp only at h
  subst h
  rw [printf_mk]
  simp [marshalGen.staticBytes, literalBytes_append, literalBytes, hl]

theorem gBase_emits (E : Collab) (b : BaseElem) : Emits (fun m => some (gBase E b m)) [] := by
  intro m hm
  obtain ⟨ap, ⟨out, err⟩, fuse, ctx, ids⟩ := m
  simp only at hm
  subst hm
  refine ⟨_, rfl, ?_, ?_, ?_⟩
  · rw [gBase_mk]
  · rw [gBase_mk]
  · rw [gBase_mk]
    simp [marshalGen.staticBytes, literalBytes_append, literalBytes_flush, literalBytes_base]

theorem gMap_emits (v k y : String) (recur : marshalGen → Option marshalGen) (x : List Nat)
    (h : Emits recur x) : Emits (gMap v k y recur) x := by
  intro m hm
  obtain ⟨ap, ⟨out, err⟩, fuse, ctx, ids⟩ := m
  simp only at hm
  subst hm
  unfold gMap
  simp only [printer.ok, Bool.not_false, Bool.false_eq_true, if_false, fuseHook_mk, rawAppend,
    printf_mk, marshalGen.PushVar]
  obtain ⟨m2, h1, h2, h3, h4⟩ := h _ (rfl : (marshalGen.mk ap
    { out := out ++ flushLines fuse ++ [Line.rawAppend mapHeader .lenAsUint32 (.name v)] ++
        [Line.forMap k y v] ++ [Line.rawAppend stringTyp .literalFmt (.name k)], err := false }
    [] (ctx ++ [.var k]) ids).p.err = false)
  rw [h1, Option.map_some']
  have hp := static_printf m2.Pop h2 .close rfl
  refine ⟨_, rfl, hp.1, hp.2.1.trans h3, ?_⟩
  rw [hp.2.2]
  have : m2.Pop.staticBytes = m2.staticBytes := rfl
  rw [this, h4]
  simp [marshalGen.staticBytes, literalBytes_append, literalBytes_flush, literalBytes_cons,
    literalBytes_nil, Line.literal]

theorem rangeBlock_emits (idx iter : String) (recur : marshalGen → Option marshalGen)
    (x : List Nat) (h : Emits recur x) (m : marshalGen) (hm : m.p.err = false) :
    ∃ m', rangeBlock idx iter recur m = some m' ∧ m'.p.err = false ∧ m'.fuse = [] ∧
      m'.staticBytes = m.staticBytes ++ x := by
  unfold rangeBlock
  have hp := static_printf (m.PushVar idx) hm (.forRange idx iter) rfl
  obtain ⟨m2, h1, h2, h3, h4⟩ := h _ hp.1
  simp only [h1, Option.map_some']
  have hq := static_printf m2 h2 .close rfl
  refine ⟨_, rfl, hq.1, hq.2.1.trans h3, ?_⟩
  have e1 : ((m2.printf .close).Pop).staticBytes = (m2.printf .close).staticBytes := rfl
  have e2 : (m.PushVar idx).staticBytes = m.staticBytes := rfl
  rw [e1, hq.2.2, h4, hp.2.2, e2]

theorem gSlice_emits (v i : String) (recur : marshalGen → Option marshalGen) (x : List Nat)
    (h : Emits recur x) : Emits (gSlice v i recur) x := by
  intro m hm
  obtain ⟨ap, ⟨out, err⟩, fuse, ctx, ids⟩ := m
  simp only at hm
  subst hm
  unfold gSlice
  simp only [printer.ok, Bool.not_false, Bool.false_eq_true, if_false, fuseHook_mk, rawAppend,
    printf_mk]
  obtain ⟨m', h1, h2, h3, h4⟩ := rangeBlock_emits i v recur x h
    (marshalGen.mk ap { out := out ++ flushLines fuse ++
      [Line.rawAppend arrayHeader .lenAsUint32 (.name v)], err := false } [] ctx ids) rfl
  refine ⟨m', h1, h2, h3, ?_⟩
  rw [h4]
  simp [marshalGen.staticBytes, literalBytes_append, literalBytes_flush, literalBytes_cons,
    literalBytes_nil, Line.literal]

theorem gPtr_emits (v : String) (recur : marshalGen → Option marshalGen) (x : List Nat)
    (h : Emits recur x) : Emits (gPtr v recur) x := by
  intro m hm
  obtain ⟨ap, ⟨out, err⟩, fuse, ctx, ids⟩ := m
  simp only at hm
  subst hm
  unfold gPtr
  simp only [printer.ok, Bool.not_false, Bool.false_eq_true, if_false, fuseHook_mk, printf_mk]
  obtain ⟨m2, h1, h2, h3, h4⟩ := h (marshalGen.mk ap
    { out := out ++ flushLines fuse ++ [Line.ifNilElse v], err := false } [] ctx ids) rfl
  rw [h1, Option.map_some']
  have hp := static_printf m2 h2 .close rfl
  refine ⟨_, rfl, hp.1, hp.2.1.trans h3, ?_⟩
  rw [hp.2.2, h4]
  simp [marshalGen.staticBytes, literalBytes_append, literalBytes_flush, literalBytes_cons,
    literalBytes_nil, Line.literal]

theorem gArray_emits (E : Collab) (v i sz : String) (els : Elem)
    (recur : marshalGen → Option marshalGen) (x : List Nat) (h : Emits recur x) :
    Emits (gArray E v i sz els recur)
      (match els with
       | .Base be => if be.Value = .Byte then [] else x
       | _ => x) := by
  intro m hm
  obtain ⟨ap, ⟨out, err⟩, fuse, ctx, ids⟩ := m
  simp only at hm
  subst hm
  unfold gArray
  simp only [printer.ok, Bool.not_false, Bool.false_eq_true, if_false, fuseHook_mk, rawAppend,
    printf_mk]
  have hgen : ∀ y, y = x →
      ∃ m', rangeBlock i v recur (marshalGen.mk ap { out := out ++ flushLines fuse ++
          [Line.rawAppend arrayHeader .literalFmt (.name (E.coerceArraySize sz))], err := false }
          [] ctx ids) = some m' ∧ m'.p.err = false ∧ m'.fuse = [] ∧
        m'.staticBytes = (marshalGen.mk ap { out := out, err := false } fuse ctx ids).staticBytes
          ++ y := by
    intro y hy
    subst hy
    obtain ⟨m', h1, h2, h3, h4⟩ := rangeBlock_emits i v recur y h
      (marshalGen.mk ap { out := out ++ flushLines fuse ++
        [Line.rawAppend arrayHeader .literalFmt (.name (E.coerceArraySize sz))], err := false }
        [] ctx ids) rfl
    refine ⟨m', h1, h2, h3, ?_⟩
    rw [h4]
    simp [marshalGen.staticBytes, literalBytes_append, literalBytes_flush, literalBytes_cons,
      literalBytes_nil, Line.literal]
  cases els with
  | Base be =>
    by_cases hb : be.Value = .Byte
    · simp only [hb, decide_True, if_true]
      refine ⟨_, rfl, rfl, rfl, ?_⟩
      simp [marshalGen.staticBytes, literalBytes_append, literalBytes_flush, literalBytes_cons,
        literalBytes_nil, Line.literal]
    · simp only [hb, decide_False, Bool.false_eq_true, if_false]
      exact hgen x rfl
  | Struct a b c => simpa using hgen x rfl
  | Map a b c d => simpa using hgen x rfl
  | Slice a b c => simpa using hgen x rfl
  | Array a b c d => simpa using hgen x rfl
  | Ptr a b => simpa using hgen x rfl

theorem tuple_emits (E : Collab) (fs : List (StructField Elem))
    (loop : marshalGen → Option marshalGen) (x : List Nat) (h : EmitsLoop loop fs x) :
    Emits (tuple E fs loop) (E.AppendArrayHeader (fs.length % 2 ^ 32) ++ x) := by
  intro m hm
  obtain ⟨ap, ⟨out, err⟩, fuse, ctx, ids⟩ := m
  simp only at hm
  subst hm
  unfold tuple
  simp only [printf_mk, Fuse_mk]
  by_cases h0 : fs.length = 0
  · have hfs : fs = [] := List.length_eq_zero.mp h0
    simp only [h0, if_true, fuseHook_mk]
    obtain ⟨m', h1, h2, _, h4, h5⟩ := h (marshalGen.mk ap
      { out := out ++ [Line.comment (.arrayHeader 0)] ++
          flushLines (fuse ++ E.AppendArrayHeader (0 % 2 ^ 32)), err := false } [] ctx ids) rfl
    refine ⟨m', h1, h2, h4 hfs, ?_⟩
    rw [h5]
    simp [marshalGen.staticBytes, literalBytes_append, literalBytes_flush, literalBytes_cons,
      literalBytes_nil, Line.literal, h0]
  · have hfs : fs ≠ [] := fun e => h0 (by rw [e]; rfl)
    simp only [h0, if_false]
    obtain ⟨m', h1, h2, h3, _, h5⟩ := h (marshalGen.mk ap
      { out := out ++ [Line.comment (.arrayHeader fs.length)], err := false }
      (fuse ++ E.AppendArrayHeader (fs.length % 2 ^ 32)) ctx ids) rfl
    refine ⟨m', h1, h2, h3 hfs, ?_⟩
    rw [h5]
    simp [marshalGen.staticBytes, literalBytes_append, literalBytes_cons,
      literalBytes_nil, Line.literal]

theorem mapstruct_emits (v : String) (fs : List (StructField Elem))
    (loop : String → marshalGen → Option marshalGen) (x : List Nat)
    (h : ∀ em, EmitsLoop (loop em) fs x) :
    Emits (mapstruct v fs loop)
      ((if isEncForAnyFields fs then [] else AppendMapHeader [] (fs.length % 2 ^ 32)) ++ x) := by
  intro m hm
  obtain ⟨ap, ⟨out, err⟩, fuse, ctx, ids⟩ := m
  simp only at hm
  subst hm
  unfold mapstruct
  by_cases hany : isEncForAnyFields fs = true
  · have hfs : fs ≠ [] := by
      intro e
      rw [e] at hany
      simp [isEncForAnyFields] at hany
    simp only [hany, if_true, printf_mk]
    rw [mapstructChecks_ok _ _ _ _ _ _ _ rfl]
    simp only [printf_mk, writeHeader_mk, printer.ok, Bool.not_false, Bool.not_true,
      Bool.false_eq_true, if_false]
    have key : ∀ st : marshalGen, st.p.err = false → st.fuse = fuse →
        literalBytes st.p.out = literalBytes out →
        ∃ m', loop (ReplaceAll v '.' "__" ++ "EmptyMask") st = some m' ∧ m'.p.err = false ∧
          m'.fuse = [] ∧ m'.staticBytes = literalBytes out ++ fuse ++ ([] ++ x) := by
      intro st h1 h2 h3
      obtain ⟨m', e1, e2, e3, _, e5⟩ := h (ReplaceAll v '.' "__" ++ "EmptyMask") st h1
      refine ⟨m', e1, e2, e3 hfs, ?_⟩
      rw [e5, marshalGen.staticBytes, h2, h3]
      simp
    refine key _ rfl rfl ?_
    simp [literalBytes_append, literalBytes_cons, literalBytes_nil,
      Line.literal, literalBytes_checks, literalBytes_header]
  · have hany' : isEncForAnyFields fs = false := by simpa using hany
    simp only [hany', Bool.false_eq_true, if_false, printf_mk, Fuse_mk]
    by_cases h0 : fs.length = 0
    · have hfs : fs = [] := List.length_eq_zero.mp h0
      simp only [h0, if_true, fuseHook_mk]
      obtain ⟨m', h1, h2, _, h4, h5⟩ := h "" (marshalGen.mk ap
        { out := out ++ [Line.comment (.mapHeader 0)] ++
            flushLines (fuse ++ AppendMapHeader [] (0 % 2 ^ 32)), err := false } [] ctx ids) rfl
      refine ⟨m', h1, h2, h4 hfs, ?_⟩
      rw [h5]
      simp [marshalGen.staticBytes, literalBytes_append, literalBytes_flush, literalBytes_cons,
        literalBytes_nil, Line.literal, h0]
    · have hfs : fs ≠ [] := fun e => h0 (by rw [e]; rfl)
      simp only [h0, if_false]
      obtain ⟨m', h1, h2, h3, _, h5⟩ := h "" (marshalGen.mk ap
        { out := out ++ [Line.comment (.mapHeader fs.length)], err := false }
        (fuse ++ AppendMapHeader [] (fs.length % 2 ^ 32)) ctx ids) rfl
      refine ⟨m', h1, h2, h3 hfs, ?_⟩
      rw [h5]
      simp [marshalGen.staticBytes, literalBytes_append, literalBytes_cons,
        literalBytes_nil, Line.literal]

theorem gStruct_emits (E : Collab) (v : String) (t : Bool) (fs : List (StructField Elem))
    (tl : marshalGen → Option marshalGen) (ml : String → marshalGen → Option marshalGen)
    (x y : List Nat) (ht : EmitsLoop tl fs x) (hm : ∀ em, EmitsLoop (ml em) fs y) :
    Emits (gStruct E v t fs tl ml)
      (if t then E.AppendArrayHeader (fs.length % 2 ^ 32) ++ x
       else (if isEncForAnyFields fs then [] else AppendMapHeader [] (fs.length % 2 ^ 32)) ++ y) := by
  intro m hok
  unfold gStruct
  simp only [printer.ok, hok, Bool.not_false, Bool.false_eq_true, if_false]
  cases t with
  | true => simpa using tuple_emits E fs tl x ht m hok
  | false => simpa using mapstruct_emits v fs ml y hm m hok

theorem static_cond_printf (c : Bool) (m : marshalGen) (h : m.p.err = false) (l : Line)
    (hl : l.literal = []) :
    (if c then m.printf l else m).p.err = false ∧ (if c then m.printf l else m).fuse = m.fuse ∧
    (if c then m.printf l else m).staticBytes = m.staticBytes := by
  cases c
  · simpa using h
  · simpa using static_printf m h l hl

theorem tupleFields_cons_emits (E : Collab) (sf : StructField Elem)
    (rest : List (StructField Elem)) (x y : List Nat)
    (hn : Emits (next E sf.FieldElem) x) (hr : EmitsLoop (tupleFields E rest) rest y) :
    EmitsLoop (tupleFields E (sf :: rest)) (sf :: rest) (x ++ y) := by
  intro m hm
  rw [tupleFields]
  simp only [printer.ok, hm, Bool.not_false, Bool.false_eq_true, if_false]
  obtain ⟨m1, e1, e2, e3, e4⟩ := hn (m.PushString sf.FieldName) hm
  rw [e1]
  obtain ⟨m2, f1, f2, f3, f4, f5⟩ := hr m1.Pop e2
  refine ⟨m2, f1, f2, ?_, ?_, ?_⟩
  · intro _
    by_cases hrest : rest = []
    · rw [f4 hrest]
      exact e3
    · exact f3 hrest
  · intro h
    cases h
  · rw [f5]
    change m1.staticBytes ++ y = _
    rw [e4]
    change (m.staticBytes ++ x) ++ y = _
    rw [List.append_assoc]

theorem mapstructFields_cons_emits (E : Collab) (M : String) (n i : Nat)
    (sf : StructField Elem) (rest : List (StructField Elem)) (x y : List Nat)
    (hn : Emits (next E sf.FieldElem) x)
    (hr : EmitsLoop (mapstructFields E M n (i + 1) rest) rest y) :
    EmitsLoop (mapstructFields E M n i (sf :: rest)) (sf :: rest)
      (E.AppendString sf.FieldTag ++ x ++ y) := by
  intro m hm
  rw [mapstructFields]
  simp only [printer.ok, hm, Bool.not_false, Bool.false_eq_true, if_false, Fuse_eq]
  obtain ⟨a1, a2, a3⟩ :=
    static_cond_printf (isEncField sf) m hm (.ifMask (bmaskRead M i n)) rfl
  obtain ⟨b1, b2, b3⟩ := static_printf _ a1 (.comment (.keyString sf.FieldTag)) rfl
  have key : ∀ st : marshalGen, st.p.err = false →
      st.staticBytes = m.staticBytes ++ E.AppendString sf.FieldTag →
      ∃ m', (match next E sf.FieldElem st with
          | none => none
          | some m =>
            mapstructFields E M n (i + 1) rest
              (if isEncField sf = true then m.Pop.printf .close else m.Pop)) = some m' ∧
        m'.p.err = false ∧ (sf :: rest ≠ [] → m'.fuse = []) ∧
        (sf :: rest = [] → m'.fuse = m.fuse) ∧
        m'.staticBytes = m.staticBytes ++ (E.AppendString sf.FieldTag ++ x ++ y) := by
    intro st h1 h2
    obtain ⟨m4, e1, e2, e3, e4⟩ := hn st h1
    rw [e1]
    obtain ⟨c1, c2, c3⟩ := static_cond_printf (isEncField sf) m4.Pop e2 .close rfl
    obtain ⟨m7, f1, f2, f3, f4, f5⟩ :=
      hr (if isEncField sf = true then m4.Pop.printf .close else m4.Pop) c1
    refine ⟨m7, f1, f2, ?_, ?_, ?_⟩
    · intro _
      by_cases hrest : rest = []
      · rw [f4 hrest, c2]
        exact e3
      · exact f3 hrest
    · intro h
      cases h
    · rw [f5, c3]
      change m4.staticBytes ++ y = _
      rw [e4, h2]
      simp
  refine key _ b1 ?_
  have : ∀ (q : marshalGen) (d : List Nat) (s : String),
      (marshalGen.PushString { q with fuse := q.fuse ++ d } s).staticBytes
        = q.staticBytes ++ d := by
    intro q d s
    simp [marshalGen.staticBytes, marshalGen.PushString]
  rw [this, b3, a3]

theorem next_struct_eq (E : Collab) (v : String) (t : Bool) (fs : List (StructField Elem)) :
    next E (.Struct v t fs)
      = gStruct E v t fs (tupleFields E fs) (fun em => mapstructFields E em fs.length 0 fs) := by
  funext m
  rw [next]

theorem fusedBytes_array (E : Collab) (v i sz : String) (els : Elem) :
    fusedBytes E (.Array v i sz els)
      = (match els with
         | .Base be => if be.Value = .Byte then [] else fusedBytes E els
         | _ => fusedBytes E els) := by
  cases els <;> simp [fusedBytes]

mutual
theorem next_emits (E : Collab) : ∀ e : Elem, Emits (next E e) (fusedBytes E e)
  | .Base b => by
    have h : next E (.Base b) = fun m => some (gBase E b m) := by
      funext m
      rw [next]
    rw [h, fusedBytes]
    exact gBase_emits E b
  | .Map v k y value => by
    have h : next E (.Map v k y value) = gMap v k y (next E value) := by
      funext m
      rw [next]
    rw [h, fusedBytes]
    exact gMap_emits v k y _ _ (next_emits E value)
  | .Slice v i els => by
    have h : next E (.Slice v i els) = gSlice v i (next E els) := by
      funext m
      rw [next]
    rw [h, fusedBytes]
    exact gSlice_emits v i _ _ (next_emits E els)
  | .Array v i sz els => by
    have h : next E (.Array v i sz els) = gArray E v i sz els (next E els) := by
      funext m
      rw [next]
    rw [h, fusedBytes_array]
    exact gArray_emits E v i sz els _ _ (next_emits E els)
  | .Ptr v value => by
    have h : next E (.Ptr v value) = gPtr v (next E value) := by
      funext m
      rw [next]
    rw [h, fusedBytes]
    exact gPtr_emits v _ _ (next_emits E value)
  | .Struct v t fs => by
    rw [next_struct_eq, fusedBytes]
    exact gStruct_emits E v t fs _ _ _ _ (tupleFields_emits E fs)
      (fun em => mapstructFields_emits E em fs.length fs 0)
theorem tupleFields_emits (E : Collab) :
    ∀ fs : List (StructField Elem), EmitsLoop (tupleFields E fs) fs (fusedTuple E fs)
  | [] => by
    intro m hm
    refine ⟨m, ?_, hm, fun h => absurd rfl h, fun _ => rfl, ?_⟩
    · rw [tupleFields]
    · rw [fusedTuple, List.append_nil]
  | sf :: rest => by
    rw [fusedTuple]
    exact tupleFields_cons_emits E sf rest _ _ (next_emits E sf.FieldElem)
      (tupleFields_emits E rest)
theorem mapstructFields_emits (E : Collab) (M : String) (n : Nat) :
    ∀ (fs : List (StructField Elem)) (i : Nat),
      EmitsLoop (mapstructFields E M n i fs) fs (fusedFields E fs)
  | [], i => by
    intro m hm
    refine ⟨m, ?_, hm, fun h => absurd rfl h, fun _ => rfl, ?_⟩
    · rw [mapstructFields]
    · rw [fusedFields, List.append_nil]
  | sf :: rest, i => by
    rw [fusedFields]
    exact mapstructFields_cons_emits E M n i sf rest _ _ (next_emits E sf.FieldElem)
      (mapstructFields_emits E M n rest (i + 1))
end

/-! ## Absence of panics -/

theorem mapstructChecks_isSome (svar N M : String) (n : Nat)
    (fs : List (StructField Elem)) (i : Nat) (m : marshalGen) :
    (mapstructChecks svar N M n i fs m).isSome = true := by
  cases hm : m.p.err
  · rw [mapstructChecks_ok _ _ _ _ _ _ _ hm]
    rfl
  · cases fs with
    | nil =>
      rw [mapstructChecks]
      rfl
    | cons sf rest =>
      rw [mapstructChecks]
      simp [printer.ok, hm]

theorem next_of_err (E : Collab) (e : Elem) (m : marshalGen) (hm : m.p.err = true) :
    next E e m = some m := by
  cases e <;> rw [next] <;>
    simp [gMap, gSlice, gArray, gPtr, gStruct, gBase, printer.ok, hm]

theorem next_isSome (E : Collab) (e : Elem) (m : marshalGen) : (next E e m).isSome = true := by
  cases hm : m.p.err
  · obtain ⟨m', h, _⟩ := next_emits E e m hm
    rw [h]
    rfl
  · rw [next_of_err E e m hm]
    rfl

/-- C18: `emptyExpr e v` and `emptyAssign e v` return normally exactly when
`isSupportedElem e` holds (they panic otherwise), whatever the variable name.
The first loop of `mapstruct`, which calls `emptyExpr` only on the fields for
which `isEncField` holds, never panics, for every list of fields, every
starting index and every generator state; and the whole traversal `next`
returns for every Elem and every generator state. -/
theorem emptyExpr_panic_unreachable :
    (∀ (e : Elem) (v : String), (emptyExpr e v).isSome = isSupportedElem e) ∧
    (∀ (e : Elem) (v : String), (emptyAssign e v).isSome = isSupportedElem e) ∧
    (∀ (sf : StructField Elem) (v : String), isEncField sf = true →
      (emptyExpr sf.FieldElem v).isSome = true) ∧
    (∀ (svar N M : String) (n i : Nat) (fs : List (StructField Elem)) (m : marshalGen),
      (mapstructChecks svar N M n i fs m).isSome = true) ∧
    (∀ (E : Collab) (e : Elem) (m : marshalGen), (next E e m).isSome = true) := by
  have h1 : ∀ (e : Elem) (v : String), (emptyExpr e v).isSome = isSupportedElem e := by
    intro e v
    cases e with
    | Base b =>
      obtain ⟨vn, val, conv, sm, bn, bt, tb⟩ := b
      cases val <;> rfl
    | _ => rfl
  refine ⟨h1, ?_, ?_, ?_, ?_⟩
  · intro e v
    cases e with
    | Base b =>
      obtain ⟨vn, val, conv, sm, bn, bt, tb⟩ := b
      cases val <;> rfl
    | _ => rfl
  · intro sf v h
    rw [h1, isEncField_supported sf h]
  · intro svar N M n i fs m
    exact mapstructChecks_isSome svar N M n fs i m
  · intro E e m
    exact next_isSome E e m

/-! ## The fusion buffer at the end of a pass -/

/-- C20: a marshal pass started with an empty fusion buffer returns (no
panic) with an empty fusion buffer, for every Elem and every generator state;
and when the printer has no error, the passes give `q` and `q` is printable,
the printer still has no error and the literal bytes added to the output are
exactly the bytes passed to `Fuse` during the pass, in the order of the
calls. -/
theorem execute_leaves_fuse_empty (E : Collab) (p : Elem) (m : marshalGen) (hf : m.fuse = []) :
    ∃ m', Execute E p m = some m' ∧ m'.fuse = [] ∧
      (m.p.err = false → ∀ q, m.applyall p = some q → E.IsPrintable q = true →
        m'.p.err = false ∧
        literalBytes m'.p.out = literalBytes m.p.out ++ fusedBytes E q) := by
  obtain ⟨ap, ⟨out, err⟩, fuse, ctx, ids⟩ := m
  simp only at hf
  subst hf
  unfold Execute
  cases err with
  | true =>
    refine ⟨marshalGen.mk ap ⟨out, true⟩ [] ctx ids, by simp [printer.ok], rfl, ?_⟩
    intro h
    cases h
  | false =>
    simp only [printer.ok, Bool.not_false, Bool.false_eq_true, if_false]
    cases hq : ap p with
    | none =>
      refine ⟨marshalGen.mk ap ⟨out, false⟩ [] ctx ids, rfl, rfl, ?_⟩
      intro _ q h
      cases h
    | some q =>
      simp only
      cases hp : E.IsPrintable q with
      | false =>
        refine ⟨marshalGen.mk ap ⟨out, false⟩ [] ctx ids, by simp, rfl, ?_⟩
        intro _ q' h hq'
        cases h
        rw [hp] at hq'
        cases hq'
      | true =>
        simp only [Bool.not_true, Bool.false_eq_true, if_false, printf_mk]
        have key : ∀ st : marshalGen, st.p.err = false → st.fuse = [] →
            literalBytes st.p.out = literalBytes out →
            ∃ m', (next E q st).map (fun m => m.printf .nakedReturn) = some m' ∧ m'.fuse = [] ∧
              (True → ∀ q', some q = some q' → E.IsPrintable q' = true →
                m'.p.err = false ∧ literalBytes m'.p.out = literalBytes out ++ fusedBytes E q') := by
          intro st h1 h2 h3
          obtain ⟨m1, e1, e2, e3, e4⟩ := next_emits E q st h1
          obtain ⟨c1, c2, c3⟩ := static_printf m1 e2 .nakedReturn rfl
          refine ⟨m1.printf .nakedReturn, by rw [e1]; rfl, by rw [c2, e3], ?_⟩
          intro _ q' h _
          cases h
          refine ⟨c1, ?_⟩
          have hs : (m1.printf .nakedReturn).staticBytes = literalBytes out ++ fusedBytes E q := by
            rw [c3, e4, marshalGen.staticBytes, h2, h3, List.append_nil]
          rw [marshalGen.staticBytes, c2, e3, List.append_nil] at hs
          exact hs
        refine key _ ?_ ?_ ?_
        · rfl
        · rfl
        · simp [literalBytes_append, literalBytes_cons, literalBytes_nil, Line.literal]

/-! ## Fused bytes pending in the omission branch -/

/-- C17: evaluation at `nestedRecord`, a keyed record with no
omission-qualifying field whose single field `in` is a keyed record with an
`omitempty` string field.  The pass reaches the inner record in the state
`enteringInner`, whose fusion buffer holds the header and the key of the
outer record (0x81, 0xa2, 105, 110).  The omission branch of `mapstruct`
never calls `fuseHook`: after the first loop has printed the emptiness test
the four bytes are still pending, and the inner record prints its emptiness
test, its dynamic header, its early return and its mask-bit guard before the
literal append that carries them.  On an instance whose strings are not
empty the generated procedure does not produce the bytes in the order in
which the generator emitted them. -/
theorem omitempty_branch_keeps_fuse_pending :
    isEncForAnyFields outerFields = false ∧ isEncForAnyFields innerFields = true ∧
    Execute msgpack nestedRecord marshal
      = (mapstruct "z.In" innerFields
          (fun em => mapstructFields msgpack em innerFields.length 0 innerFields)
          enteringInner).map (fun m => m.Pop.printf .nakedReturn) ∧
    enteringInner.p.err = false ∧
    enteringInner.fuse = [0x81, 0xa2, 105, 110] ∧
    (mapstructChecks "z.In" "z__InFieldN" "z__InEmptyMask" innerFields.length 0 innerFields
        enteringInnerChecks).map
        (fun r => (r.1, r.2.fuse, r.2.p.out.drop enteringInnerChecks.p.out.length))
      = some (false, [0x81, 0xa2, 105, 110],
          [.ifEmpty (.lenZero "z.In.A"), .decr "z__InFieldN",
           .maskSet ⟨"z__InEmptyMask", none, 1⟩, .close]) ∧
    (mapstruct "z.In" innerFields
        (fun em => mapstructFields msgpack em innerFields.length 0 innerFields)
        enteringInner).map (fun m => (m.fuse, m.p.out.drop enteringInner.p.out.length))
      = some ([],
          [.comment .omitCheck, .countDecl "z__InFieldN" 1, .maskDecl "z__InEmptyMask" .uint8,
           .ifEmpty (.lenZero "z.In.A"), .decr "z__InFieldN",
           .maskSet ⟨"z__InEmptyMask", none, 1⟩, .close,
           .comment (.dynHeader "z__InFieldN"), .dynAppend [[.fixmap "z__InFieldN"]],
           .ifZeroReturn "z__InFieldN", .ifMask ⟨"z__InEmptyMask", none, 1⟩,
           .comment (.keyString "a"), .rawbytes [0x81, 0xa2, 105, 110, 0xa1, 97],
           .rawAppend "String" .literalFmt (.name "z.In.A"), .close]) ∧
    (procedure msgpack nestedRecord marshal).map (run filledInstance [])
      ≠ some (.ok ([0x81, 0xa2, 105, 110] ++ [0x81] ++ [0xa1, 97] ++ [0xa1, 65])) := by
  refine ⟨by decide, by decide, rfl, rfl, by decide, by decide, by decide, by decide⟩

/-- C20 at zero-field records: from the generator `marshal`, whose fusion
buffer is empty, the pass over a keyed record without field returns with an
empty fusion buffer; the header of a zero-field record is in the output in
both modes (0x80 keyed, 0x90 positional). -/
theorem execute_leaves_fuse_empty_witness :
    marshal.fuse = [] ∧
    (∃ m', Execute msgpack (.Struct "z" false []) marshal = some m' ∧ m'.fuse = [] ∧
      (marshal.p.err = false → ∀ q, marshal.applyall (.Struct "z" false []) = some q →
        msgpack.IsPrintable q = true →
        m'.p.err = false ∧
        literalBytes m'.p.out = literalBytes marshal.p.out ++ fusedBytes msgpack q)) ∧
    (Execute msgpack (.Struct "z" false []) marshal).map
        (fun m => (m.fuse, literalBytes m.p.out)) = some ([], [0x80]) ∧
    (Execute msgpack (.Struct "z" true []) marshal).map
        (fun m => (m.fuse, literalBytes m.p.out)) = some ([], [0x90]) :=
  ⟨rfl, execute_leaves_fuse_empty msgpack (.Struct "z" false []) marshal rfl,
    by decide, by decide⟩

end Gen
